import Mathlib

/-!
# besiq: sufficient statistics, the interaction Wald test, the nested Gaussian models, IRLS

A shallow embedding of `wald_lm_method::run` (libs/besiq/method/wald_lm_method.cpp),
of `lm_full::prob`, `intercept::prob`, `single::prob`
(libs/bayesic/stats/stepwise_models.cpp), of `irls` (libs/glm/irls.cpp), of the driver
`run_method` (libs/besiq/method/method.cpp) and of `get_fields`
(libs/besiq/io/covariates.cpp).

Conventions of the embedding.

* `double` arithmetic is read in three ways.  The main embedding reads it as exact
  arithmetic in a linearly ordered field `K` (the statements are evaluated at `ℚ`),
  without rounding.  A field gives `x / 0 = 0`, where IEEE arithmetic gives an infinity
  or a NaN, so a statement whose content would depend on a zero divisor carries the
  hypothesis that the divisor is non-zero.  The definitions ending in `_ieee` embed the
  `prob` methods over `ieee K`, the field with the special values of IEEE arithmetic
  (the two infinities and NaN), again without rounding.  The definitions ending in `_fl`
  round the result of every operation by a parameter `rnd`; with `rnd = binary64`
  (round to nearest, ties to even) they compute what the code computes on doubles, and
  without rounding they are the main embedding.
* `arma::mat` objects of fixed shape 3 x 3 are functions `Nat → Nat → K` read at
  indices below 3; the genotype codes are natural numbers.
* `METHOD_SMALLEST_CELL_SIZE_NORMAL` is a macro defined outside the files at hand;
  it is the parameter `threshold`.
* `chi_square_cdf` (dcdflib) is a parameter returning `none` where the library throws
  `bad_domain_value`; `std::log` and `datum::pi` are parameters as well.
* `arma::inv` is the exact inverse: it fails exactly on a matrix of determinant zero.
* For `irls`, the library functions `sqrt`, `arma::solve`, `is_finite`, the constant
  `DBL_MAX` and the model interface `glm_model` are parameters; the `while` loop is cut
  after `IRLS_MAX_ITERS` passes, which is shown to be enough.
* For `run_method`, the method interface, the genotype store, the pair file and the
  result file are parameters; the result file is the list of the calls made on it.
* An element access `v[ i ]` of a `std::vector` past its size is an outcome of its own
  (`out_of_range` of `get_fields_result`), since the behaviour is undefined.
-/

namespace Besiq

/-! ## Sufficient statistics: the accumulation loop of `wald_lm_method::run` -/

/-- The three 3 x 3 matrices `n`, `suf`, `suf2` of `wald_lm_method::run`. -/
structure SufStats (K : Type) where
  n : Nat → Nat → K
  suf : Nat → Nat → K
  suf2 : Nat → Nat → K

/-- The matrix `arma::zeros<arma::mat>( 3, 3 )`. -/
def zeros (K : Type) [Zero K] : Nat → Nat → K := fun _ _ => 0

/-- The update `m( a, b ) += v`. -/
def add_at {K : Type} [Add K] (m : Nat → Nat → K) (a b : Nat) (v : K) : Nat → Nat → K :=
  fun i j => if i = a ∧ j = b then m i j + v else m i j

/-- The assignment `m( a, b ) = v`. -/
def set_at {K : Type} (m : Nat → Nat → K) (a b : Nat) (v : K) : Nat → Nat → K :=
  fun i j => if i = a ∧ j = b then v else m i j

/-- One pass through the body of the loop `for(int i = 0; i < row1.size( ); i++)`
(wald_lm_method.cpp, lines 46-60). -/
def accumulate_step {K : Type} [LinearOrderedField K] (row1 row2 m_missing : List Nat)
    (m_pheno : List K) (s : SufStats K) (i : Nat) : SufStats K :=
  let snp1 := row1.getD i 0
  let snp2 := row2.getD i 0
  if snp1 = 3 ∨ snp2 = 3 ∨ m_missing.getD i 0 = 1 then s
  else
    let pheno := m_pheno.getD i 0
    { n := add_at s.n snp1 snp2 1
      suf := add_at s.suf snp1 snp2 pheno
      suf2 := add_at s.suf2 snp1 snp2 (pheno * pheno) }

/-- The loop over the first `m` sample indices, started from three zero matrices. -/
def accumulate_upto {K : Type} [LinearOrderedField K] (row1 row2 m_missing : List Nat)
    (m_pheno : List K) (m : Nat) : SufStats K :=
  (List.range m).foldl (accumulate_step row1 row2 m_missing m_pheno)
    { n := zeros K, suf := zeros K, suf2 := zeros K }

/-- The whole accumulation loop of `wald_lm_method::run` (lines 42-60). -/
def accumulate {K : Type} [LinearOrderedField K] (row1 row2 m_missing : List Nat)
    (m_pheno : List K) : SufStats K :=
  accumulate_upto row1 row2 m_missing m_pheno row1.length

/-- The sample indices that the loop adds to cell `(a, b)`. -/
def cell_samples (row1 row2 m_missing : List Nat) (a b : Nat) (m : Nat) : Finset Nat :=
  (Finset.range m).filter
    (fun i => row1.getD i 0 = a ∧ row2.getD i 0 = b ∧ m_missing.getD i 0 ≠ 1)

/-- The sample indices with both genotypes present and not masked. -/
def ok_samples (row1 row2 m_missing : List Nat) (m : Nat) : Finset Nat :=
  (Finset.range m).filter
    (fun i => row1.getD i 0 ≠ 3 ∧ row2.getD i 0 ≠ 3 ∧ m_missing.getD i 0 ≠ 1)

/-! ## Cell means, residuals and variances (`wald_lm_method::run`, lines 62-99) -/

/-- The nine cells in the order of the nested loops `for i < 3`, `for j < 3`. -/
def cells : List (Nat × Nat) :=
  [(0, 0), (0, 1), (0, 2), (1, 0), (1, 1), (1, 2), (2, 0), (2, 1), (2, 2)]

/-- The sum `arma::accu( m )` of the nine entries of a 3 x 3 matrix. -/
def accu {K : Type} [LinearOrderedField K] (m : Nat → Nat → K) : K :=
  (cells.map (fun c => m c.1 c.2)).sum

/-- The locals `resid`, `mu` and `num_samples` of `wald_lm_method::run`. -/
structure Moments (K : Type) where
  resid : Nat → Nat → K
  mu : Nat → Nat → K
  num_samples : K

/-- The body of the nested loops of lines 66-79 at the cell `c = (i, j)`: a cell
whose count is below the threshold is skipped. -/
def moments_step {K : Type} [LinearOrderedField K] (s : SufStats K) (threshold : K)
    (st : Moments K) (c : Nat × Nat) : Moments K :=
  if s.n c.1 c.2 < threshold then st
  else
    { resid := set_at st.resid c.1 c.2
        (s.suf2 c.1 c.2 - s.suf c.1 c.2 * s.suf c.1 c.2 / s.n c.1 c.2)
      mu := set_at st.mu c.1 c.2 (s.suf c.1 c.2 / s.n c.1 c.2)
      num_samples := st.num_samples + s.n c.1 c.2 }

/-- The residual loop (lines 62-79). -/
def moments {K : Type} [LinearOrderedField K] (s : SufStats K) (threshold : K) : Moments K :=
  cells.foldl (moments_step s threshold)
    { resid := zeros K, mu := zeros K, num_samples := 0 }

/-- The body of the per-cell variance loop of lines 89-98. -/
def sigma2_step {K : Type} [LinearOrderedField K] (s : SufStats K) (resid : Nat → Nat → K)
    (sg : Nat → Nat → K) (c : Nat × Nat) : Nat → Nat → K :=
  if s.n c.1 c.2 > 9 then set_at sg c.1 c.2 (resid c.1 c.2 / (s.n c.1 c.2 - 9)) else sg

/-- The matrix `sigma2` (lines 82-99): the pooled estimate added to every entry of
a zero matrix when `m_unequal_var` is false, the per-cell loop otherwise. -/
def sigma2 {K : Type} [LinearOrderedField K] (s : SufStats K) (mo : Moments K)
    (m_unequal_var : Bool) : Nat → Nat → K :=
  if !m_unequal_var then
    fun i j => zeros K i j + accu mo.resid / (mo.num_samples - 9)
  else
    cells.foldl (sigma2_step s mo.resid) (zeros K)

/-! ## Contrasts and their covariance (`wald_lm_method::run`, lines 101-149) -/

/-- The array `int i_map[] = { 1, 1, 2, 2 }`. -/
def i_map : List Nat := [1, 1, 2, 2]

/-- The array `int j_map[] = { 1, 2, 1, 2 }`. -/
def j_map : List Nat := [1, 2, 1, 2]

/-- The locals `num_valid`, `valid` and the member `m_beta` during the loop of
lines 107-120. -/
structure Contrasts (K : Type) where
  num_valid : Nat
  valid : List Nat
  m_beta : List K

/-- The body of the loop `for(int i = 0; i < 4; i++)` of lines 107-120. -/
def contrast_step {K : Type} [LinearOrderedField K] (n : Nat → Nat → K) (threshold : K)
    (mu : Nat → Nat → K) (st : Contrasts K) (i : Nat) : Contrasts K :=
  let c_i := i_map.getD i 0
  let c_j := j_map.getD i 0
  if n 0 0 ≥ threshold ∧ n 0 c_j ≥ threshold ∧ n c_i 0 ≥ threshold ∧ n c_i c_j ≥ threshold then
    { num_valid := st.num_valid + 1
      valid := st.valid.set st.num_valid i
      m_beta := st.m_beta.set st.num_valid (mu 0 0 - mu 0 c_j - mu c_i 0 + mu c_i c_j) }
  else st

/-- The contrast loop (lines 102-120), started from `num_valid = 0`, a four-element
`valid` and `m_beta = arma::zeros<arma::vec>( 4 )`. -/
def find_contrasts {K : Type} [LinearOrderedField K] (n : Nat → Nat → K) (threshold : K)
    (mu : Nat → Nat → K) : Contrasts K :=
  (List.range 4).foldl (contrast_step n threshold mu)
    { num_valid := 0, valid := List.replicate 4 0, m_beta := List.replicate 4 0 }

/-- The right-hand side of the assignment to `m_C( iv, jv )` (lines 133-147) for the
contrast indices `i = valid[ iv ]` and `j = valid[ jv ]`. -/
def cov_entry {K : Type} [LinearOrderedField K] (n sg : Nat → Nat → K) (i j : Nat) : K :=
  let c_i := i_map.getD i 0
  let c_j := j_map.getD i 0
  let o_i := i_map.getD j 0
  let o_j := j_map.getD j 0
  let same_row : K := if c_i = o_i then 1 else 0
  let same_col : K := if c_j = o_j then 1 else 0
  let in_cell : K := if i = j then 1 else 0
  sg 0 0 / n 0 0 + same_col * sg 0 c_j / n 0 c_j + same_row * sg c_i 0 / n c_i 0
    + in_cell * sg c_i c_j / n c_i c_j

/-- The matrix `m_C` built by the loops of lines 130-149. -/
def build_C {K : Type} [LinearOrderedField K] (n sg : Nat → Nat → K) (valid : List Nat)
    (num_valid : Nat) : Matrix (Fin num_valid) (Fin num_valid) K :=
  fun iv jv => cov_entry n sg (valid.getD iv.val 0) (valid.getD jv.val 0)

/-- The call `inv( Cinv, m_C )`: it fails on a singular matrix and yields the inverse
otherwise. -/
def inv {K : Type} [LinearOrderedField K] {k : Nat} (A : Matrix (Fin k) (Fin k) K) :
    Option (Matrix (Fin k) (Fin k) K) :=
  if A.det = 0 then none else some (A.det⁻¹ • A.adjugate)

/-- The vector held by a resized `arma::vec`, read as a function on its indices. -/
def as_vec {K : Type} [LinearOrderedField K] (k : Nat) (v : List K) : Fin k → K :=
  fun i => v.getD i.val 0

/-! ## The method object and `wald_lm_method::run` -/

/-- A square matrix of run-time size, the type of the member `m_C`. -/
structure SqMat (K : Type) where
  dim : Nat
  val : Matrix (Fin dim) (Fin dim) K

/-- The members of `wald_lm_method` that `run` reads or writes; `m_num_ok_samples`
is the value handed to `set_num_ok_samples` (the cast to `size_t` is the identity on the
whole-number totals the loop produces). -/
structure wald_lm_method (K : Type) where
  m_unequal_var : Bool
  m_missing : List Nat
  m_pheno : List K
  m_beta : List K
  m_C : SqMat K
  m_num_ok_samples : K

/-- What a call of `run` leaves behind: the object, the `output` array, and the
returned value (`none` when `chi_square_cdf` throws). -/
structure RunResult (K : Type) where
  self : wald_lm_method K
  output : List K
  ret : Option K

/-- The state of the contrast loop when it ends (line 120), as a function of the table. -/
def run_contrasts {K : Type} [LinearOrderedField K] (threshold : K) (s : SufStats K) :
    Contrasts K :=
  find_contrasts s.n threshold (moments s threshold).mu

/-- The vector `valid` after `valid.resize( num_valid )` (line 126). -/
def run_valid {K : Type} [LinearOrderedField K] (threshold : K) (s : SufStats K) : List Nat :=
  (run_contrasts threshold s).valid.take (run_contrasts threshold s).num_valid

/-- The vector `m_beta` after `m_beta.resize( num_valid )` (line 127). -/
def run_beta {K : Type} [LinearOrderedField K] (threshold : K) (s : SufStats K) : List K :=
  (run_contrasts threshold s).m_beta.take (run_contrasts threshold s).num_valid

/-- The matrix `sigma2` of the call (lines 82-99). -/
def run_sigma2 {K : Type} [LinearOrderedField K] (threshold : K) (m_unequal_var : Bool)
    (s : SufStats K) : Nat → Nat → K :=
  sigma2 s (moments s threshold) m_unequal_var

/-- The matrix `m_C` after the loops of lines 130-149. -/
def run_C {K : Type} [LinearOrderedField K] (threshold : K) (m_unequal_var : Bool)
    (s : SufStats K) :
    Matrix (Fin (run_contrasts threshold s).num_valid)
      (Fin (run_contrasts threshold s).num_valid) K :=
  build_C s.n (run_sigma2 threshold m_unequal_var s) (run_valid threshold s)
    (run_contrasts threshold s).num_valid

/-- Lines 62-164 of `wald_lm_method::run`, from the accumulated table `s` on. -/
def wald_lm_method.run_table {K : Type} [LinearOrderedField K] (threshold : K)
    (chi_square_cdf : K → Nat → Option K) (self : wald_lm_method K) (s : SufStats K)
    (output : List K) : RunResult K :=
  let self1 : wald_lm_method K :=
    { self with m_num_ok_samples := (moments s threshold).num_samples }
  let num_valid := (run_contrasts threshold s).num_valid
  if num_valid ≤ 0 then
    { self := { self1 with m_beta := (run_contrasts threshold s).m_beta }
      output := output
      ret := some (-9) }
  else
    let m_beta := run_beta threshold s
    let m_C := run_C threshold self.m_unequal_var s
    let self2 : wald_lm_method K :=
      { self1 with m_beta := m_beta, m_C := { dim := num_valid, val := m_C } }
    match inv m_C with
    | none => { self := self2, output := output, ret := some (-9) }
    | some Cinv =>
      let chi := Matrix.dotProduct (as_vec num_valid m_beta)
        (Matrix.mulVec Cinv (as_vec num_valid m_beta))
      let out0 := output.set 0 chi
      match chi_square_cdf chi num_valid with
      | none => { self := self2, output := out0, ret := none }
      | some p =>
        let out1 := out0.set 1 (1 - p)
        let out2 := out1.set 2 ((run_valid threshold s).length : K)
        { self := self2, output := out2, ret := some (out2.getD 1 0) }

/-- The method `wald_lm_method::run(row1, row2, output)`. -/
def wald_lm_method.run {K : Type} [LinearOrderedField K] (threshold : K)
    (chi_square_cdf : K → Nat → Option K) (self : wald_lm_method K) (row1 row2 : List Nat)
    (output : List K) : RunResult K :=
  wald_lm_method.run_table threshold chi_square_cdf self
    (accumulate row1 row2 self.m_missing self.m_pheno) output

/-! ## The nested Gaussian models (stepwise_models.cpp) -/

/-- The class `log_double`: a number kept as its logarithm. -/
structure log_double (K : Type) where
  log_value : K

/-- The constructor function `log_double::from_log`. -/
def log_double.from_log {K : Type} (x : K) : log_double K := { log_value := x }

/-- The method `lm_full::prob` (lines 11-21) on a table with columns
`count.col( 0 )` (sum), `count.col( 1 )` (count) and `count.col( 2 )` (sum of squares). -/
def lm_full.prob {K : Type} [LinearOrderedField K] (log : K → K) (pi : K) {m : Nat}
    (count : Fin m → Fin 3 → K) : log_double K :=
  let mu_full : Fin m → K := fun c => count c 0 / count c 1
  let residual : Fin m → K :=
    fun c => count c 1 * mu_full c * mu_full c - 2 * mu_full c * count c 0 + count c 2
  let k : K := 9
  let n : K := ∑ c, count c 1
  let sigma_square : K := (∑ c, residual c) / (n - k)
  log_double.from_log
    (-(n / 2) * log (2 * pi) - (n / 2) * log sigma_square
      - 1 / (2 * sigma_square) * (∑ c, residual c))

/-- The method `intercept::prob` (lines 29-39). -/
def intercept.prob {K : Type} [LinearOrderedField K] (log : K → K) (pi : K) {m : Nat}
    (count : Fin m → Fin 3 → K) : log_double K :=
  let mu : K := (∑ c, count c 0) / (∑ c, count c 1)
  let residual : K := (∑ c, count c 1) * mu * mu - 2 * mu * (∑ c, count c 0) + (∑ c, count c 2)
  let k : K := 1
  let n : K := ∑ c, count c 1
  let sigma_square : K := residual / (n - k)
  log_double.from_log
    (-(n / 2) * log (2 * pi) - (n / 2) * log sigma_square - 1 / (2 * sigma_square) * residual)

/-- The matrix `snp_pheno` filled by the loop of `single::prob` (lines 51-66). -/
def single.snp_pheno {K : Type} [LinearOrderedField K] (m_is_first : Bool)
    (count : Fin 9 → Fin 3 → K) : Fin 3 → Fin 3 → K :=
  fun i col =>
    if m_is_first then
      count ⟨3 * i.val, by omega⟩ col + count ⟨3 * i.val + 1, by omega⟩ col
        + count ⟨3 * i.val + 2, by omega⟩ col
    else
      count ⟨3 * 0 + i.val, by omega⟩ col + count ⟨3 * 1 + i.val, by omega⟩ col
        + count ⟨3 * 2 + i.val, by omega⟩ col

/-- The method `single::prob` (lines 48-75). -/
def single.prob {K : Type} [LinearOrderedField K] (log : K → K) (pi : K) (m_is_first : Bool)
    (count : Fin 9 → Fin 3 → K) : log_double K :=
  let snp_pheno := single.snp_pheno m_is_first count
  let mu_single : Fin 3 → K := fun c => snp_pheno c 0 / snp_pheno c 1
  let residual : Fin 3 → K :=
    fun c => snp_pheno c 1 * mu_single c * mu_single c - 2 * mu_single c * snp_pheno c 0
      + snp_pheno c 2
  let k : K := 3
  let n : K := ∑ c, snp_pheno c 1
  let sigma_square : K := (∑ c, residual c) / (n - k)
  log_double.from_log
    (-(n / 2) * log (2 * pi) - (n / 2) * log sigma_square
      - 1 / (2 * sigma_square) * (∑ c, residual c))

/-- The shared formula as the specification words it: from the pooled count `n`, the
summed residual `rss` and the parameter count `k`, the variance is `rss / (n - k)` and
the log-likelihood is `-(n/2) log(2 pi) - (n/2) log(variance) - rss / (2 variance)`. -/
def gaussian_logl {K : Type} [LinearOrderedField K] (log : K → K) (pi : K) (n rss k : K) : K :=
  -(n / 2) * log (2 * pi) - (n / 2) * log (rss / (n - k)) - rss / (2 * (rss / (n - k)))

/-- The residual of one category as the specification words it:
`n mu^2 - 2 mu s1 + s2` with `mu = s1 / n`. -/
def category_rss {K : Type} [LinearOrderedField K] (s1 n s2 : K) : K :=
  n * (s1 / n) ^ 2 - 2 * (s1 / n) * s1 + s2

/-! ## The nested models with the special values of IEEE arithmetic -/

/-- A `double` with its special values and without rounding: a finite number (kept
exact, a zero taken as `+0`), an infinity or a NaN. -/
inductive ieee (K : Type) where
  | fin (x : K)
  | pinf
  | ninf
  | nan

/-- The test `std::isfinite`. -/
def ieee.is_finite {K : Type} : ieee K → Bool
  | ieee.fin _ => true
  | _ => false

/-- The negation of a `double`. -/
def ieee.neg {K : Type} [LinearOrderedField K] : ieee K → ieee K
  | ieee.fin x => ieee.fin (-x)
  | ieee.pinf => ieee.ninf
  | ieee.ninf => ieee.pinf
  | ieee.nan => ieee.nan

/-- The sum of two `double`s: `inf + (-inf)` is a NaN. -/
def ieee.add {K : Type} [LinearOrderedField K] : ieee K → ieee K → ieee K
  | ieee.nan, _ => ieee.nan
  | _, ieee.nan => ieee.nan
  | ieee.fin x, ieee.fin y => ieee.fin (x + y)
  | ieee.fin _, ieee.pinf => ieee.pinf
  | ieee.fin _, ieee.ninf => ieee.ninf
  | ieee.pinf, ieee.fin _ => ieee.pinf
  | ieee.ninf, ieee.fin _ => ieee.ninf
  | ieee.pinf, ieee.pinf => ieee.pinf
  | ieee.ninf, ieee.ninf => ieee.ninf
  | ieee.pinf, ieee.ninf => ieee.nan
  | ieee.ninf, ieee.pinf => ieee.nan

/-- The product of two `double`s: `0 * inf` is a NaN. -/
def ieee.mul {K : Type} [LinearOrderedField K] : ieee K → ieee K → ieee K
  | ieee.nan, _ => ieee.nan
  | _, ieee.nan => ieee.nan
  | ieee.fin x, ieee.fin y => ieee.fin (x * y)
  | ieee.fin x, ieee.pinf => if x = 0 then ieee.nan else if 0 < x then ieee.pinf else ieee.ninf
  | ieee.fin x, ieee.ninf => if x = 0 then ieee.nan else if 0 < x then ieee.ninf else ieee.pinf
  | ieee.pinf, ieee.fin y => if y = 0 then ieee.nan else if 0 < y then ieee.pinf else ieee.ninf
  | ieee.ninf, ieee.fin y => if y = 0 then ieee.nan else if 0 < y then ieee.ninf else ieee.pinf
  | ieee.pinf, ieee.pinf => ieee.pinf
  | ieee.ninf, ieee.ninf => ieee.pinf
  | ieee.pinf, ieee.ninf => ieee.ninf
  | ieee.ninf, ieee.pinf => ieee.ninf

/-- The quotient of two `double`s: `0 / 0` and `inf / inf` are NaNs, `x / 0` is an
infinity for `x ≠ 0`, and `x / inf` is 0 for finite `x`. -/
def ieee.div {K : Type} [LinearOrderedField K] : ieee K → ieee K → ieee K
  | ieee.nan, _ => ieee.nan
  | _, ieee.nan => ieee.nan
  | ieee.fin x, ieee.fin y =>
    if y = 0 then (if x = 0 then ieee.nan else if 0 < x then ieee.pinf else ieee.ninf)
    else ieee.fin (x / y)
  | ieee.fin _, ieee.pinf => ieee.fin 0
  | ieee.fin _, ieee.ninf => ieee.fin 0
  | ieee.pinf, ieee.fin y => if 0 ≤ y then ieee.pinf else ieee.ninf
  | ieee.ninf, ieee.fin y => if 0 ≤ y then ieee.ninf else ieee.pinf
  | ieee.pinf, ieee.pinf => ieee.nan
  | ieee.ninf, ieee.ninf => ieee.nan
  | ieee.pinf, ieee.ninf => ieee.nan
  | ieee.ninf, ieee.pinf => ieee.nan

/-- The function `std::log` on a `double`, from the logarithm `log` of the positive
numbers: `log(0)` is `-inf`, the logarithm of a negative number is a NaN. -/
def ieee.log {K : Type} [LinearOrderedField K] (log : K → K) : ieee K → ieee K
  | ieee.fin x => if 0 < x then ieee.fin (log x) else if x = 0 then ieee.ninf else ieee.nan
  | ieee.pinf => ieee.pinf
  | ieee.ninf => ieee.nan
  | ieee.nan => ieee.nan

instance {K : Type} [LinearOrderedField K] : Add (ieee K) := ⟨ieee.add⟩

instance {K : Type} [LinearOrderedField K] : Sub (ieee K) :=
  ⟨fun a b => ieee.add a (ieee.neg b)⟩

instance {K : Type} [LinearOrderedField K] : Mul (ieee K) := ⟨ieee.mul⟩

instance {K : Type} [LinearOrderedField K] : Div (ieee K) := ⟨ieee.div⟩

instance {K : Type} [LinearOrderedField K] : Neg (ieee K) := ⟨ieee.neg⟩

instance {K : Type} [LinearOrderedField K] (n : Nat) : OfNat (ieee K) n := ⟨ieee.fin (n : K)⟩

/-- The function `sum` of a vector of `double`s, added up from the first element on. -/
def ieee.sum {K : Type} [LinearOrderedField K] {m : Nat} (v : Fin m → ieee K) : ieee K :=
  (List.ofFn v).foldl (fun acc x => acc + x) (ieee.fin 0)

/-- The method `lm_full::prob` (lines 11-21) with the special values of `double`. -/
def lm_full.prob_ieee {K : Type} [LinearOrderedField K] (log : K → K) (pi : K) {m : Nat}
    (count : Fin m → Fin 3 → K) : log_double (ieee K) :=
  let col : Fin 3 → Fin m → ieee K := fun j c => ieee.fin (count c j)
  let mu_full : Fin m → ieee K := fun c => col 0 c / col 1 c
  let residual : Fin m → ieee K :=
    fun c => col 1 c * mu_full c * mu_full c - 2 * mu_full c * col 0 c + col 2 c
  let k : ieee K := 9
  let n : ieee K := ieee.sum (col 1)
  let sigma_square : ieee K := ieee.sum residual / (n - k)
  log_double.from_log
    (-(n / 2) * ieee.log log (2 * ieee.fin pi) - (n / 2) * ieee.log log sigma_square
      - 1 / (2 * sigma_square) * ieee.sum residual)

/-- The method `intercept::prob` (lines 29-39) with the special values of `double`. -/
def intercept.prob_ieee {K : Type} [LinearOrderedField K] (log : K → K) (pi : K) {m : Nat}
    (count : Fin m → Fin 3 → K) : log_double (ieee K) :=
  let col : Fin 3 → Fin m → ieee K := fun j c => ieee.fin (count c j)
  let mu : ieee K := ieee.sum (col 0) / ieee.sum (col 1)
  let residual : ieee K :=
    ieee.sum (col 1) * mu * mu - 2 * mu * ieee.sum (col 0) + ieee.sum (col 2)
  let k : ieee K := 1
  let n : ieee K := ieee.sum (col 1)
  let sigma_square : ieee K := residual / (n - k)
  log_double.from_log
    (-(n / 2) * ieee.log log (2 * ieee.fin pi) - (n / 2) * ieee.log log sigma_square
      - 1 / (2 * sigma_square) * residual)

/-- The method `single::prob` (lines 48-75) with the special values of `double`; the
entries of `snp_pheno` are sums of entries of the table, which are finite. -/
def single.prob_ieee {K : Type} [LinearOrderedField K] (log : K → K) (pi : K)
    (m_is_first : Bool) (count : Fin 9 → Fin 3 → K) : log_double (ieee K) :=
  let snp_pheno : Fin 3 → Fin 3 → ieee K :=
    fun j c => ieee.fin (single.snp_pheno m_is_first count c j)
  let mu_single : Fin 3 → ieee K := fun c => snp_pheno 0 c / snp_pheno 1 c
  let residual : Fin 3 → ieee K :=
    fun c => snp_pheno 1 c * mu_single c * mu_single c - 2 * mu_single c * snp_pheno 0 c
      + snp_pheno 2 c
  let k : ieee K := 3
  let n : ieee K := ieee.sum (snp_pheno 1)
  let sigma_square : ieee K := ieee.sum residual / (n - k)
  log_double.from_log
    (-(n / 2) * ieee.log log (2 * ieee.fin pi) - (n / 2) * ieee.log log sigma_square
      - 1 / (2 * sigma_square) * ieee.sum residual)

/-! ## Rounded arithmetic: binary64 and the code with every result rounded -/

/-- The number of binary digits of `n` (0 for 0), for `n < 2 ^ fuel`. -/
def bit_length : Nat → Nat → Nat
  | 0, _ => 0
  | fuel + 1, n => if n = 0 then 0 else bit_length fuel (n / 2) + 1

/-- The whole number nearest to `num / den`, the even one of two nearest. -/
def round_half_even (num den : Nat) : Nat :=
  if 2 * (num % den) < den then num / den
  else if den < 2 * (num % den) then num / den + 1
  else if (num / den) % 2 = 0 then num / den
  else num / den + 1

/-- The binary64 number nearest to the rational `q` (IEEE 754 round-to-nearest, ties to
even): the result of one `double` operation whose exact result is `q`.  With
`2 ^ e ≤ |q| < 2 ^ (e + 1)` the value is `m / 2 ^ (52 - e)` for the whole number `m`
nearest to `|q| * 2 ^ (52 - e)`.  The exponent range is not modelled (no overflow, no
subnormal numbers); operations are rounded one by one, without fused multiply-add. -/
def binary64 (q : ℚ) : ℚ :=
  if q = 0 then 0
  else
    let N := q.num.natAbs
    let D := q.den
    let k : Int := (bit_length 2200 N : Int) - (bit_length 2200 D : Int)
    let e : Int := if D * 2 ^ k.toNat ≤ N * 2 ^ (-k).toNat then k else k - 1
    let s : Int := 52 - e
    let m := round_half_even (N * 2 ^ s.toNat) (D * 2 ^ (-s).toNat)
    let v : ℚ := ((m * 2 ^ (-s).toNat : Nat) : ℚ) / ((2 ^ s.toNat : Nat) : ℚ)
    if q < 0 then -v else v

/-- The update `m( a, b ) += v` with the sum rounded by `rnd`. -/
def add_at_fl {K : Type} [Add K] (rnd : K → K) (m : Nat → Nat → K) (a b : Nat) (v : K) :
    Nat → Nat → K :=
  fun i j => if i = a ∧ j = b then rnd (m i j + v) else m i j

/-- The body of the loop of lines 46-60 (`accumulate_step`) with the result of every
floating-point operation rounded by `rnd`. -/
def accumulate_step_fl {K : Type} [LinearOrderedField K] (rnd : K → K)
    (row1 row2 m_missing : List Nat) (m_pheno : List K) (s : SufStats K) (i : Nat) :
    SufStats K :=
  let snp1 := row1.getD i 0
  let snp2 := row2.getD i 0
  if snp1 = 3 ∨ snp2 = 3 ∨ m_missing.getD i 0 = 1 then s
  else
    let pheno := m_pheno.getD i 0
    { n := add_at_fl rnd s.n snp1 snp2 1
      suf := add_at_fl rnd s.suf snp1 snp2 pheno
      suf2 := add_at_fl rnd s.suf2 snp1 snp2 (rnd (pheno * pheno)) }

/-- The accumulation loop of `wald_lm_method::run` (lines 42-60) in rounded
arithmetic. -/
def accumulate_fl {K : Type} [LinearOrderedField K] (rnd : K → K)
    (row1 row2 m_missing : List Nat) (m_pheno : List K) : SufStats K :=
  (List.range row1.length).foldl (accumulate_step_fl rnd row1 row2 m_missing m_pheno)
    { n := zeros K, suf := zeros K, suf2 := zeros K }

/-- The body of the nested loops of lines 66-79 (`moments_step`) in rounded arithmetic:
`suf * suf`, the quotient by `n`, the difference from `suf2`, the mean and the running
total are rounded one after the other. -/
def moments_step_fl {K : Type} [LinearOrderedField K] (rnd : K → K) (s : SufStats K)
    (threshold : K) (st : Moments K) (c : Nat × Nat) : Moments K :=
  if s.n c.1 c.2 < threshold then st
  else
    { resid := set_at st.resid c.1 c.2
        (rnd (s.suf2 c.1 c.2 - rnd (rnd (s.suf c.1 c.2 * s.suf c.1 c.2) / s.n c.1 c.2)))
      mu := set_at st.mu c.1 c.2 (rnd (s.suf c.1 c.2 / s.n c.1 c.2))
      num_samples := rnd (st.num_samples + s.n c.1 c.2) }

/-- The residual loop (lines 62-79) in rounded arithmetic. -/
def moments_fl {K : Type} [LinearOrderedField K] (rnd : K → K) (s : SufStats K)
    (threshold : K) : Moments K :=
  cells.foldl (moments_step_fl rnd s threshold)
    { resid := zeros K, mu := zeros K, num_samples := 0 }

/-- The sum `arma::accu( m )` with every partial sum rounded, the entries taken in the
order of `cells`. -/
def accu_fl {K : Type} [LinearOrderedField K] (rnd : K → K) (m : Nat → Nat → K) : K :=
  (cells.map (fun c => m c.1 c.2)).foldl (fun acc x => rnd (acc + x)) 0

/-- The body of the per-cell variance loop of lines 89-98 in rounded arithmetic. -/
def sigma2_step_fl {K : Type} [LinearOrderedField K] (rnd : K → K) (s : SufStats K)
    (resid : Nat → Nat → K) (sg : Nat → Nat → K) (c : Nat × Nat) : Nat → Nat → K :=
  if s.n c.1 c.2 > 9 then set_at sg c.1 c.2 (rnd (resid c.1 c.2 / rnd (s.n c.1 c.2 - 9)))
  else sg

/-- The matrix `sigma2` (lines 82-99) in rounded arithmetic. -/
def sigma2_fl {K : Type} [LinearOrderedField K] (rnd : K → K) (s : SufStats K)
    (mo : Moments K) (m_unequal_var : Bool) : Nat → Nat → K :=
  if !m_unequal_var then
    fun i j => rnd (zeros K i j + rnd (accu_fl rnd mo.resid / rnd (mo.num_samples - 9)))
  else
    cells.foldl (sigma2_step_fl rnd s mo.resid) (zeros K)

/-- The body of the contrast loop of lines 107-120 in rounded arithmetic. -/
def contrast_step_fl {K : Type} [LinearOrderedField K] (rnd : K → K) (n : Nat → Nat → K)
    (threshold : K) (mu : Nat → Nat → K) (st : Contrasts K) (i : Nat) : Contrasts K :=
  let c_i := i_map.getD i 0
  let c_j := j_map.getD i 0
  if n 0 0 ≥ threshold ∧ n 0 c_j ≥ threshold ∧ n c_i 0 ≥ threshold ∧ n c_i c_j ≥ threshold then
    { num_valid := st.num_valid + 1
      valid := st.valid.set st.num_valid i
      m_beta := st.m_beta.set st.num_valid
        (rnd (rnd (rnd (mu 0 0 - mu 0 c_j) - mu c_i 0) + mu c_i c_j)) }
  else st

/-- The contrast loop (lines 102-120) in rounded arithmetic. -/
def find_contrasts_fl {K : Type} [LinearOrderedField K] (rnd : K → K) (n : Nat → Nat → K)
    (threshold : K) (mu : Nat → Nat → K) : Contrasts K :=
  (List.range 4).foldl (contrast_step_fl rnd n threshold mu)
    { num_valid := 0, valid := List.replicate 4 0, m_beta := List.replicate 4 0 }

/-- The right-hand side of the assignment to `m_C( iv, jv )` (lines 133-147) in rounded
arithmetic: each product, each quotient and each of the three sums is rounded. -/
def cov_entry_fl {K : Type} [LinearOrderedField K] (rnd : K → K) (n sg : Nat → Nat → K)
    (i j : Nat) : K :=
  let c_i := i_map.getD i 0
  let c_j := j_map.getD i 0
  let o_i := i_map.getD j 0
  let o_j := j_map.getD j 0
  let same_row : K := if c_i = o_i then 1 else 0
  let same_col : K := if c_j = o_j then 1 else 0
  let in_cell : K := if i = j then 1 else 0
  rnd (rnd (rnd (rnd (sg 0 0 / n 0 0) + rnd (rnd (same_col * sg 0 c_j) / n 0 c_j))
      + rnd (rnd (same_row * sg c_i 0) / n c_i 0))
    + rnd (rnd (in_cell * sg c_i c_j) / n c_i c_j))

/-- The members `m_beta` and `m_C`, the local `valid` and the local `chi` of
`wald_lm_method::run` when line 158 is reached (`chi` is `none` where it is not
modelled). -/
structure RunFl (K : Type) where
  m_beta : List K
  valid : List Nat
  m_C : Nat → Nat → K
  chi : Option K

/-- Lines 62-158 of `wald_lm_method::run` in rounded arithmetic, from the accumulated
table on: `m_beta` and `valid` after the resizes of lines 126-127, `m_C` after the loops
of lines 130-149.  The statistic `dot( m_beta, Cinv * m_beta )` is given for one valid
contrast and a non-zero `m_C( 0, 0 )`, where `Cinv` holds the reciprocal of that entry and
the product is `m_beta[0] * (Cinv(0,0) * m_beta[0])`. -/
def wald_lm_method.run_table_fl {K : Type} [LinearOrderedField K] (rnd : K → K)
    (threshold : K) (m_unequal_var : Bool) (s : SufStats K) : RunFl K :=
  let mo := moments_fl rnd s threshold
  let sg := sigma2_fl rnd s mo m_unequal_var
  let ct := find_contrasts_fl rnd s.n threshold mo.mu
  let valid := ct.valid.take ct.num_valid
  let m_beta := ct.m_beta.take ct.num_valid
  let m_C : Nat → Nat → K :=
    fun iv jv => cov_entry_fl rnd s.n sg (valid.getD iv 0) (valid.getD jv 0)
  { m_beta := m_beta, valid := valid, m_C := m_C
    chi := if ct.num_valid = 1 ∧ m_C 0 0 ≠ 0 then
        some (rnd (m_beta.getD 0 0 * rnd (rnd (1 / m_C 0 0) * m_beta.getD 0 0)))
      else none }

/-- The sum `sum( v )` of a vector with every partial sum rounded, taken from the first
entry on. -/
def sum_fl {K : Type} [LinearOrderedField K] (rnd : K → K) {m : Nat} (v : Fin m → K) : K :=
  (List.ofFn v).foldl (fun acc x => rnd (acc + x)) 0

/-- The vector `residual` of `lm_full::prob` (lines 13-14) in rounded arithmetic:
`count.col( 1 ) % mu_full % mu_full - 2 * mu_full % count.col( 0 ) + count.col( 2 )`
entry by entry, each operation rounded. -/
def lm_full.residual_fl {K : Type} [LinearOrderedField K] (rnd : K → K) {m : Nat}
    (count : Fin m → Fin 3 → K) : Fin m → K :=
  let mu_full : Fin m → K := fun c => rnd (count c 0 / count c 1)
  fun c => rnd (rnd (rnd (rnd (count c 1 * mu_full c) * mu_full c)
    - rnd (rnd (2 * mu_full c) * count c 0)) + count c 2)

/-- The value `sum( residual )` of `lm_full::prob` (line 18) in rounded arithmetic. -/
def lm_full.sum_residual_fl {K : Type} [LinearOrderedField K] (rnd : K → K) {m : Nat}
    (count : Fin m → Fin 3 → K) : K :=
  sum_fl rnd (lm_full.residual_fl rnd count)

/-- The local `sigma_square` of `lm_full::prob` (lines 15-17) in rounded arithmetic. -/
def lm_full.sigma_square_fl {K : Type} [LinearOrderedField K] (rnd : K → K) {m : Nat}
    (count : Fin m → Fin 3 → K) : K :=
  rnd (lm_full.sum_residual_fl rnd count / rnd (sum_fl rnd (fun c => count c 1) - 9))

/-- The matrix `snp_pheno` of `single::prob` (lines 51-66) in rounded arithmetic. -/
def single.snp_pheno_fl {K : Type} [LinearOrderedField K] (rnd : K → K) (m_is_first : Bool)
    (count : Fin 9 → Fin 3 → K) : Fin 3 → Fin 3 → K :=
  fun i col =>
    if m_is_first then
      rnd (rnd (count ⟨3 * i.val, by omega⟩ col + count ⟨3 * i.val + 1, by omega⟩ col)
        + count ⟨3 * i.val + 2, by omega⟩ col)
    else
      rnd (rnd (count ⟨3 * 0 + i.val, by omega⟩ col + count ⟨3 * 1 + i.val, by omega⟩ col)
        + count ⟨3 * 2 + i.val, by omega⟩ col)

/-- The vector `residual` of `single::prob` (lines 68-69) in rounded arithmetic. -/
def single.residual_fl {K : Type} [LinearOrderedField K] (rnd : K → K) (m_is_first : Bool)
    (count : Fin 9 → Fin 3 → K) : Fin 3 → K :=
  let snp_pheno := single.snp_pheno_fl rnd m_is_first count
  let mu_single : Fin 3 → K := fun c => rnd (snp_pheno c 0 / snp_pheno c 1)
  fun c => rnd (rnd (rnd (rnd (snp_pheno c 1 * mu_single c) * mu_single c)
    - rnd (rnd (2 * mu_single c) * snp_pheno c 0)) + snp_pheno c 2)

/-- The value `sum( residual )` of `single::prob` (line 72) in rounded arithmetic. -/
def single.sum_residual_fl {K : Type} [LinearOrderedField K] (rnd : K → K)
    (m_is_first : Bool) (count : Fin 9 → Fin 3 → K) : K :=
  sum_fl rnd (single.residual_fl rnd m_is_first count)

/-- Modelled from the spec: the Count Table of `count_of_samples` with the sums
accumulated in rounded arithmetic, sample by sample. -/
def count_of_samples_fl {K : Type} [LinearOrderedField K] (rnd : K → K)
    (samples : Fin 9 → List K) : Fin 9 → Fin 3 → K :=
  fun c col =>
    if col = 0 then (samples c).foldl (fun acc y => rnd (acc + y)) 0
    else if col = 1 then (samples c).foldl (fun acc _ => rnd (acc + 1)) 0
    else (samples c).foldl (fun acc y => rnd (acc + rnd (y * y))) 0


/-! ## The IRLS solver (libs/glm/irls.cpp) -/

/-- The constant `IRLS_MAX_ITERS` (irls.hpp, line 47). -/
def IRLS_MAX_ITERS : Nat := 25

/-- The constant `IRLS_TOLERANCE = 10e-8` (irls.hpp, line 52). -/
def IRLS_TOLERANCE (K : Type) [LinearOrderedField K] : K := 10 / 10 ^ 8

/-- Modelled from the spec: the link part of the capability set of section 4.3, under
the names irls.cpp calls (`eta`, `mu`, `mu_eta`); the class `glm_link` is declared in a
header that is not among the sources.  Each function maps a vector to a vector. -/
structure glm_link (K : Type) (n : Nat) where
  eta : (Fin n → K) → (Fin n → K)
  mu : (Fin n → K) → (Fin n → K)
  mu_eta : (Fin n → K) → (Fin n → K)

/-- Modelled from the spec: the capability set of section 4.3 (variance, the
log-likelihood without and with a dispersion, `dispersion(mu, y, missing, paramCount)`,
the validity test of the mean), under the names irls.cpp calls; the class `glm_model`
is declared in a header that is not among the sources. -/
structure glm_model (K : Type) (n : Nat) where
  link : glm_link K n
  var : (Fin n → K) → (Fin n → K)
  likelihood : (Fin n → K) → (Fin n → K) → (Fin n → Nat) → K
  likelihood_dispersion : (Fin n → K) → (Fin n → K) → (Fin n → Nat) → K → K
  dispersion : (Fin n → K) → (Fin n → K) → (Fin n → Nat) → K → K
  valid_mu : (Fin n → K) → Bool

/-- Modelled from the spec: the Fit Result of section 3 with the fields that irls.cpp
writes; the struct `glm_info` is declared in a header that is not among the sources
(irls.hpp declares `irls_info`, which lacks `success`). -/
structure glm_info (K : Type) where
  se_beta : List K
  p_value : List K
  num_iters : Nat
  mu : List K
  logl : K
  converged : Bool
  success : Bool

/-- The library functions and constants that `irls` uses: `sqrt`, `arma::solve` (the flag
says whether `solve_opts::fast + solve_opts::no_approx` is passed; `none` when it
returns false), `is_finite` of a matrix, `chi_square_cdf` (`none` when it throws
`bad_domain_value`), `DBL_MAX`, and the contents of a vector constructed without
initial values. -/
structure irls_library (K : Type) (n p : Nat) where
  sqrt : K → K
  solve : Bool → Matrix (Fin n) (Fin p) K → (Fin n → K) → Option (Fin p → K)
  is_finite : Matrix (Fin p) (Fin p) K → Bool
  chi_square_cdf : K → Nat → Option K
  DBL_MAX : K
  uninit : Fin n → K

/-- The function `set_missing_to_zero` (lines 13-23). -/
def set_missing_to_zero {K : Type} [LinearOrderedField K] {n : Nat} (missing : Fin n → Nat)
    (w : Fin n → K) : Fin n → K :=
  fun i => if missing i = 1 then 0 else w i

/-- The function `weighted_least_squares` (lines 37-69); `none` stands for the empty
vector `vec( )` returned when `solve` fails. -/
def weighted_least_squares {K : Type} [LinearOrderedField K] {n p : Nat}
    (ext : irls_library K n p) (X : Matrix (Fin n) (Fin p) K) (y w : Fin n → K)
    (fast_inversion : Bool) : Option (Fin p → K) :=
  let A : Matrix (Fin n) (Fin p) K := Matrix.diagonal (fun i => ext.sqrt (w i)) * X
  let ty : Fin n → K := fun i => y i * ext.sqrt (w i)
  if fast_inversion then ext.solve true A ty else ext.solve false A ty

/-- The function `compute_z` (lines 71-75). -/
def compute_z {K : Type} [LinearOrderedField K] {n : Nat} (eta mu mu_eta y : Fin n → K) :
    Fin n → K :=
  fun i => eta i + mu_eta i * (y i - mu i)

/-- The function `compute_w` (lines 77-81). -/
def compute_w {K : Type} [LinearOrderedField K] {n : Nat} (var mu_eta : Fin n → K) :
    Fin n → K :=
  fun i => 1 / (var i * (mu_eta i * mu_eta i))

/-- The function `init_beta` (lines 83-89). -/
def init_beta {K : Type} [LinearOrderedField K] {n p : Nat} (ext : irls_library K n p)
    (X : Matrix (Fin n) (Fin p) K) (y : Fin n → K) (missing : Fin n → Nat)
    (model : glm_model K n) (fast_inversion : Bool) : Option (Fin p → K) :=
  let eta := model.link.eta (fun i => (y i + 0.5) / 3)
  weighted_least_squares ext X eta (fun i => 1 - (missing i : K)) fast_inversion

/-- The local variables of `irls` (lines 95-109).  The two counters `body_runs` and
`damped_steps` are not variables of the source: they count the entries into the loop
body and the executions of line 132. -/
structure irls_state (K : Type) (n p : Nat) where
  b : Fin p → K
  w : Fin n → K
  z : Fin n → K
  eta : Fin n → K
  mu : Fin n → K
  mu_eta : Fin n → K
  num_iter : Nat
  old_logl : K
  logl : K
  invalid_mu : Bool
  inverse_fail : Bool
  b_old : Fin p → K
  first_attempt : Bool
  body_runs : Nat
  damped_steps : Nat

/-- The state before the loop (lines 95-109), from the initial coefficients `b`. -/
def irls_init_state {K : Type} [LinearOrderedField K] {n p : Nat} (ext : irls_library K n p)
    (X : Matrix (Fin n) (Fin p) K) (y : Fin n → K) (missing : Fin n → Nat)
    (model : glm_model K n) (b : Fin p → K) : irls_state K n p :=
  let eta := X.mulVec b
  let mu := model.link.mu eta
  { b := b, w := ext.uninit, z := ext.uninit, eta := eta, mu := mu
    mu_eta := model.link.mu_eta mu, num_iter := 0, old_logl := -ext.DBL_MAX
    logl := model.likelihood mu y missing, invalid_mu := false, inverse_fail := false
    b_old := b, first_attempt := true, body_runs := 0, damped_steps := 0 }

/-- The condition of the `while` of line 110. -/
def irls_cond {K : Type} [LinearOrderedField K] {n p : Nat} (st : irls_state K n p) : Bool :=
  decide (st.num_iter < IRLS_MAX_ITERS)
    && !decide (|st.logl - st.old_logl| / (0.1 + |st.logl|) < IRLS_TOLERANCE K)

/-- The statements from the label `compute_eta` to the end of the loop body (lines
122-147) for the coefficients `b`, with the `goto` unrolled: the second evaluation runs
with `first_attempt` false and therefore cannot jump again. -/
def irls_compute_eta {K : Type} [LinearOrderedField K] {n p : Nat}
    (X : Matrix (Fin n) (Fin p) K) (y : Fin n → K) (missing : Fin n → Nat)
    (model : glm_model K n) (st : irls_state K n p) (b : Fin p → K) : irls_state K n p :=
  let eta := X.mulVec b
  let mu := model.link.mu eta
  let mu_eta := model.link.mu_eta mu
  if !model.valid_mu mu then
    if st.first_attempt then
      let b2 : Fin p → K := fun j => 0.5 * st.b_old j + 0.5 * b j
      let eta2 := X.mulVec b2
      let mu2 := model.link.mu eta2
      let mu_eta2 := model.link.mu_eta mu2
      if !model.valid_mu mu2 then
        { st with b := b2, eta := eta2, mu := mu2, mu_eta := mu_eta2, first_attempt := false
                  damped_steps := st.damped_steps + 1, invalid_mu := true }
      else
        { st with b := b2, eta := eta2, mu := mu2, mu_eta := mu_eta2, first_attempt := false
                  damped_steps := st.damped_steps + 1, old_logl := st.logl, b_old := b2
                  logl := model.likelihood mu2 y missing, num_iter := st.num_iter + 1 }
    else
      { st with b := b, eta := eta, mu := mu, mu_eta := mu_eta, invalid_mu := true }
  else
    { st with b := b, eta := eta, mu := mu, mu_eta := mu_eta, old_logl := st.logl, b_old := b
              logl := model.likelihood mu y missing, num_iter := st.num_iter + 1 }

/-- One pass through the body of the `while` loop (lines 112-147); a pass that ends in
`break` sets `inverse_fail` or `invalid_mu`. -/
def irls_body {K : Type} [LinearOrderedField K] {n p : Nat} (ext : irls_library K n p)
    (X : Matrix (Fin n) (Fin p) K) (y : Fin n → K) (missing : Fin n → Nat)
    (model : glm_model K n) (fast_inversion : Bool) (st : irls_state K n p) :
    irls_state K n p :=
  let w := set_missing_to_zero missing (compute_w (model.var st.mu) st.mu_eta)
  let z := compute_z st.eta st.mu st.mu_eta y
  let st1 : irls_state K n p := { st with w := w, z := z, body_runs := st.body_runs + 1 }
  match weighted_least_squares ext X z w fast_inversion with
  | none => { st1 with inverse_fail := true }
  | some b =>
    if p ≤ 0 then { st1 with b := b, inverse_fail := true }
    else irls_compute_eta X y missing model st1 b

/-- The `while` loop of lines 110-148, cut after `fuel` passes. -/
def irls_loop {K : Type} [LinearOrderedField K] {n p : Nat} (ext : irls_library K n p)
    (X : Matrix (Fin n) (Fin p) K) (y : Fin n → K) (missing : Fin n → Nat)
    (model : glm_model K n) (fast_inversion : Bool) :
    Nat → irls_state K n p → irls_state K n p
  | 0, st => st
  | fuel + 1, st =>
    if irls_cond st then
      let st1 := irls_body ext X y missing model fast_inversion st
      if st1.inverse_fail || st1.invalid_mu then st1
      else irls_loop ext X y missing model fast_inversion fuel st1
    else st

/-- The state when the loop is left: `IRLS_MAX_ITERS` passes are enough, since every
pass that does not break increases `num_iter`. -/
def irls_final {K : Type} [LinearOrderedField K] {n p : Nat} (ext : irls_library K n p)
    (X : Matrix (Fin n) (Fin p) K) (y : Fin n → K) (missing : Fin n → Nat)
    (model : glm_model K n) (fast_inversion : Bool) (b : Fin p → K) : irls_state K n p :=
  irls_loop ext X y missing model fast_inversion IRLS_MAX_ITERS
    (irls_init_state ext X y missing model b)

/-- The information matrix `X.t( ) * diagmat( w ) * X` of line 152. -/
def information {K : Type} [LinearOrderedField K] {n p : Nat} (X : Matrix (Fin n) (Fin p) K)
    (w : Fin n → K) : Matrix (Fin p) (Fin p) K :=
  X.transpose * Matrix.diagonal w * X

/-- The statements after the loop (lines 150-189), which fill `output`. -/
def irls_finish {K : Type} [LinearOrderedField K] {n p : Nat} (ext : irls_library K n p)
    (X : Matrix (Fin n) (Fin p) K) (y : Fin n → K) (missing : Fin n → Nat)
    (model : glm_model K n) (st : irls_state K n p) (output : glm_info K) : glm_info K :=
  if st.num_iter < IRLS_MAX_ITERS ∧ st.invalid_mu = false ∧ st.inverse_fail = false then
    let I := information X st.w
    if ext.is_finite I then
      match inv I with
      | some C =>
        let dispersion := model.dispersion st.mu y missing (p : K)
        let se_beta : Fin p → K :=
          fun i => ext.sqrt (model.dispersion st.mu y missing dispersion * C i i)
        let wald_z : Fin p → K := fun i => st.b i / se_beta i
        let chi2_value : Fin p → K := fun i => wald_z i * wald_z i
        let p_value : Fin p → K := fun i =>
          match ext.chi_square_cdf (chi2_value i) 1 with
          | some v => 1 - v
          | none => -1
        { se_beta := List.ofFn se_beta
          num_iters := st.num_iter
          converged := true
          success := true
          mu := List.ofFn st.mu
          logl := model.likelihood_dispersion st.mu y missing dispersion
          p_value := List.ofFn p_value }
      | none => { output with success := false }
    else { output with success := false }
  else
    { output with num_iters := st.num_iter, converged := false, success := false }

/-- What a call of `irls` yields: the returned coefficients (the empty vector after a
failed solve in the loop) and the filled `output`. -/
structure irls_result (K : Type) where
  b : List K
  output : glm_info K

/-- The function `irls` with a missing mask (lines 91-192).  The result is `none` when
`init_beta` returns the empty vector for a design matrix with columns: the product
`X * b` of line 98 then has mismatched dimensions and throws. -/
def irls {K : Type} [LinearOrderedField K] {n p : Nat} (ext : irls_library K n p)
    (X : Matrix (Fin n) (Fin p) K) (y : Fin n → K) (missing : Fin n → Nat)
    (model : glm_model K n) (output : glm_info K) (fast_inversion : Bool) :
    Option (irls_result K) :=
  let start : Option (Fin p → K) :=
    match init_beta ext X y missing model false with
    | some b => some b
    | none => if p = 0 then some (fun _ => 0) else none
  match start with
  | none => none
  | some b0 =>
    let st := irls_final ext X y missing model fast_inversion b0
    some { b := if st.inverse_fail then [] else List.ofFn st.b
           output := irls_finish ext X y missing model st output }

/-- The overload of `irls` without a mask (lines 193-198).  It calls the six-parameter
`irls` with five arguments, so the solve mode of that call is the default argument of the
declaration of `irls`; the header with that declaration is not among the sources, and the
default is the parameter `fast_inversion_default`.  The parameter `fast_inversion` of the
overload is not used in its body. -/
def irls_unmasked {K : Type} [LinearOrderedField K] {n p : Nat}
    (fast_inversion_default : Bool) (ext : irls_library K n p)
    (X : Matrix (Fin n) (Fin p) K) (y : Fin n → K) (model : glm_model K n)
    (output : glm_info K) (_fast_inversion : Bool) : Option (irls_result K) :=
  let missing : Fin n → Nat := fun _ => 0
  irls ext X y missing model output fast_inversion_default

/-- A Gaussian-identity model with the constant variance `v`: `mu(eta) = eta`,
`mu_eta = 1`, variance `v`, and every mean valid. -/
def gaussian_identity {K : Type} [LinearOrderedField K] {n : Nat} (model : glm_model K n)
    (v : K) : Prop :=
  (∀ e, model.link.mu e = e) ∧ (∀ m, model.link.mu_eta m = fun _ => 1)
    ∧ (∀ m, model.var m = fun _ => v) ∧ (∀ m, model.valid_mu m = true)

/-- The solver is exact on consistent systems of full column rank, with or without the
fast option. -/
def exact_solver {K : Type} [LinearOrderedField K] {n p : Nat} (ext : irls_library K n p) :
    Prop :=
  ∀ (f : Bool) (A : Matrix (Fin n) (Fin p) K) (t : Fin n → K) (c : Fin p → K),
    Function.Injective A.mulVec → A.mulVec c = t → ext.solve f A t = some c

/-- The method `wald_lm_method::init` (wald_lm_method.cpp, lines 14-24). -/
def wald_lm_method.init : List String := ["LR", "P", "df"]

/-- What a call of the virtual `run` of a method leaves behind: the method object, the
`output` array and the returned statistic (`none` when the call throws). -/
structure method_run (K : Type) (M : Type) where
  self : M
  output : List K
  ret : Option K

/-- Modelled from the spec: the interface of a method as `run_method` uses it (the class
`method_type` is declared in a header that is not among the sources).  `M` is the type of
the method object; `init` gives the header of the method, `run` is the entry point per
pair, `num_ok_samples` the count of samples that contributed to the fit of the pair, and
`threshold` the value `get_data( )->threshold`. -/
structure method_type (K : Type) (M : Type) where
  init : List String
  run : M → List Nat → List Nat → List K → method_run K M
  num_ok_samples : M → List Nat → List Nat → K
  threshold : K

/-- A call that `run_method` makes on the result file. -/
inductive result_event (K : Type) where
  | set_header (header : List String)
  | write (pair : String × String) (row : List K)

/-- The state when `run_method` is left: the method object, the calls made on the result
file in their order, and whether an exception of `run` ended the function. -/
structure run_method_result (K : Type) (M : Type) where
  self : M
  result : List (result_event K)
  threw : Bool

/-- The `while( pairs.read( pair ) )` loop of `run_method` (lines 18-39) over the pairs
that are left.  `get_row` is `genotypes->get_row` (`none` for `NULL`), `size` is
`method_header.size( )`, `missing` the value of `result_get_missing( )`. -/
def run_method_loop {K : Type} [LinearOrderedField K] {M : Type} (method : method_type K M)
    (get_row : String → Option (List Nat)) (size : Nat) (threshold missing : K) :
    M → List (String × String) → List (result_event K) → run_method_result K M
  | self, [], result => { self := self, result := result, threw := false }
  | self, pair :: pairs, result =>
    match get_row pair.1, get_row pair.2 with
    | some row1, some row2 =>
      let output := List.replicate size missing
      let r := method.run self row1 row2 output
      match r.ret with
      | none => { self := r.self, result := result, threw := true }
      | some statistic =>
        if threshold ≠ -9 ∧ (statistic = -9 ∨ statistic > threshold) then
          run_method_loop method get_row size threshold missing r.self pairs result
        else
          let output2 := r.output.set (size - 1) (method.num_ok_samples r.self row1 row2)
          run_method_loop method get_row size threshold missing r.self pairs
            (result ++ [result_event.write pair output2])
    | _, _ => run_method_loop method get_row size threshold missing self pairs result

/-- The function `run_method` (lines 8-42); `result` holds the calls already made on the
result file. -/
def run_method {K : Type} [LinearOrderedField K] {M : Type} (method : method_type K M)
    (self : M) (get_row : String → Option (List Nat)) (pairs : List (String × String))
    (result : List (result_event K)) (missing : K) : run_method_result K M :=
  let method_header := method.init ++ ["N"]
  let result1 := result ++ [result_event.set_header method_header]
  let threshold := method.threshold
  run_method_loop method get_row method_header.length threshold missing self pairs result1

/-- Modelled from the spec: `wald_lm_method` as a `method_type`.  `run` is
`wald_lm_method::run`; `num_ok_samples` returns the count that the last `run` handed to
`set_num_ok_samples` (both functions are declared in the header that is not among the
sources). -/
def wald_method {K : Type} [LinearOrderedField K] (cell_threshold : K)
    (chi_square_cdf : K → Nat → Option K) (threshold : K) :
    method_type K (wald_lm_method K) :=
  { init := wald_lm_method.init
    run := fun self row1 row2 output =>
      { self := (wald_lm_method.run cell_threshold chi_square_cdf self row1 row2 output).self
        output :=
          (wald_lm_method.run cell_threshold chi_square_cdf self row1 row2 output).output
        ret := (wald_lm_method.run cell_threshold chi_square_cdf self row1 row2 output).ret }
    num_ok_samples := fun self _ _ => self.m_num_ok_samples
    threshold := threshold }

/-! ## The header of a covariate file (libs/besiq/io/covariates.cpp) -/

/-- The characters that `operator>>` for `std::string` skips and stops at (`isspace` in
the classic locale): tab, line feed, vertical tab, form feed, carriage return, space. -/
def isspace (c : Char) : Bool :=
  decide (c.toNat = 32) || (decide (9 ≤ c.toNat) && decide (c.toNat ≤ 13))

/-- The extraction loop of `std::istream_iterator<std::string>` over the characters that
are left; `cur` holds the characters of the token being read, last one first. -/
def read_tokens : List Char → List Char → List String
  | [], cur => if cur.isEmpty then [] else [String.mk cur.reverse]
  | c :: cs, cur =>
    if isspace c then
      if cur.isEmpty then read_tokens cs [] else String.mk cur.reverse :: read_tokens cs []
    else read_tokens cs (c :: cur)

/-- The vector `fields` after the `std::copy` of lines 32-34: the whitespace-separated
tokens of the header, in their order. -/
def header_tokens (header : String) : List String :=
  read_tokens header.data []

/-- How a call of `get_fields` ends: it returns the vector, it throws
`std::runtime_error`, or it evaluates `fields[ 1 ]` on a vector with a single element,
which reads past the end of the vector. -/
inductive get_fields_result where
  | returned (fields : List String)
  | runtime_error
  | out_of_range

/-- The function `get_fields` (lines 28-42).  The three operands of `||` in line 36 are
evaluated from left to right until one is true; `std::vector::operator[]` does no bounds
check. -/
def get_fields (header : String) : get_fields_result :=
  let fields := header_tokens header
  if fields.length ≤ 0 then get_fields_result.runtime_error
  else
    match fields[0]? with
    | none => get_fields_result.out_of_range
    | some f0 =>
      if f0 ≠ "FID" then get_fields_result.runtime_error
      else
        match fields[1]? with
        | none => get_fields_result.out_of_range
        | some f1 =>
          if f1 ≠ "IID" then get_fields_result.runtime_error
          else get_fields_result.returned fields

/-! ## The statements of the specification, for comparison with the code -/

/-- The four interaction contrasts `(c1, c2)` in the order of the specification. -/
def contrast_list : List (Nat × Nat) := [(1, 1), (1, 2), (2, 1), (2, 2)]

/-- A cell is retained when its count reaches the threshold. -/
def retained {K : Type} [LinearOrderedField K] (n : Nat → Nat → K) (threshold : K)
    (c : Nat × Nat) : Bool :=
  decide (n c.1 c.2 ≥ threshold)

/-- A contrast `(c1, c2)` is valid when the cells `(0,0)`, `(0,c2)`, `(c1,0)` and
`(c1,c2)` are all retained. -/
def contrast_valid {K : Type} [LinearOrderedField K] (n : Nat → Nat → K) (threshold : K)
    (c : Nat × Nat) : Bool :=
  retained n threshold (0, 0) && retained n threshold (0, c.2)
    && retained n threshold (c.1, 0) && retained n threshold (c.1, c.2)

/-- The valid contrasts, in order. -/
def valid_contrasts {K : Type} [LinearOrderedField K] (n : Nat → Nat → K) (threshold : K) :
    List (Nat × Nat) :=
  contrast_list.filter (contrast_valid n threshold)

/-- The cell mean `suf / n`. -/
def cell_mean {K : Type} [LinearOrderedField K] (s : SufStats K) (i j : Nat) : K :=
  s.suf i j / s.n i j

/-- The value `mean(0,0) - mean(0,c2) - mean(c1,0) + mean(c1,c2)` of a contrast. -/
def contrast_value {K : Type} [LinearOrderedField K] (s : SufStats K) (c : Nat × Nat) : K :=
  cell_mean s 0 0 - cell_mean s 0 c.2 - cell_mean s c.1 0 + cell_mean s c.1 c.2

/-- The coefficient of the cell `cell` in the contrast `c = (c1, c2)`: `+1` on `(0,0)`
and `(c1,c2)`, `-1` on `(0,c2)` and `(c1,0)`, `0` elsewhere. -/
def coef {K : Type} [LinearOrderedField K] (c cell : Nat × Nat) : K :=
  if cell = (0, 0) ∨ cell = (c.1, c.2) then 1
  else if cell = (0, c.2) ∨ cell = (c.1, 0) then -1
  else 0

/-- The covariance of two contrasts under independent cell means of variance
`sg(cell) / n(cell)`. -/
def contrast_cov {K : Type} [LinearOrderedField K] (n sg : Nat → Nat → K)
    (a b : Nat × Nat) : K :=
  (cells.map (fun cell => coef a cell * coef b cell * sg cell.1 cell.2 / n cell.1 cell.2)).sum

/-- The entry `m_C( a, b )` of a matrix of run-time size (zero outside its bounds). -/
def SqMat.entry {K : Type} [LinearOrderedField K] (M : SqMat K) (a b : Nat) : K :=
  if h : a < M.dim ∧ b < M.dim then M.val ⟨a, h.1⟩ ⟨b, h.2⟩ else 0

/-- The residual `suf2 - suf^2 / n` of a cell. -/
def cell_resid {K : Type} [LinearOrderedField K] (s : SufStats K) (c : Nat × Nat) : K :=
  s.suf2 c.1 c.2 - s.suf c.1 c.2 ^ 2 / s.n c.1 c.2

/-- The sum of the residuals of the retained cells. -/
def retained_resid {K : Type} [LinearOrderedField K] (s : SufStats K) (threshold : K) : K :=
  ((cells.filter (retained s.n threshold)).map (cell_resid s)).sum

/-- The sum of the counts of the retained cells. -/
def retained_total {K : Type} [LinearOrderedField K] (s : SufStats K) (threshold : K) : K :=
  ((cells.filter (retained s.n threshold)).map (fun c => s.n c.1 c.2)).sum

/-- The rows that the driver writes, as the specification words it: for each pair whose
two genotype rows exist, the row is written if and only if the threshold is -9, or the
statistic is not -9 and at most the threshold; a written row holds the columns of the
method followed by the sample count of the pair; a pair with a missing genotype row is
skipped.  (When `run` throws, the exception leaves the driver and no further pair is
processed.) -/
def driver_writes {K : Type} [LinearOrderedField K] {M : Type} (method : method_type K M)
    (get_row : String → Option (List Nat)) (missing : K) :
    M → List (String × String) → List (result_event K)
  | _, [] => []
  | self, pair :: pairs =>
    match get_row pair.1, get_row pair.2 with
    | some row1, some row2 =>
      let r := method.run self row1 row2 (List.replicate (method.init.length + 1) missing)
      match r.ret with
      | none => []
      | some statistic =>
        (if method.threshold = -9 ∨ (statistic ≠ -9 ∧ statistic ≤ method.threshold) then
          [result_event.write pair
            (r.output.take method.init.length ++ [method.num_ok_samples r.self row1 row2])]
        else [])
          ++ driver_writes method get_row missing r.self pairs
    | _, _ => driver_writes method get_row missing self pairs

/-! ## The nested models: collapsed rows, residual sums and definedness -/

/-- The rows of the count table that make up the collapsed category `i`: rows `3i`,
`3i+1`, `3i+2` when the flag is true, rows `i`, `3+i`, `6+i` otherwise. -/
def collapse_rows (m_is_first : Bool) (i : Fin 3) : List (Fin 9) :=
  if m_is_first then
    [⟨3 * i.val, by omega⟩, ⟨3 * i.val + 1, by omega⟩, ⟨3 * i.val + 2, by omega⟩]
  else
    [⟨i.val, by omega⟩, ⟨3 + i.val, by omega⟩, ⟨6 + i.val, by omega⟩]

/-- The pooled sample count `sum( count.col( 1 ) )`. -/
def pooled_n {K : Type} [LinearOrderedField K] {m : Nat} (count : Fin m → Fin 3 → K) : K :=
  ∑ c, count c 1

/-- The residual sum of the saturated model: one mean per row of the table. -/
def lm_full.rss {K : Type} [LinearOrderedField K] {m : Nat} (count : Fin m → Fin 3 → K) : K :=
  ∑ c, category_rss (count c 0) (count c 1) (count c 2)

/-- The residual of the intercept-only model: one mean for the pooled sums. -/
def intercept.rss {K : Type} [LinearOrderedField K] {m : Nat} (count : Fin m → Fin 3 → K) : K :=
  category_rss (∑ c, count c 0) (∑ c, count c 1) (∑ c, count c 2)

/-- The residual sum of the single-locus model: one mean per collapsed category. -/
def single.rss {K : Type} [LinearOrderedField K] (m_is_first : Bool)
    (count : Fin 9 → Fin 3 → K) : K :=
  ∑ i, category_rss (single.snp_pheno m_is_first count i 0)
    (single.snp_pheno m_is_first count i 1) (single.snp_pheno m_is_first count i 2)

/-- The double that `lm_full::prob` hands to `from_log` is a finite number, the one field
arithmetic gives, exactly when no division has a zero divisor and `log` gets a positive
argument: every row count is non-zero, `n - k` is non-zero and `sigma_square` is
positive.  Otherwise IEEE arithmetic yields a NaN or an infinity at that operation
(`0/0`, `x/0`, the logarithm of a non-positive number) and the operations that follow
keep the result non-finite. -/
def lm_full.defined {K : Type} [LinearOrderedField K] {m : Nat}
    (count : Fin m → Fin 3 → K) : Bool :=
  decide (∀ c, count c 1 ≠ 0) && decide (pooled_n count - 9 ≠ 0)
    && decide (0 < lm_full.rss count / (pooled_n count - 9))

/-- The same for `intercept::prob`: the pooled count, `n - k` and a positive
`sigma_square`. -/
def intercept.defined {K : Type} [LinearOrderedField K] {m : Nat}
    (count : Fin m → Fin 3 → K) : Bool :=
  decide (pooled_n count ≠ 0) && decide (pooled_n count - 1 ≠ 0)
    && decide (0 < intercept.rss count / (pooled_n count - 1))

/-- Modelled from the spec: the Count Table (each genotype-combination cell holds the
sample count, the sum of the phenotypes and the sum of their squares), in the column
order that the `prob` methods read: column 0 the sum, column 1 the count, column 2 the
sum of squares.  `samples c` lists the phenotypes of the samples of cell `c`; the code
that fills the table is not among the sources. -/
def count_of_samples {K : Type} [LinearOrderedField K] (samples : Fin 9 → List K) :
    Fin 9 → Fin 3 → K :=
  fun c col =>
    if col = 0 then (samples c).sum
    else if col = 1 then ((samples c).length : K)
    else ((samples c).map (fun y => y * y)).sum

/-! ## Count tables and objects used as concrete inputs -/

/-- A 9-row count table with two samples per row, of phenotypes `1` and `-1`: every row
has sum 0, count 2 and sum of squares 2. -/
def even_count (K : Type) [LinearOrderedField K] : Fin 9 → Fin 3 → K :=
  fun _ col => if col = 0 then 0 else 2

/-- A 9-row count table with one non-empty row: five samples of sum 10 and sum of
squares 30 in row 0. -/
def single_cell_count (K : Type) [LinearOrderedField K] : Fin 9 → Fin 3 → K :=
  fun c col => if c = 0 then (if col = 0 then 10 else if col = 1 then 5 else 30) else 0

/-- A 9-row count table with one sample of phenotype 2 in every row. -/
def ones_count (K : Type) [LinearOrderedField K] : Fin 9 → Fin 3 → K :=
  fun _ col => if col = 0 then 2 else if col = 1 then 1 else 4


/-- A table whose nine cells each hold ten samples of phenotype 2. -/
def flat_table : SufStats ℚ :=
  { n := fun _ _ => 10, suf := fun _ _ => 20, suf2 := fun _ _ => 40 }

/-- A table with ten samples in each of the cells (0,0), (0,1), (1,0), (1,1) and none
elsewhere; the cell (1,1) has mean 3, the others mean 2, each with residual 10. -/
def block_table : SufStats ℚ :=
  { n := fun i j => if i < 2 ∧ j < 2 then 10 else 0
    suf := fun i j => if i < 2 ∧ j < 2 then (if i = 1 ∧ j = 1 then 30 else 20) else 0
    suf2 := fun i j => if i < 2 ∧ j < 2 then (if i = 1 ∧ j = 1 then 100 else 50) else 0 }

/-- The counts `[[50,40,10],[5,5,0],[0,0,0]]` of the scenario (rows: locus 1). -/
def scenario_counts : Nat → Nat → Nat
  | 0, 0 => 50
  | 0, 1 => 40
  | 0, 2 => 10
  | 1, 0 => 5
  | 1, 1 => 5
  | _, _ => 0

/-- The scenario table: the counts of `scenario_counts`, every sample of phenotype 2,
so that `suf = 2 n` and `suf2 = 4 n`. -/
def scenario_table (K : Type) [LinearOrderedField K] : SufStats K :=
  { n := fun i j => (scenario_counts i j : K)
    suf := fun i j => 2 * (scenario_counts i j : K)
    suf2 := fun i j => 4 * (scenario_counts i j : K) }

/-- A 9-row count table with ten samples per row: the first row has sum 30 and sum of
squares 100, the other rows sum 20 and sum of squares 50. -/
def sample_count : Fin 9 → Fin 3 → ℚ :=
  fun c col =>
    if col = 1 then 10
    else if col = 0 then (if c = 0 then 30 else 20)
    else (if c = 0 then 100 else 50)

/-- External functions for a one-sample, one-coefficient evaluation of `irls`: a solver
that always returns the coefficient 1, the given `sqrt`, a `chi_square_cdf` that
rejects every argument, and 1 in the place of `DBL_MAX`. -/
def unit_library (sqrt : ℚ → ℚ) : irls_library ℚ 1 1 :=
  { sqrt := sqrt, solve := fun _ _ _ => some (fun _ => 1), is_finite := fun _ => true
    chi_square_cdf := fun _ _ => none, DBL_MAX := 1, uninit := fun _ => 0 }

/-- A model with the identity link, unit variance, a constant log-likelihood, the
dispersion `1 / (3 - paramCount)` (a residual sum 1 over three samples), and a mean that
is valid or not according to the flag. -/
def unit_model (valid : Bool) : glm_model ℚ 1 :=
  { link := { eta := fun e => e, mu := fun e => e, mu_eta := fun _ _ => 1 }
    var := fun _ _ => 1
    likelihood := fun _ _ _ => 0
    likelihood_dispersion := fun _ _ _ _ => 0
    dispersion := fun _ _ _ k => 1 / (3 - k)
    valid_mu := fun _ => valid }

/-- The 1 x 1 design matrix with entry 1. -/
def unit_X : Matrix (Fin 1) (Fin 1) ℚ := fun _ _ => 1

/-- An `output` object before a call: empty vectors and cleared flags. -/
def blank_output : glm_info ℚ :=
  { se_beta := [], p_value := [], num_iters := 0, mu := [], logl := 0, converged := false
    success := false }

/-- A least-squares solver in exact arithmetic, standing for `arma::solve`: the solution
`(AᵀA)⁻¹ Aᵀ t` of the normal equations, and a failure when `AᵀA` is singular. -/
def normal_solve {K : Type} [LinearOrderedField K] {n p : Nat} (A : Matrix (Fin n) (Fin p) K)
    (t : Fin n → K) : Option (Fin p → K) :=
  match inv (A.transpose * A) with
  | none => none
  | some G => some (G.mulVec (A.transpose.mulVec t))

/-- Library functions over the rationals for two samples and one coefficient: the exact
least-squares solver, a `sqrt` that is right at the arguments 0 and 1 it is given here, an
`is_finite` that accepts every matrix, a CDF that rejects every value. -/
def pair_library : irls_library ℚ 2 1 :=
  { sqrt := fun x => x, solve := fun _ => normal_solve, is_finite := fun _ => true
    chi_square_cdf := fun _ _ => none, DBL_MAX := 10 ^ 308, uninit := fun _ => 0 }

/-- A Gaussian model on two samples with the identity link and variance 1; the
log-likelihood is `-Σ (y - mu)² / 2`, the dispersion the residual mean square. -/
def pair_model : glm_model ℚ 2 :=
  { link := { eta := fun e => e, mu := fun e => e, mu_eta := fun _ _ => 1 }
    var := fun _ _ => 1
    likelihood := fun mu y _ => -(∑ i, (y i - mu i) ^ 2) / 2
    likelihood_dispersion := fun mu y _ _ => -(∑ i, (y i - mu i) ^ 2) / 2
    dispersion := fun mu y _ k => (∑ i, (y i - mu i) ^ 2) / (2 - k)
    valid_mu := fun _ => true }

/-- The 2 x 1 design matrix of an intercept: a column of ones. -/
def pair_X : Matrix (Fin 2) (Fin 1) ℚ := fun _ _ => 1

/-- The 1 x 1 design matrix with entry 0: a design without full rank. -/
def zero_X : Matrix (Fin 1) (Fin 1) ℚ := fun _ _ => 0

/-- An `output` object as a successful fit leaves it: `converged` and `success` set. -/
def stale_output : glm_info ℚ :=
  { se_beta := [1], p_value := [1], num_iters := 3, mu := [1], logl := 0, converged := true
    success := true }

/-- Library functions over the rationals for one sample and one coefficient.  `solve`
is `arma::solve` on a 1 x 1 system: the exact solution of a non-singular system in either
mode; for the singular matrix `[[0]]` the approximate (minimum-norm least-squares)
solution 0 in the default mode, and a failure under
`solve_opts::fast + solve_opts::no_approx`.  `sqrt` is right at the arguments 0 and 1 it
is given here. -/
def scalar_library : irls_library ℚ 1 1 :=
  { sqrt := fun x => x
    solve := fun f A t =>
      if A 0 0 = 0 then (if f then none else some (fun _ => 0))
      else some (fun _ => t 0 / A 0 0)
    is_finite := fun _ => true, chi_square_cdf := fun _ _ => none, DBL_MAX := 10 ^ 308
    uninit := fun _ => 0 }

/-- Nine cells with two samples each: the phenotypes `c` and `c + 2` in cell `c`. -/
def stair_samples : Fin 9 → List ℚ := fun c => [(c.val : ℚ), (c.val : ℚ) + 2]

/-- A method object over the rationals for twelve samples, none of them masked: with the
rows `quad_row1` and `quad_row2` three samples fall in each of the cells (0,0), (0,1),
(1,0) and (1,1). -/
def quad_method : wald_lm_method ℚ :=
  { m_unequal_var := false, m_missing := [0, 0, 0, 0, 0, 0, 0, 0, 0, 0, 0, 0]
    m_pheno := [1, 2, 3, 1, 2, 3, 1, 2, 3, 2, 3, 4], m_beta := []
    m_C := { dim := 0, val := fun _ _ => 0 }, m_num_ok_samples := 0 }

/-- The genotypes of the twelve samples at the first locus. -/
def quad_row1 : List Nat := [0, 0, 0, 0, 0, 0, 1, 1, 1, 1, 1, 1]

/-- The genotypes of the twelve samples at the second locus. -/
def quad_row2 : List Nat := [0, 0, 0, 1, 1, 1, 0, 0, 0, 1, 1, 1]

/-- A genotype store with the two rows `a` and `b`, of two samples each. -/
def two_rows (name : String) : Option (List Nat) :=
  if name = "a" ∨ name = "b" then some [0, 1] else none

/-- Ten samples in each of the cells (0,0), (0,1), (1,0) and (1,1): the genotypes of the
forty samples at the first locus. -/
def cancel_row1 : List Nat := List.replicate 20 0 ++ List.replicate 20 1

/-- The genotypes of the forty samples at the second locus. -/
def cancel_row2 : List Nat :=
  List.replicate 10 0 ++ List.replicate 10 1 ++ List.replicate 10 0 ++ List.replicate 10 1

/-- The phenotypes of the forty samples: the double nearest to 0.7 for the thirty samples
of the cells (0,0), (0,1), (1,0) and the double nearest to 1.3 for the ten samples of the
cell (1,1). -/
def cancel_pheno : List ℚ :=
  List.replicate 30 (binary64 (7 / 10)) ++ List.replicate 10 (binary64 (13 / 10))

/-- The table that the accumulation loop builds in binary64 arithmetic from the forty
samples, none of them masked. -/
def cancel_table : SufStats ℚ :=
  accumulate_fl binary64 cancel_row1 cancel_row2 (List.replicate 40 0) cancel_pheno

/-- Nine cells of ten samples each, every phenotype the double nearest to 1.3. -/
def cancel_samples : Fin 9 → List ℚ := fun _ => List.replicate 10 (binary64 (13 / 10))

/-- The count table of `cancel_samples`, accumulated in binary64 arithmetic. -/
def cancel_count : Fin 9 → Fin 3 → ℚ := count_of_samples_fl binary64 cancel_samples


/-- A method object over the rationals for two samples of phenotypes 1 and 2, neither
of them masked. -/
def two_sample_method : wald_lm_method ℚ :=
  { m_unequal_var := false, m_missing := [0, 0], m_pheno := [1, 2], m_beta := [],
    m_C := { dim := 0, val := fun _ _ => 0 }, m_num_ok_samples := 0 }

/-- A method object over the rationals with no samples and empty `m_beta`, `m_C`. -/
def sample_method (m_unequal_var : Bool) : wald_lm_method ℚ :=
  { m_unequal_var := m_unequal_var, m_missing := [], m_pheno := [], m_beta := [],
    m_C := { dim := 0, val := fun _ _ => 0 }, m_num_ok_samples := 0 }

/-! ## Theorems: the accumulation loop -/

section Accumulate

variable {K : Type} [LinearOrderedField K]

lemma accumulate_upto_succ (row1 row2 m_missing : List Nat) (m_pheno : List K) (m : Nat) :
    accumulate_upto row1 row2 m_missing m_pheno (m + 1)
      = accumulate_step row1 row2 m_missing m_pheno
          (accumulate_upto row1 row2 m_missing m_pheno m) m := by
  simp [accumulate_upto, List.range_succ, List.foldl_append]

lemma cell_samples_succ (row1 row2 m_missing : List Nat) (a b m : Nat) :
    cell_samples row1 row2 m_missing a b (m + 1)
      = if row1.getD m 0 = a ∧ row2.getD m 0 = b ∧ m_missing.getD m 0 ≠ 1
        then insert m (cell_samples row1 row2 m_missing a b m)
        else cell_samples row1 row2 m_missing a b m := by
  simp only [cell_samples, Finset.range_succ, Finset.filter_insert]

lemma not_mem_cell_samples (row1 row2 m_missing : List Nat) (a b m : Nat) :
    m ∉ cell_samples row1 row2 m_missing a b m := by
  simp [cell_samples]

lemma ok_samples_succ (row1 row2 m_missing : List Nat) (m : Nat) :
    ok_samples row1 row2 m_missing (m + 1)
      = if row1.getD m 0 ≠ 3 ∧ row2.getD m 0 ≠ 3 ∧ m_missing.getD m 0 ≠ 1
        then insert m (ok_samples row1 row2 m_missing m)
        else ok_samples row1 row2 m_missing m := by
  simp only [ok_samples, Finset.range_succ, Finset.filter_insert]

lemma not_mem_ok_samples (row1 row2 m_missing : List Nat) (m : Nat) :
    m ∉ ok_samples row1 row2 m_missing m := by
  simp [ok_samples]

/-- After `m` passes every cell `(a, b)` with `a, b ≠ 3` holds the count, the sum and
the sum of squares of exactly the samples of `cell_samples`. -/
lemma accumulate_upto_cell (row1 row2 m_missing : List Nat) (m_pheno : List K)
    (a b : Nat) (ha : a ≠ 3) (hb : b ≠ 3) (m : Nat) :
    (accumulate_upto row1 row2 m_missing m_pheno m).n a b
        = ((cell_samples row1 row2 m_missing a b m).card : K)
    ∧ (accumulate_upto row1 row2 m_missing m_pheno m).suf a b
        = ∑ i in cell_samples row1 row2 m_missing a b m, m_pheno.getD i 0
    ∧ (accumulate_upto row1 row2 m_missing m_pheno m).suf2 a b
        = ∑ i in cell_samples row1 row2 m_missing a b m, m_pheno.getD i 0 * m_pheno.getD i 0 := by
  induction m with
  | zero => simp [accumulate_upto, cell_samples, zeros]
  | succ m ih =>
    obtain ⟨ihn, ihs, ihq⟩ := ih
    rw [accumulate_upto_succ, cell_samples_succ]
    unfold accumulate_step
    by_cases hskip : row1.getD m 0 = 3 ∨ row2.getD m 0 = 3 ∨ m_missing.getD m 0 = 1
    · have hno : ¬ (row1.getD m 0 = a ∧ row2.getD m 0 = b ∧ m_missing.getD m 0 ≠ 1) := by
        rintro ⟨h1, h2, h3⟩
        rcases hskip with h | h | h
        · exact ha (h1 ▸ h)
        · exact hb (h2 ▸ h)
        · exact h3 h
      simp only [hskip, if_true, hno, if_false]
      exact ⟨ihn, ihs, ihq⟩
    · have hmiss : m_missing.getD m 0 ≠ 1 := fun h => hskip (Or.inr (Or.inr h))
      rw [if_neg hskip]
      by_cases hcell : a = row1.getD m 0 ∧ b = row2.getD m 0
      · obtain ⟨h1, h2⟩ := hcell
        subst h1 h2
        have hnm := not_mem_cell_samples row1 row2 m_missing (row1.getD m 0) (row2.getD m 0) m
        rw [if_pos ⟨rfl, rfl, hmiss⟩, Finset.card_insert_of_not_mem hnm, Finset.sum_insert hnm,
          Finset.sum_insert hnm]
        simp only [add_at, and_self, if_true]
        rw [ihn, ihs, ihq]
        refine ⟨?_, ?_, ?_⟩
        · push_cast; ring
        · ring
        · ring
      · have hno : ¬ (row1.getD m 0 = a ∧ row2.getD m 0 = b ∧ m_missing.getD m 0 ≠ 1) := by
          rintro ⟨h1, h2, _⟩
          exact hcell ⟨h1.symm, h2.symm⟩
        rw [if_neg hno]
        simp only [add_at, hcell, if_false]
        exact ⟨ihn, ihs, ihq⟩

lemma accu_add_at (m : Nat → Nat → K) (a b : Nat) (ha : a < 3) (hb : b < 3) (v : K) :
    accu (add_at m a b v) = accu m + v := by
  have h : ∀ x : K, x + 0 = x := add_zero
  interval_cases a <;> interval_cases b <;>
    simp only [accu, cells, add_at, List.map_cons, List.map_nil, List.sum_cons, List.sum_nil,
      and_self, if_true] <;>
    norm_num <;> ring

/-- After `m` passes the nine counts add up to the number of samples that were
not skipped. -/
lemma accumulate_upto_total (row1 row2 m_missing : List Nat) (m_pheno : List K)
    (h1 : ∀ i, row1.getD i 0 ≤ 3) (h2 : ∀ i, row2.getD i 0 ≤ 3) (m : Nat) :
    accu (accumulate_upto row1 row2 m_missing m_pheno m).n
      = ((ok_samples row1 row2 m_missing m).card : K) := by
  induction m with
  | zero => simp [accumulate_upto, ok_samples, zeros, accu, cells]
  | succ m ih =>
    rw [accumulate_upto_succ, ok_samples_succ]
    unfold accumulate_step
    by_cases hskip : row1.getD m 0 = 3 ∨ row2.getD m 0 = 3 ∨ m_missing.getD m 0 = 1
    · have hno : ¬ (row1.getD m 0 ≠ 3 ∧ row2.getD m 0 ≠ 3 ∧ m_missing.getD m 0 ≠ 1) := by
        rintro ⟨h1, h2, h3⟩
        rcases hskip with h | h | h
        · exact h1 h
        · exact h2 h
        · exact h3 h
      simp only [hskip, if_true, hno, if_false]
      exact ih
    · have hin : row1.getD m 0 ≠ 3 ∧ row2.getD m 0 ≠ 3 ∧ m_missing.getD m 0 ≠ 1 :=
        ⟨fun h => hskip (Or.inl h), fun h => hskip (Or.inr (Or.inl h)),
          fun h => hskip (Or.inr (Or.inr h))⟩
      have ha : row1.getD m 0 < 3 := lt_of_le_of_ne (h1 m) hin.1
      have hb : row2.getD m 0 < 3 := lt_of_le_of_ne (h2 m) hin.2.1
      rw [if_neg hskip, if_pos hin]
      show accu (add_at _ _ _ 1) = _
      rw [accu_add_at _ _ _ ha hb, ih,
        Finset.card_insert_of_not_mem (not_mem_ok_samples row1 row2 m_missing m)]
      push_cast
      ring

lemma getD_le_of_forall_mem (l : List Nat) (c : Nat) (h : ∀ x ∈ l, x ≤ c) (i : Nat) :
    l.getD i 0 ≤ c := by
  by_cases hi : i < l.length
  · rw [List.getD_eq_getElem l 0 hi]
    exact h _ (List.getElem_mem hi)
  · rw [List.getD_eq_default l 0 (by omega)]
    exact Nat.zero_le c

/-- C1: for equal-length genotype rows with codes in {0,1,2,3}, a phenotype vector and a
0/1 mask, the accumulation loop of `wald_lm_method::run` leaves in every cell `(a, b)`
with `a, b < 3` the number of samples `i` with `row1[i] = a`, `row2[i] = b` and
`mask[i] ≠ 1`, the sum of their phenotypes and the sum of their squared phenotypes;
a sample lies in at most one cell, and the nine counts add up to the number of samples
with both genotypes different from 3 and mask different from 1. -/
theorem accumulate_sufficient_statistics (row1 row2 m_missing : List Nat) (m_pheno : List K)
    (_hlen : row2.length = row1.length) (_hmlen : m_missing.length = row1.length)
    (_hplen : m_pheno.length = row1.length)
    (h1 : ∀ x ∈ row1, x ≤ 3) (h2 : ∀ x ∈ row2, x ≤ 3) (_hm : ∀ x ∈ m_missing, x ≤ 1) :
    (∀ a b : Nat, a < 3 → b < 3 →
      (accumulate row1 row2 m_missing m_pheno).n a b
          = (((Finset.range row1.length).filter (fun i =>
              row1.getD i 0 = a ∧ row2.getD i 0 = b ∧ m_missing.getD i 0 ≠ 1)).card : K)
      ∧ (accumulate row1 row2 m_missing m_pheno).suf a b
          = ∑ i in (Finset.range row1.length).filter (fun i =>
              row1.getD i 0 = a ∧ row2.getD i 0 = b ∧ m_missing.getD i 0 ≠ 1),
              m_pheno.getD i 0
      ∧ (accumulate row1 row2 m_missing m_pheno).suf2 a b
          = ∑ i in (Finset.range row1.length).filter (fun i =>
              row1.getD i 0 = a ∧ row2.getD i 0 = b ∧ m_missing.getD i 0 ≠ 1),
              (m_pheno.getD i 0) ^ 2)
    ∧ (∀ i a b c d : Nat, i ∈ cell_samples row1 row2 m_missing a b row1.length →
        i ∈ cell_samples row1 row2 m_missing c d row1.length → a = c ∧ b = d)
    ∧ accu (accumulate row1 row2 m_missing m_pheno).n
        = (((Finset.range row1.length).filter (fun i =>
            row1.getD i 0 ≠ 3 ∧ row2.getD i 0 ≠ 3 ∧ m_missing.getD i 0 ≠ 1)).card : K) := by
  refine ⟨?_, ?_, ?_⟩
  · intro a b ha hb
    have h := accumulate_upto_cell row1 row2 m_missing m_pheno a b (by omega) (by omega)
      row1.length
    simp only [cell_samples] at h
    refine ⟨h.1, h.2.1, ?_⟩
    rw [show accumulate row1 row2 m_missing m_pheno
      = accumulate_upto row1 row2 m_missing m_pheno row1.length from rfl, h.2.2]
    exact Finset.sum_congr rfl (fun i _ => (pow_two _).symm)
  · intro i a b c d hab hcd
    simp only [cell_samples, Finset.mem_filter] at hab hcd
    exact ⟨hab.2.1.symm.trans hcd.2.1, hab.2.2.1.symm.trans hcd.2.2.1⟩
  · exact accumulate_upto_total row1 row2 m_missing m_pheno
      (getD_le_of_forall_mem row1 3 h1) (getD_le_of_forall_mem row2 3 h2) row1.length

/-- Witness of `accumulate_sufficient_statistics`: four samples, one with a missing
genotype and one masked. -/
theorem accumulate_sufficient_statistics_witness :
    ([1, 1, 0, 1] : List Nat).length = ([0, 1, 3, 0] : List Nat).length
    ∧ ([0, 1, 0, 0] : List Nat).length = ([0, 1, 3, 0] : List Nat).length
    ∧ ([2, 3, 5, 7] : List ℚ).length = ([0, 1, 3, 0] : List Nat).length
    ∧ (∀ x ∈ ([0, 1, 3, 0] : List Nat), x ≤ 3) ∧ (∀ x ∈ ([1, 1, 0, 1] : List Nat), x ≤ 3)
    ∧ (∀ x ∈ ([0, 1, 0, 0] : List Nat), x ≤ 1)
    ∧ accu (accumulate [0, 1, 3, 0] [1, 1, 0, 1] [0, 1, 0, 0] ([2, 3, 5, 7] : List ℚ)).n
        = (((Finset.range ([0, 1, 3, 0] : List Nat).length).filter (fun i =>
            ([0, 1, 3, 0] : List Nat).getD i 0 ≠ 3 ∧ ([1, 1, 0, 1] : List Nat).getD i 0 ≠ 3
              ∧ ([0, 1, 0, 0] : List Nat).getD i 0 ≠ 1)).card : ℚ) :=
  ⟨by decide, by decide, by decide, by decide, by decide, by decide,
    (accumulate_sufficient_statistics [0, 1, 3, 0] [1, 1, 0, 1] [0, 1, 0, 0]
      ([2, 3, 5, 7] : List ℚ) (by decide) (by decide) (by decide) (by decide) (by decide)
      (by decide)).2.2⟩

end Accumulate

/-! ## Theorems: cell moments and variances -/

section Moments

variable {K : Type} [LinearOrderedField K]

lemma foldl_moments_resid (s : SufStats K) (t : K) (i j : Nat) (l : List (Nat × Nat))
    (st : Moments K) :
    (l.foldl (moments_step s t) st).resid i j
      = if (i, j) ∈ l ∧ ¬ s.n i j < t then s.suf2 i j - s.suf i j * s.suf i j / s.n i j
        else st.resid i j := by
  induction l generalizing st with
  | nil => simp
  | cons c l ih =>
    rw [List.foldl_cons, ih]
    by_cases hl : (i, j) ∈ l ∧ ¬ s.n i j < t
    · have : (i, j) ∈ c :: l ∧ ¬ s.n i j < t := ⟨List.mem_cons_of_mem _ hl.1, hl.2⟩
      rw [if_pos hl, if_pos this]
    · rw [if_neg hl]
      unfold moments_step
      by_cases hc : s.n c.1 c.2 < t
      · rw [if_neg (show ¬ ((i, j) ∈ c :: l ∧ ¬ s.n i j < t) from ?_), if_pos hc]
        rintro ⟨hm, hr⟩
        rcases List.mem_cons.mp hm with h | h
        · rw [← h] at hc; exact hr hc
        · exact hl ⟨h, hr⟩
      · rw [if_neg hc]
        by_cases hij : i = c.1 ∧ j = c.2
        · obtain ⟨h1, h2⟩ := hij
          subst h1 h2
          have : (c.1, c.2) ∈ c :: l ∧ ¬ s.n c.1 c.2 < t := ⟨List.mem_cons_self _ _, hc⟩
          rw [if_pos this]
          simp [set_at]
        · have : ¬ ((i, j) ∈ c :: l ∧ ¬ s.n i j < t) := by
            rintro ⟨hm, hr⟩
            rcases List.mem_cons.mp hm with h | h
            · exact hij ⟨by rw [← h], by rw [← h]⟩
            · exact hl ⟨h, hr⟩
          rw [if_neg this]
          simp [set_at, hij]

lemma foldl_moments_mu (s : SufStats K) (t : K) (i j : Nat) (l : List (Nat × Nat))
    (st : Moments K) :
    (l.foldl (moments_step s t) st).mu i j
      = if (i, j) ∈ l ∧ ¬ s.n i j < t then s.suf i j / s.n i j else st.mu i j := by
  induction l generalizing st with
  | nil => simp
  | cons c l ih =>
    rw [List.foldl_cons, ih]
    by_cases hl : (i, j) ∈ l ∧ ¬ s.n i j < t
    · have : (i, j) ∈ c :: l ∧ ¬ s.n i j < t := ⟨List.mem_cons_of_mem _ hl.1, hl.2⟩
      rw [if_pos hl, if_pos this]
    · rw [if_neg hl]
      unfold moments_step
      by_cases hc : s.n c.1 c.2 < t
      · rw [if_neg (show ¬ ((i, j) ∈ c :: l ∧ ¬ s.n i j < t) from ?_), if_pos hc]
        rintro ⟨hm, hr⟩
        rcases List.mem_cons.mp hm with h | h
        · rw [← h] at hc; exact hr hc
        · exact hl ⟨h, hr⟩
      · rw [if_neg hc]
        by_cases hij : i = c.1 ∧ j = c.2
        · obtain ⟨h1, h2⟩ := hij
          subst h1 h2
          have : (c.1, c.2) ∈ c :: l ∧ ¬ s.n c.1 c.2 < t := ⟨List.mem_cons_self _ _, hc⟩
          rw [if_pos this]
          simp [set_at]
        · have : ¬ ((i, j) ∈ c :: l ∧ ¬ s.n i j < t) := by
            rintro ⟨hm, hr⟩
            rcases List.mem_cons.mp hm with h | h
            · exact hij ⟨by rw [← h], by rw [← h]⟩
            · exact hl ⟨h, hr⟩
          rw [if_neg this]
          simp [set_at, hij]

lemma foldl_moments_num_samples (s : SufStats K) (t : K) (l : List (Nat × Nat))
    (st : Moments K) :
    (l.foldl (moments_step s t) st).num_samples
      = st.num_samples + ((l.filter (retained s.n t)).map (fun c => s.n c.1 c.2)).sum := by
  induction l generalizing st with
  | nil => simp
  | cons c l ih =>
    rw [List.foldl_cons, ih]
    unfold moments_step
    by_cases hc : s.n c.1 c.2 < t
    · have : retained s.n t c = false := by simp [retained, hc]
      rw [if_pos hc, List.filter_cons_of_neg (by simp [this])]
    · have : retained s.n t c = true := by simpa [retained] using hc
      rw [if_neg hc, List.filter_cons_of_pos this, List.map_cons, List.sum_cons]
      ring

lemma mem_cells (i j : Nat) (hi : i < 3) (hj : j < 3) : (i, j) ∈ cells := by
  interval_cases i <;> interval_cases j <;> simp [cells]

lemma moments_resid (s : SufStats K) (t : K) (i j : Nat) (hi : i < 3) (hj : j < 3) :
    (moments s t).resid i j
      = if s.n i j < t then 0 else s.suf2 i j - s.suf i j * s.suf i j / s.n i j := by
  unfold moments
  rw [foldl_moments_resid]
  by_cases h : s.n i j < t
  · simp [h, zeros]
  · simp [h, mem_cells i j hi hj]

lemma moments_mu (s : SufStats K) (t : K) (i j : Nat) (hi : i < 3) (hj : j < 3) :
    (moments s t).mu i j = if s.n i j < t then 0 else s.suf i j / s.n i j := by
  unfold moments
  rw [foldl_moments_mu]
  by_cases h : s.n i j < t
  · simp [h, zeros]
  · simp [h, mem_cells i j hi hj]

lemma moments_num_samples (s : SufStats K) (t : K) :
    (moments s t).num_samples = retained_total s t := by
  unfold moments
  rw [foldl_moments_num_samples]
  simp [retained_total]

lemma moments_resid_cell (s : SufStats K) (t : K) (c : Nat × Nat) (hc : c ∈ cells) :
    (moments s t).resid c.1 c.2 = if retained s.n t c then cell_resid s c else 0 := by
  have h3 : c.1 < 3 ∧ c.2 < 3 := by
    simp only [cells, List.mem_cons, List.mem_singleton, List.not_mem_nil, or_false] at hc
    rcases hc with h | h | h | h | h | h | h | h | h <;> subst h <;> simp
  rw [moments_resid s t c.1 c.2 h3.1 h3.2]
  by_cases h : s.n c.1 c.2 < t
  · simp [retained, h, not_le.mpr h]
  · simp [retained, h, not_lt.mp h, cell_resid, pow_two]

lemma sum_map_filter_ite (l : List (Nat × Nat)) (p : Nat × Nat → Bool) (f : Nat × Nat → K) :
    (l.map (fun c => if p c then f c else 0)).sum = ((l.filter p).map f).sum := by
  induction l with
  | nil => simp
  | cons c l ih =>
    by_cases h : p c = true
    · simp [h, ih]
    · simp [h, ih]

lemma accu_moments_resid (s : SufStats K) (t : K) :
    accu (moments s t).resid = retained_resid s t := by
  unfold accu retained_resid
  rw [← sum_map_filter_ite]
  congr 1
  apply List.map_congr_left
  intro c hc
  exact moments_resid_cell s t c hc

lemma foldl_sigma2 (s : SufStats K) (resid : Nat → Nat → K) (i j : Nat)
    (l : List (Nat × Nat)) (sg : Nat → Nat → K) :
    (l.foldl (sigma2_step s resid) sg) i j
      = if (i, j) ∈ l ∧ s.n i j > 9 then resid i j / (s.n i j - 9) else sg i j := by
  induction l generalizing sg with
  | nil => simp
  | cons c l ih =>
    rw [List.foldl_cons, ih]
    by_cases hl : (i, j) ∈ l ∧ s.n i j > 9
    · have : (i, j) ∈ c :: l ∧ s.n i j > 9 := ⟨List.mem_cons_of_mem _ hl.1, hl.2⟩
      rw [if_pos hl, if_pos this]
    · rw [if_neg hl]
      unfold sigma2_step
      by_cases hc : s.n c.1 c.2 > 9
      · rw [if_pos hc]
        by_cases hij : i = c.1 ∧ j = c.2
        · obtain ⟨h1, h2⟩ := hij
          subst h1 h2
          have : (c.1, c.2) ∈ c :: l ∧ s.n c.1 c.2 > 9 := ⟨List.mem_cons_self _ _, hc⟩
          rw [if_pos this]
          simp [set_at]
        · have : ¬ ((i, j) ∈ c :: l ∧ s.n i j > 9) := by
            rintro ⟨hm, hr⟩
            rcases List.mem_cons.mp hm with h | h
            · exact hij ⟨by rw [← h], by rw [← h]⟩
            · exact hl ⟨h, hr⟩
          rw [if_neg this]
          simp [set_at, hij]
      · rw [if_neg hc, if_neg (show ¬ ((i, j) ∈ c :: l ∧ s.n i j > 9) from ?_)]
        rintro ⟨hm, hr⟩
        rcases List.mem_cons.mp hm with h | h
        · rw [← h] at hc; exact hc hr
        · exact hl ⟨h, hr⟩

lemma run_sigma2_equal (s : SufStats K) (t : K) (i j : Nat) :
    run_sigma2 t false s i j = retained_resid s t / (retained_total s t - 9) := by
  simp [run_sigma2, sigma2, zeros, accu_moments_resid, moments_num_samples]

lemma run_sigma2_unequal (s : SufStats K) (t : K) (i j : Nat) (hi : i < 3) (hj : j < 3) :
    run_sigma2 t true s i j
      = if s.n i j > 9 then (moments s t).resid i j / (s.n i j - 9) else 0 := by
  simp only [run_sigma2, sigma2, Bool.not_true, Bool.false_eq_true, if_false]
  rw [foldl_sigma2]
  simp [mem_cells i j hi hj, zeros]

end Moments

/-! ## Theorems: contrasts -/

section ContrastLemmas

variable {K : Type} [LinearOrderedField K]

lemma contrast_step_eq (n : Nat → Nat → K) (t : K) (mu : Nat → Nat → K) (st : Contrasts K)
    (i : Nat) :
    contrast_step n t mu st i
      = if contrast_valid n t (i_map.getD i 0, j_map.getD i 0) = true then
          { num_valid := st.num_valid + 1
            valid := st.valid.set st.num_valid i
            m_beta := st.m_beta.set st.num_valid
              (mu 0 0 - mu 0 (j_map.getD i 0) - mu (i_map.getD i 0) 0
                + mu (i_map.getD i 0) (j_map.getD i 0)) }
        else st := by
  simp [contrast_step, contrast_valid, retained, and_assoc]

/-- The contrast loop keeps exactly the valid contrasts, in order. -/
lemma find_contrasts_spec (n : Nat → Nat → K) (t : K) (mu : Nat → Nat → K) :
    (find_contrasts n t mu).num_valid = (valid_contrasts n t).length
    ∧ (find_contrasts n t mu).valid.take (find_contrasts n t mu).num_valid
        = [0, 1, 2, 3].filter
            (fun i => contrast_valid n t (i_map.getD i 0, j_map.getD i 0))
    ∧ (find_contrasts n t mu).m_beta.take (find_contrasts n t mu).num_valid
        = (valid_contrasts n t).map
            (fun c => mu 0 0 - mu 0 c.2 - mu c.1 0 + mu c.1 c.2)
    ∧ ((find_contrasts n t mu).num_valid = 0 →
        (find_contrasts n t mu).m_beta = [0, 0, 0, 0]) := by
  simp only [find_contrasts, show List.range 4 = [0, 1, 2, 3] from rfl, List.foldl_cons,
    List.foldl_nil, contrast_step_eq, valid_contrasts, contrast_list, i_map, j_map,
    List.getD_cons_zero, List.getD_cons_succ]
  cases h0 : contrast_valid n t (1, 1) <;> cases h1 : contrast_valid n t (1, 2) <;>
    cases h2 : contrast_valid n t (2, 1) <;> cases h3 : contrast_valid n t (2, 2) <;>
    simp [-Prod.mk_one_one, List.filter_cons, h0, h1, h2, h3, List.replicate]

lemma run_contrasts_num_valid (t : K) (s : SufStats K) :
    (run_contrasts t s).num_valid = (valid_contrasts s.n t).length :=
  (find_contrasts_spec s.n t (moments s t).mu).1

lemma mem_contrast_list_lt (c : Nat × Nat) (hc : c ∈ contrast_list) : c.1 < 3 ∧ c.2 < 3 := by
  simp only [contrast_list, List.mem_cons, List.mem_singleton, List.not_mem_nil, or_false] at hc
  rcases hc with h | h | h | h <;> subst h <;> simp

lemma retained_iff (n : Nat → Nat → K) (t : K) (c : Nat × Nat) :
    retained n t c = true ↔ ¬ n c.1 c.2 < t := by
  simp [retained]

lemma moments_mu_of_retained (s : SufStats K) (t : K) (i j : Nat) (hi : i < 3) (hj : j < 3)
    (h : retained s.n t (i, j) = true) : (moments s t).mu i j = cell_mean s i j := by
  rw [moments_mu s t i j hi hj, if_neg ((retained_iff s.n t (i, j)).mp h)]
  rfl

/-- On a valid contrast the loop computes the contrast of the four cell means. -/
lemma run_beta_eq (t : K) (s : SufStats K) :
    run_beta t s = (valid_contrasts s.n t).map (contrast_value s) := by
  unfold run_beta run_contrasts
  rw [(find_contrasts_spec s.n t (moments s t).mu).2.2.1]
  apply List.map_congr_left
  intro c hc
  obtain ⟨hcl, hv⟩ := List.mem_filter.mp hc
  obtain ⟨h1, h2⟩ := mem_contrast_list_lt c hcl
  simp only [contrast_valid, Bool.and_eq_true] at hv
  obtain ⟨⟨⟨r00, r0c⟩, rc0⟩, rcc⟩ := hv
  rw [moments_mu_of_retained s t 0 0 (by omega) (by omega) r00,
    moments_mu_of_retained s t 0 c.2 (by omega) h2 r0c,
    moments_mu_of_retained s t c.1 0 h1 (by omega) rc0,
    moments_mu_of_retained s t c.1 c.2 h1 h2 rcc]
  rfl

/-- With no valid contrast `run` returns -9 at line 123: `output` is untouched and
`m_beta` is still the four zeros of line 104. -/
lemma run_table_of_no_valid (t : K) (cdf : K → Nat → Option K) (self : wald_lm_method K)
    (s : SufStats K) (output : List K) (h : valid_contrasts s.n t = []) :
    (wald_lm_method.run_table t cdf self s output).ret = some (-9)
    ∧ (wald_lm_method.run_table t cdf self s output).output = output
    ∧ (wald_lm_method.run_table t cdf self s output).self.m_beta = [0, 0, 0, 0]
    ∧ (wald_lm_method.run_table t cdf self s output).self.m_C = self.m_C := by
  have hk : (run_contrasts t s).num_valid = 0 := by
    rw [run_contrasts_num_valid, h]; rfl
  have hb := (find_contrasts_spec s.n t (moments s t).mu).2.2.2 hk
  unfold wald_lm_method.run_table
  rw [if_pos (by rw [hk])]
  exact ⟨rfl, rfl, hb, rfl⟩

/-- With a valid contrast `run` passes line 127: the members `m_beta` and `m_C` hold
the resized vector and the matrix of lines 130-149. -/
lemma run_table_self_of_valid (t : K) (cdf : K → Nat → Option K) (self : wald_lm_method K)
    (s : SufStats K) (output : List K) (h : valid_contrasts s.n t ≠ []) :
    (wald_lm_method.run_table t cdf self s output).self.m_beta = run_beta t s
    ∧ (wald_lm_method.run_table t cdf self s output).self.m_C
        = { dim := (run_contrasts t s).num_valid, val := run_C t self.m_unequal_var s } := by
  have hk : ¬ (run_contrasts t s).num_valid ≤ 0 := by
    rw [run_contrasts_num_valid]
    have := List.length_pos.mpr h
    omega
  unfold wald_lm_method.run_table
  rw [if_neg hk]
  dsimp only
  split
  · exact ⟨rfl, rfl⟩
  · split <;> exact ⟨rfl, rfl⟩

/-- C2 (as amended): a contrast `(c1, c2)` of the list (1,1), (1,2), (2,1), (2,2) is valid
exactly when the four cells (0,0), (0,c2), (c1,0), (c1,c2) reach the threshold; whenever
at least one contrast is valid, `m_beta` holds, in that order and with the invalid
contrasts removed, the values `mean(0,0) - mean(0,c2) - mean(c1,0) + mean(c1,c2)` with
`mean = suf / n`, and its length is the number of valid contrasts; when no contrast is
valid `run` returns -9 and `m_beta` is left as the four zeros it was initialised with. -/
theorem run_table_m_beta (t : K) (cdf : K → Nat → Option K) (self : wald_lm_method K)
    (s : SufStats K) (output : List K) :
    (∀ c : Nat × Nat, contrast_valid s.n t c = true ↔
        (s.n 0 0 ≥ t ∧ s.n 0 c.2 ≥ t ∧ s.n c.1 0 ≥ t ∧ s.n c.1 c.2 ≥ t))
    ∧ (valid_contrasts s.n t ≠ [] →
        (wald_lm_method.run_table t cdf self s output).self.m_beta
            = (valid_contrasts s.n t).map
                (fun c => s.suf 0 0 / s.n 0 0 - s.suf 0 c.2 / s.n 0 c.2
                  - s.suf c.1 0 / s.n c.1 0 + s.suf c.1 c.2 / s.n c.1 c.2)
        ∧ (wald_lm_method.run_table t cdf self s output).self.m_beta.length
            = (valid_contrasts s.n t).length)
    ∧ (valid_contrasts s.n t = [] →
        (wald_lm_method.run_table t cdf self s output).ret = some (-9)
        ∧ (wald_lm_method.run_table t cdf self s output).self.m_beta = [0, 0, 0, 0]) := by
  refine ⟨?_, ?_, ?_⟩
  · intro c
    simp [contrast_valid, retained, and_assoc]
  · intro h
    have hb := (run_table_self_of_valid t cdf self s output h).1
    rw [hb, run_beta_eq]
    exact ⟨rfl, List.length_map _ _⟩
  · intro h
    have hn := run_table_of_no_valid t cdf self s output h
    exact ⟨hn.1, hn.2.2.1⟩

/-- C2, counterexample to the claim as stated: two samples and the threshold 5 leave no
valid contrast, yet `m_beta` has four elements after the call. -/
theorem run_m_beta_length_counterexample :
    (valid_contrasts (accumulate [0, 1] [0, 1] [0, 0] ([1, 2] : List ℚ)).n 5).length = 0
    ∧ (wald_lm_method.run (5 : ℚ) (fun _ _ => some 0)
        { m_unequal_var := false, m_missing := [0, 0], m_pheno := [1, 2], m_beta := [],
          m_C := { dim := 0, val := fun _ _ => 0 }, m_num_ok_samples := 0 }
        [0, 1] [0, 1] [-9, -9, -9, -9]).self.m_beta.length = 4 := by
  have h : valid_contrasts (accumulate [0, 1] [0, 1] [0, 0] ([1, 2] : List ℚ)).n 5 = [] := by
    have h00 : (accumulate [0, 1] [0, 1] [0, 0] ([1, 2] : List ℚ)).n 0 0 = 1 := by
      simp [accumulate, accumulate_upto, List.range_succ, accumulate_step, add_at, zeros]
    simp [valid_contrasts, contrast_list, contrast_valid, retained, h00]
  refine ⟨by rw [h]; rfl, ?_⟩
  unfold wald_lm_method.run
  rw [(run_table_of_no_valid _ _ _ _ _ h).2.2.1]
  rfl

end ContrastLemmas

/-! ## Theorems: the covariance matrix -/

section Covariance

variable {K : Type} [LinearOrderedField K]

/-- The assignment of line 147 is the covariance of the two contrasts. -/
lemma cov_entry_eq_contrast_cov (n sg : Nat → Nat → K) (i j : Nat) (hi : i < 4) (hj : j < 4) :
    cov_entry n sg i j
      = contrast_cov n sg (i_map.getD i 0, j_map.getD i 0) (i_map.getD j 0, j_map.getD j 0) := by
  interval_cases i <;> interval_cases j <;>
    simp [-Prod.mk_one_one, -Prod.mk_zero_zero, cov_entry, contrast_cov, cells, coef, i_map,
      j_map] <;> ring

lemma valid_indices_lt (n : Nat → Nat → K) (t : K) (a : Nat)
    (ha : a < (valid_contrasts n t).length) :
    (([0, 1, 2, 3] : List Nat).filter
        (fun i => contrast_valid n t (i_map.getD i 0, j_map.getD i 0))).getD a 0 < 4
    ∧ (valid_contrasts n t).getD a (0, 0)
        = (i_map.getD ((([0, 1, 2, 3] : List Nat).filter
              (fun i => contrast_valid n t (i_map.getD i 0, j_map.getD i 0))).getD a 0) 0,
           j_map.getD ((([0, 1, 2, 3] : List Nat).filter
              (fun i => contrast_valid n t (i_map.getD i 0, j_map.getD i 0))).getD a 0) 0) := by
  revert ha
  simp only [valid_contrasts, contrast_list, i_map, j_map, List.filter_cons, List.filter_nil,
    List.getD_cons_zero, List.getD_cons_succ]
  cases h0 : contrast_valid n t (1, 1) <;> cases h1 : contrast_valid n t (1, 2) <;>
    cases h2 : contrast_valid n t (2, 1) <;> cases h3 : contrast_valid n t (2, 2) <;>
    intro ha <;>
    simp only [↓reduceIte, Bool.false_eq_true, List.length_cons, List.length_nil] at ha ⊢ <;>
    (have ha4 : a < 4 := by omega) <;>
    interval_cases a <;> first | omega | simp

lemma run_valid_eq (t : K) (s : SufStats K) :
    run_valid t s = ([0, 1, 2, 3] : List Nat).filter
      (fun i => contrast_valid s.n t (i_map.getD i 0, j_map.getD i 0)) :=
  (find_contrasts_spec s.n t (moments s t).mu).2.1

/-- Every entry of the matrix of lines 130-149 is the covariance of the two valid
contrasts it belongs to. -/
lemma run_C_entry (t : K) (uv : Bool) (s : SufStats K)
    (a b : Fin (run_contrasts t s).num_valid) :
    run_C t uv s a b
      = contrast_cov s.n (run_sigma2 t uv s) ((valid_contrasts s.n t).getD a.val (0, 0))
          ((valid_contrasts s.n t).getD b.val (0, 0)) := by
  have ha : a.val < (valid_contrasts s.n t).length := by
    rw [← run_contrasts_num_valid]; exact a.isLt
  have hb : b.val < (valid_contrasts s.n t).length := by
    rw [← run_contrasts_num_valid]; exact b.isLt
  obtain ⟨ha4, hae⟩ := valid_indices_lt s.n t a.val ha
  obtain ⟨hb4, hbe⟩ := valid_indices_lt s.n t b.val hb
  show cov_entry s.n (run_sigma2 t uv s) ((run_valid t s).getD a.val 0)
    ((run_valid t s).getD b.val 0) = _
  rw [run_valid_eq, cov_entry_eq_contrast_cov _ _ _ _ ha4 hb4, hae, hbe]

/-- C3: for every pair of valid contrasts `a` and `b` (positions in the list of valid
contrasts) the entry `m_C(a, b)` built by `wald_lm_method::run` is the sum over the nine
cells of `coef_a(cell) * coef_b(cell) * sigma2(cell) / n(cell)`, the covariance of the
two contrasts under independent cell means of variance `sigma2 / n`; `m_C` has one row
and one column per valid contrast. -/
theorem run_table_covariance (t : K) (cdf : K → Nat → Option K) (self : wald_lm_method K)
    (s : SufStats K) (output : List K) (a b : Nat)
    (ha : a < (valid_contrasts s.n t).length) (hb : b < (valid_contrasts s.n t).length) :
    (wald_lm_method.run_table t cdf self s output).self.m_C.dim
        = (valid_contrasts s.n t).length
    ∧ (wald_lm_method.run_table t cdf self s output).self.m_C.entry a b
        = (cells.map (fun cell =>
            coef ((valid_contrasts s.n t).getD a (0, 0)) cell
              * coef ((valid_contrasts s.n t).getD b (0, 0)) cell
              * run_sigma2 t self.m_unequal_var s cell.1 cell.2 / s.n cell.1 cell.2)).sum := by
  have hne : valid_contrasts s.n t ≠ [] := by
    intro h; rw [h] at ha; exact Nat.not_lt_zero _ ha
  rw [(run_table_self_of_valid t cdf self s output hne).2]
  have ha' : a < (run_contrasts t s).num_valid := by rw [run_contrasts_num_valid]; exact ha
  have hb' : b < (run_contrasts t s).num_valid := by rw [run_contrasts_num_valid]; exact hb
  refine ⟨run_contrasts_num_valid t s, ?_⟩
  unfold SqMat.entry
  rw [dif_pos ⟨ha', hb'⟩]
  exact run_C_entry t self.m_unequal_var s ⟨a, ha'⟩ ⟨b, hb'⟩

lemma valid_contrasts_flat_table : valid_contrasts flat_table.n 5 = contrast_list := by
  simp [-Prod.mk_one_one, valid_contrasts, contrast_list, contrast_valid, retained, flat_table]
  norm_num

/-- Witness of `run_table_covariance`: the first two contrasts of the flat table. -/
theorem run_table_covariance_witness :
    0 < (valid_contrasts flat_table.n 5).length ∧ 1 < (valid_contrasts flat_table.n 5).length
    ∧ (wald_lm_method.run_table 5 (fun _ _ => some 0) (sample_method false) flat_table
          [-9, -9, -9, -9]).self.m_C.dim = (valid_contrasts flat_table.n 5).length
    ∧ (wald_lm_method.run_table 5 (fun _ _ => some 0) (sample_method false) flat_table
          [-9, -9, -9, -9]).self.m_C.entry 0 1
        = (cells.map (fun cell =>
            coef ((valid_contrasts flat_table.n 5).getD 0 (0, 0)) cell
              * coef ((valid_contrasts flat_table.n 5).getD 1 (0, 0)) cell
              * run_sigma2 5 (sample_method false).m_unequal_var flat_table cell.1 cell.2
              / flat_table.n cell.1 cell.2)).sum :=
  ⟨by rw [valid_contrasts_flat_table]; decide, by rw [valid_contrasts_flat_table]; decide,
    run_table_covariance 5 (fun _ _ => some 0) (sample_method false) flat_table
      [-9, -9, -9, -9] 0 1 (by rw [valid_contrasts_flat_table]; decide)
      (by rw [valid_contrasts_flat_table]; decide)⟩

end Covariance

/-! ## Theorems: the result of `wald_lm_method::run` -/

section Result

variable {K : Type} [LinearOrderedField K]

lemma inv_eq_some {k : Nat} (A : Matrix (Fin k) (Fin k) K) (h : A.det ≠ 0) :
    inv A = some A⁻¹ := by
  unfold inv
  rw [if_neg h, Matrix.inv_def, Ring.inverse_eq_inv']

lemma inv_eq_none {k : Nat} (A : Matrix (Fin k) (Fin k) K) (h : A.det = 0) :
    inv A = none := by
  unfold inv
  rw [if_pos h]

/-- The sentinel return of line 154: a singular `m_C` leaves `output` untouched. -/
lemma run_table_of_singular (t : K) (cdf : K → Nat → Option K) (self : wald_lm_method K)
    (s : SufStats K) (output : List K) (h : (run_C t self.m_unequal_var s).det = 0) :
    (wald_lm_method.run_table t cdf self s output).ret = some (-9)
    ∧ (wald_lm_method.run_table t cdf self s output).output = output := by
  unfold wald_lm_method.run_table
  by_cases hk : (run_contrasts t s).num_valid ≤ 0
  · rw [if_pos hk]
    exact ⟨rfl, rfl⟩
  · rw [if_neg hk]
    dsimp only
    rw [inv_eq_none _ h]
    exact ⟨rfl, rfl⟩

/-- The path of lines 158-163. -/
lemma run_table_of_regular (t : K) (cdf : K → Nat → Option K) (self : wald_lm_method K)
    (s : SufStats K) (output : List K) (p : K)
    (hk : 0 < (run_contrasts t s).num_valid)
    (hdet : (run_C t self.m_unequal_var s).det ≠ 0)
    (hp : cdf (Matrix.dotProduct (as_vec (run_contrasts t s).num_valid (run_beta t s))
        (Matrix.mulVec (run_C t self.m_unequal_var s)⁻¹
          (as_vec (run_contrasts t s).num_valid (run_beta t s))))
        (run_contrasts t s).num_valid = some p) :
    (wald_lm_method.run_table t cdf self s output).output
        = ((output.set 0 (Matrix.dotProduct
              (as_vec (run_contrasts t s).num_valid (run_beta t s))
              (Matrix.mulVec (run_C t self.m_unequal_var s)⁻¹
                (as_vec (run_contrasts t s).num_valid (run_beta t s))))).set 1 (1 - p)).set 2
            ((run_valid t s).length : K)
    ∧ (wald_lm_method.run_table t cdf self s output).ret
        = some ((wald_lm_method.run_table t cdf self s output).output.getD 1 0) := by
  unfold wald_lm_method.run_table
  rw [if_neg (by omega)]
  dsimp only
  rw [inv_eq_some _ hdet]
  dsimp only
  rw [hp]
  exact ⟨rfl, rfl⟩

lemma getD_set_three (output : List K) (x y z : K) (hlen : 3 ≤ output.length) :
    (((output.set 0 x).set 1 y).set 2 z).getD 0 0 = x
    ∧ (((output.set 0 x).set 1 y).set 2 z).getD 1 0 = y
    ∧ (((output.set 0 x).set 1 y).set 2 z).getD 2 0 = z := by
  match output, hlen with
  | a :: b :: c :: rest, _ => simp [List.set]

/-- C4: whenever at least one contrast is valid and the covariance matrix `m_C` is
invertible (and `chi_square_cdf` returns a value `p` at the statistic), `run` writes
`output[0] = betaᵗ C⁻¹ beta`, `output[1] = 1 - p`, `output[2] =` the number of valid
contrasts, and returns `output[1]`; `beta` and `C` are the members `m_beta` and `m_C`
left by the call. -/
theorem run_table_wald_result (t : K) (cdf : K → Nat → Option K) (self : wald_lm_method K)
    (s : SufStats K) (output : List K) (p : K)
    (hlen : 3 ≤ output.length)
    (hvalid : valid_contrasts s.n t ≠ [])
    (hinv : IsUnit (run_C t self.m_unequal_var s))
    (hp : cdf (Matrix.dotProduct (as_vec (run_contrasts t s).num_valid (run_beta t s))
        (Matrix.mulVec (run_C t self.m_unequal_var s)⁻¹
          (as_vec (run_contrasts t s).num_valid (run_beta t s))))
        (valid_contrasts s.n t).length = some p) :
    (wald_lm_method.run_table t cdf self s output).self.m_beta = run_beta t s
    ∧ (wald_lm_method.run_table t cdf self s output).self.m_C
        = { dim := (run_contrasts t s).num_valid, val := run_C t self.m_unequal_var s }
    ∧ (wald_lm_method.run_table t cdf self s output).output.getD 0 0
        = Matrix.dotProduct (as_vec (run_contrasts t s).num_valid (run_beta t s))
            (Matrix.mulVec (run_C t self.m_unequal_var s)⁻¹
              (as_vec (run_contrasts t s).num_valid (run_beta t s)))
    ∧ (wald_lm_method.run_table t cdf self s output).output.getD 1 0 = 1 - p
    ∧ (wald_lm_method.run_table t cdf self s output).output.getD 2 0
        = ((valid_contrasts s.n t).length : K)
    ∧ (wald_lm_method.run_table t cdf self s output).ret
        = some ((wald_lm_method.run_table t cdf self s output).output.getD 1 0)
    ∧ (wald_lm_method.run_table t cdf self s output).ret = some (1 - p) := by
  have hk : 0 < (run_contrasts t s).num_valid := by
    rw [run_contrasts_num_valid]; exact List.length_pos.mpr hvalid
  have hdet : (run_C t self.m_unequal_var s).det ≠ 0 :=
    ((Matrix.isUnit_iff_isUnit_det _).mp hinv).ne_zero
  rw [← run_contrasts_num_valid] at hp
  obtain ⟨hout, hret⟩ := run_table_of_regular t cdf self s output p hk hdet hp
  obtain ⟨hb, hC⟩ := run_table_self_of_valid t cdf self s output hvalid
  obtain ⟨g0, g1, g2⟩ := getD_set_three output
    (Matrix.dotProduct (as_vec (run_contrasts t s).num_valid (run_beta t s))
      (Matrix.mulVec (run_C t self.m_unequal_var s)⁻¹
        (as_vec (run_contrasts t s).num_valid (run_beta t s))))
    (1 - p) ((run_valid t s).length : K) hlen
  have hvl : (run_valid t s).length = (valid_contrasts s.n t).length := by
    rw [← run_contrasts_num_valid]
    unfold run_valid
    rw [List.length_take]
    have := (find_contrasts_spec s.n t (moments s t).mu).2.1
    have hl := congrArg List.length this
    rw [List.length_take] at hl
    have h4 : (([0, 1, 2, 3] : List Nat).filter
        (fun i => contrast_valid s.n t (i_map.getD i 0, j_map.getD i 0))).length
          = (valid_contrasts s.n t).length := by
      simp only [valid_contrasts, contrast_list, i_map, j_map, List.filter_cons,
        List.filter_nil, List.getD_cons_zero, List.getD_cons_succ]
      cases contrast_valid s.n t (1, 1) <;> cases contrast_valid s.n t (1, 2) <;>
        cases contrast_valid s.n t (2, 1) <;> cases contrast_valid s.n t (2, 2) <;> rfl
    rw [h4, ← run_contrasts_num_valid] at hl
    exact hl
  refine ⟨hb, hC, ?_, ?_, ?_, hret, ?_⟩
  · rw [hout, g0]
  · rw [hout, g1]
  · rw [hout, g2, hvl]
  · rw [hret, hout, g1]

lemma det_of_dim_one {k : Nat} (hk : k = 1) (M : Matrix (Fin k) (Fin k) K) :
    M.det = M ⟨0, by omega⟩ ⟨0, by omega⟩ := by
  subst hk
  simp [Matrix.det_fin_one]

lemma valid_contrasts_block_table : valid_contrasts block_table.n 5 = [(1, 1)] := by
  simp [-Prod.mk_one_one, valid_contrasts, contrast_list, contrast_valid, retained,
    block_table, List.filter_cons]
  norm_num

lemma run_C_block_table_det : (run_C 5 false block_table).det = 16 / 31 := by
  have hk : (run_contrasts 5 block_table).num_valid = 1 := by
    rw [run_contrasts_num_valid, valid_contrasts_block_table]; rfl
  rw [det_of_dim_one hk, run_C_entry, valid_contrasts_block_table]
  have hn : ∀ i j, block_table.n i j = if i < 2 ∧ j < 2 then 10 else 0 := fun _ _ => rfl
  have hs : ∀ i j, block_table.suf i j
      = if i < 2 ∧ j < 2 then (if i = 1 ∧ j = 1 then 30 else 20) else 0 := fun _ _ => rfl
  have hq : ∀ i j, block_table.suf2 i j
      = if i < 2 ∧ j < 2 then (if i = 1 ∧ j = 1 then 100 else 50) else 0 := fun _ _ => rfl
  have hr : retained_resid block_table 5 = 40 := by
    norm_num [retained_resid, cells, List.filter_cons, retained, hn]
    norm_num [cell_resid, hn, hs, hq]
  have ht : retained_total block_table 5 = 40 := by
    simp only [retained_total, cells, List.filter_cons, List.filter_nil, retained, hn]
    norm_num
  simp only [contrast_cov, cells, coef, run_sigma2_equal, hr, ht, hn, List.map_cons,
    List.map_nil, List.sum_cons, List.sum_nil, List.getD_cons_zero]
  norm_num

/-- Witness of `run_table_wald_result`: the block table has the single valid contrast
(1,1) and the 1 x 1 covariance matrix (16/31). -/
theorem run_table_wald_result_witness :
    3 ≤ ([-9, -9, -9, -9] : List ℚ).length
    ∧ valid_contrasts block_table.n 5 ≠ []
    ∧ IsUnit (run_C 5 (sample_method false).m_unequal_var block_table)
    ∧ (wald_lm_method.run_table 5 (fun _ _ => some 0) (sample_method false) block_table
        [-9, -9, -9, -9]).ret = some (1 - 0) :=
  have hv : valid_contrasts block_table.n 5 ≠ [] := by
    rw [valid_contrasts_block_table]; simp
  have hu : IsUnit (run_C 5 (sample_method false).m_unequal_var block_table) := by
    rw [Matrix.isUnit_iff_isUnit_det]
    show IsUnit (run_C 5 false block_table).det
    rw [run_C_block_table_det]
    exact isUnit_iff_ne_zero.mpr (by norm_num)
  ⟨by decide, hv, hu,
    (run_table_wald_result 5 (fun _ _ => some 0) (sample_method false) block_table
      [-9, -9, -9, -9] 0 (by decide) hv hu rfl).2.2.2.2.2.2⟩

/-- A valid contrast needs four distinct retained cells. -/
lemma four_retained_of_valid (n : Nat → Nat → K) (t : K) (c : Nat × Nat)
    (hc : c ∈ contrast_list) (hv : contrast_valid n t c = true) :
    4 ≤ (cells.filter (retained n t)).length := by
  have hsub : [(0, 0), (0, c.2), (c.1, 0), (c.1, c.2)].Sublist cells := by
    simp only [contrast_list, List.mem_cons, List.mem_singleton, List.not_mem_nil,
      or_false] at hc
    rcases hc with h | h | h | h <;> subst h <;> decide
  have hf := (hsub.filter (retained n t)).length_le
  simp only [contrast_valid, Bool.and_eq_true] at hv
  obtain ⟨⟨⟨r00, r0c⟩, rc0⟩, rcc⟩ := hv
  simp only [List.filter_cons, r00, r0c, rc0, rcc, if_true, List.filter_nil,
    List.length_cons, List.length_nil] at hf
  exact hf

/-- C5: if fewer than four of the nine cells have a count that reaches the threshold,
`wald_lm_method::run` returns the sentinel -9 and writes nothing to `output` (no contrast
is valid, since each contrast needs four distinct retained cells). -/
theorem run_table_few_cells (t : K) (cdf : K → Nat → Option K) (self : wald_lm_method K)
    (s : SufStats K) (output : List K)
    (h : (cells.filter (fun c => decide (s.n c.1 c.2 ≥ t))).length < 4) :
    valid_contrasts s.n t = []
    ∧ (wald_lm_method.run_table t cdf self s output).ret = some (-9)
    ∧ (wald_lm_method.run_table t cdf self s output).output = output := by
  have hv : valid_contrasts s.n t = [] := by
    unfold valid_contrasts
    rw [List.filter_eq_nil_iff]
    intro c hc hcv
    have h4 := four_retained_of_valid s.n t c hc hcv
    have : (cells.filter (retained s.n t)).length < 4 := h
    omega
  have hn := run_table_of_no_valid t cdf self s output hv
  exact ⟨hv, hn.1, hn.2.1⟩

/-- Witness of `run_table_few_cells`: the scenario table at the threshold 20 retains the
two cells with 50 and 40 samples. -/
theorem run_table_few_cells_witness :
    (cells.filter (fun c => decide ((scenario_table ℚ).n c.1 c.2 ≥ 20))).length < 4
    ∧ (wald_lm_method.run_table 20 (fun _ _ => some 0) (sample_method false)
        (scenario_table ℚ) [-9, -9, -9, -9]).ret = some (-9) :=
  have h : (cells.filter (fun c => decide ((scenario_table ℚ).n c.1 c.2 ≥ 20))).length < 4 := by
    norm_num [-Prod.mk_one_one, -Prod.mk_zero_zero, cells, List.filter_cons, scenario_table,
      scenario_counts]
  ⟨h, (run_table_few_cells 20 (fun _ _ => some 0) (sample_method false) (scenario_table ℚ)
    [-9, -9, -9, -9] h).2.1⟩

lemma i_map_getD_lt (i : Nat) : i_map.getD i 0 < 3 := by
  by_cases h : i < 4
  · interval_cases i <;> simp [i_map]
  · rw [List.getD_eq_default _ _ (by simp [i_map]; omega)]
    omega

lemma j_map_getD_lt (i : Nat) : j_map.getD i 0 < 3 := by
  by_cases h : i < 4
  · interval_cases i <;> simp [j_map]
  · rw [List.getD_eq_default _ _ (by simp [j_map]; omega)]
    omega

/-- If every retained cell has residual zero, every cell gets variance zero, in both
modes. -/
lemma run_sigma2_of_zero_resid (t : K) (uv : Bool) (s : SufStats K)
    (h : ∀ c ∈ cells, retained s.n t c = true → cell_resid s c = 0)
    (i j : Nat) (hi : i < 3) (hj : j < 3) : run_sigma2 t uv s i j = 0 := by
  cases uv with
  | false =>
    rw [run_sigma2_equal]
    have : retained_resid s t = 0 := by
      unfold retained_resid
      apply List.sum_eq_zero
      intro x hx
      obtain ⟨c, hc, rfl⟩ := List.mem_map.mp hx
      obtain ⟨hc1, hc2⟩ := List.mem_filter.mp hc
      exact h c hc1 hc2
    rw [this, zero_div]
  | true =>
    rw [run_sigma2_unequal s t i j hi hj, moments_resid_cell s t (i, j) (mem_cells i j hi hj)]
    by_cases hr : retained s.n t (i, j) = true
    · rw [if_pos hr, h (i, j) (mem_cells i j hi hj) hr, zero_div, ite_self]
    · rw [if_neg hr, zero_div, ite_self]

/-- If every retained cell has residual zero, `m_C` is the zero matrix. -/
lemma run_C_of_zero_resid (t : K) (uv : Bool) (s : SufStats K)
    (h : ∀ c ∈ cells, retained s.n t c = true → cell_resid s c = 0) :
    run_C t uv s = 0 := by
  funext a b
  show cov_entry s.n (run_sigma2 t uv s) ((run_valid t s).getD a.val 0)
    ((run_valid t s).getD b.val 0) = 0
  have hz := run_sigma2_of_zero_resid t uv s h
  unfold cov_entry
  simp only [hz 0 0 (by omega) (by omega), hz 0 _ (by omega) (j_map_getD_lt _),
    hz _ 0 (i_map_getD_lt _) (by omega), hz _ _ (i_map_getD_lt _) (j_map_getD_lt _),
    mul_zero, zero_div, add_zero]

/-- If every retained cell has residual zero, `run` returns -9 and leaves `output`
untouched: either no contrast is valid or `m_C` is the zero matrix. -/
lemma run_table_of_zero_resid (t : K) (cdf : K → Nat → Option K) (self : wald_lm_method K)
    (s : SufStats K) (output : List K)
    (h : ∀ c ∈ cells, retained s.n t c = true → cell_resid s c = 0) :
    (wald_lm_method.run_table t cdf self s output).ret = some (-9)
    ∧ (wald_lm_method.run_table t cdf self s output).output = output := by
  by_cases hv : valid_contrasts s.n t = []
  · have hn := run_table_of_no_valid t cdf self s output hv
    exact ⟨hn.1, hn.2.1⟩
  · have hk : 0 < (run_contrasts t s).num_valid := by
      rw [run_contrasts_num_valid]; exact List.length_pos.mpr hv
    haveI : Nonempty (Fin (run_contrasts t s).num_valid) := ⟨⟨0, hk⟩⟩
    apply run_table_of_singular
    rw [run_C_of_zero_resid t self.m_unequal_var s h]
    exact Matrix.det_zero inferInstance

/-- In the scenario table every cell retained at a positive threshold has residual
zero. -/
lemma scenario_table_zero_resid (t : K) (ht : 0 < t) :
    ∀ c ∈ cells, retained (scenario_table K).n t c = true → cell_resid (scenario_table K) c = 0 := by
  intro c hc hr
  have hr' : t ≤ (scenario_counts c.1 c.2 : K) := by
    simpa [retained, scenario_table] using hr
  have hpos : (0 : K) < (scenario_counts c.1 c.2 : K) := lt_of_lt_of_le ht hr'
  have hne : (scenario_counts c.1 c.2 : K) ≠ 0 := ne_of_gt hpos
  show 4 * (scenario_counts c.1 c.2 : K) - (2 * (scenario_counts c.1 c.2 : K)) ^ 2
    / (scenario_counts c.1 c.2 : K) = 0
  field_simp
  ring

/-- C7: for the count table with `n = [[50,40,10],[5,5,0],[0,0,0]]`, every non-empty cell
of mean 2 and zero residual (`suf = 2 n`, `suf2 = 4 n`), `wald_lm_method::run` returns the
sentinel -9 and writes no statistic, in both variance modes and for every positive
threshold. -/
theorem run_table_scenario (t : K) (cdf : K → Nat → Option K) (self : wald_lm_method K)
    (output : List K) (ht : 0 < t) :
    (wald_lm_method.run_table t cdf self (scenario_table K) output).ret = some (-9)
    ∧ (wald_lm_method.run_table t cdf self (scenario_table K) output).output = output :=
  run_table_of_zero_resid t cdf self (scenario_table K) output
    (scenario_table_zero_resid t ht)

/-- Witness of `run_table_scenario`: the threshold 5, at which the contrast (1,1) is
valid and the 1 x 1 covariance matrix is zero. -/
theorem run_table_scenario_witness :
    (0 : ℚ) < 5
    ∧ valid_contrasts (scenario_table ℚ).n 5 = [(1, 1)]
    ∧ (wald_lm_method.run_table 5 (fun _ _ => some 0) (sample_method false)
        (scenario_table ℚ) [1, 1, 1, 1]).ret = some (-9) :=
  ⟨by norm_num,
    by
      simp [-Prod.mk_one_one, valid_contrasts, contrast_list, contrast_valid, retained,
        scenario_table, scenario_counts, List.filter_cons]
      norm_num,
    (run_table_scenario 5 (fun _ _ => some 0) (sample_method false) [1, 1, 1, 1]
      (by norm_num)).1⟩

end Result

/-! ## Theorems: the two variance modes -/

section Variance

variable {K : Type} [LinearOrderedField K]

/-- C8: in the equal-variance mode every entry of `sigma2` is `R / (N - 9)`, where `R` is
the sum of `suf2 - suf^2 / n` over the cells whose count reaches the threshold and `N` is
the sum of the counts of those cells only; a cell below the threshold adds to neither. -/
theorem sigma2_equal_variance (t : K) (s : SufStats K) (i j : Nat) :
    sigma2 s (moments s t) false i j
      = ((cells.filter (fun c => decide (s.n c.1 c.2 ≥ t))).map
            (fun c => s.suf2 c.1 c.2 - s.suf c.1 c.2 ^ 2 / s.n c.1 c.2)).sum
          / (((cells.filter (fun c => decide (s.n c.1 c.2 ≥ t))).map
            (fun c => s.n c.1 c.2)).sum - 9) :=
  run_sigma2_equal s t i j

/-- The per-cell loop of lines 89-98: a retained cell whose count exceeds 9 gets
`sigma2 = (suf2 - suf^2 / n) / (n - 9)`, and a cell whose count is at most 9 keeps
`sigma2 = 0`. -/
lemma sigma2_unequal_cases (t : K) (s : SufStats K) (i j : Nat) (hi : i < 3)
    (hj : j < 3) :
    (s.n i j ≥ t → s.n i j > 9 →
      sigma2 s (moments s t) true i j
        = (s.suf2 i j - s.suf i j ^ 2 / s.n i j) / (s.n i j - 9))
    ∧ (s.n i j ≤ 9 → sigma2 s (moments s t) true i j = 0) := by
  have h := run_sigma2_unequal s t i j hi hj
  unfold run_sigma2 at h
  constructor
  · intro hr h9
    rw [h, if_pos h9, moments_resid s t i j hi hj, if_neg (not_lt.mpr hr), pow_two]
  · intro h9
    rw [h, if_neg (not_lt.mpr h9)]

/-- C9: in the unequal-variance mode, for a minimum cell-size threshold above 9 (the
value that the guard `n( i, j ) > 9` of line 93 goes with), every retained cell has
`sigma2(i,j) = (suf2(i,j) - suf(i,j)^2 / n(i,j)) / (n(i,j) - 9)`. -/
theorem sigma2_unequal_variance (t : K) (s : SufStats K) (i j : Nat) (hi : i < 3)
    (hj : j < 3) (ht : 9 < t) (hr : s.n i j ≥ t) :
    sigma2 s (moments s t) true i j
      = (s.suf2 i j - s.suf i j ^ 2 / s.n i j) / (s.n i j - 9) :=
  (sigma2_unequal_cases t s i j hi hj).1 hr (lt_of_lt_of_le ht hr)

/-- Witness of `sigma2_unequal_variance`: the cell (0,0) of the block table, with ten
samples and residual 10, at the threshold 10. -/
theorem sigma2_unequal_variance_witness :
    (0 < 3) ∧ (0 < 3) ∧ (9 : ℚ) < 10 ∧ block_table.n 0 0 ≥ 10
    ∧ sigma2 block_table (moments block_table 10) true 0 0
        = (block_table.suf2 0 0 - block_table.suf 0 0 ^ 2 / block_table.n 0 0)
            / (block_table.n 0 0 - 9) :=
  ⟨by decide, by decide, by norm_num, by norm_num [block_table],
    sigma2_unequal_variance 10 block_table 0 0 (by decide) (by decide) (by norm_num)
      (by norm_num [block_table])⟩

/-- What a threshold of at most 9 would give: five samples in the cell (0,0) with
phenotypes 1, -1, 1, -1, 0 and the threshold 5; the cell is retained, its `sigma2` is 0,
and `(suf2 - suf^2 / n) / (n - 9)` is -1. -/
lemma sigma2_unequal_small_threshold :
    (accumulate [0, 0, 0, 0, 0] [0, 0, 0, 0, 0] [0, 0, 0, 0, 0]
        ([1, -1, 1, -1, 0] : List ℚ)).n 0 0 ≥ 5
    ∧ sigma2 (accumulate [0, 0, 0, 0, 0] [0, 0, 0, 0, 0] [0, 0, 0, 0, 0]
          ([1, -1, 1, -1, 0] : List ℚ))
        (moments (accumulate [0, 0, 0, 0, 0] [0, 0, 0, 0, 0] [0, 0, 0, 0, 0]
          ([1, -1, 1, -1, 0] : List ℚ)) 5) true 0 0 = 0
    ∧ ((accumulate [0, 0, 0, 0, 0] [0, 0, 0, 0, 0] [0, 0, 0, 0, 0]
          ([1, -1, 1, -1, 0] : List ℚ)).suf2 0 0
        - (accumulate [0, 0, 0, 0, 0] [0, 0, 0, 0, 0] [0, 0, 0, 0, 0]
          ([1, -1, 1, -1, 0] : List ℚ)).suf 0 0 ^ 2
          / (accumulate [0, 0, 0, 0, 0] [0, 0, 0, 0, 0] [0, 0, 0, 0, 0]
          ([1, -1, 1, -1, 0] : List ℚ)).n 0 0)
        / ((accumulate [0, 0, 0, 0, 0] [0, 0, 0, 0, 0] [0, 0, 0, 0, 0]
          ([1, -1, 1, -1, 0] : List ℚ)).n 0 0 - 9) = -1 := by
  have hn : (accumulate [0, 0, 0, 0, 0] [0, 0, 0, 0, 0] [0, 0, 0, 0, 0]
      ([1, -1, 1, -1, 0] : List ℚ)).n 0 0 = 5 := by
    simp [accumulate, accumulate_upto, List.range_succ, accumulate_step, add_at, zeros]
    norm_num
  have hs : (accumulate [0, 0, 0, 0, 0] [0, 0, 0, 0, 0] [0, 0, 0, 0, 0]
      ([1, -1, 1, -1, 0] : List ℚ)).suf 0 0 = 0 := by
    simp [accumulate, accumulate_upto, List.range_succ, accumulate_step, add_at, zeros]
  have hq : (accumulate [0, 0, 0, 0, 0] [0, 0, 0, 0, 0] [0, 0, 0, 0, 0]
      ([1, -1, 1, -1, 0] : List ℚ)).suf2 0 0 = 4 := by
    simp [accumulate, accumulate_upto, List.range_succ, accumulate_step, add_at, zeros]
    norm_num
  have h := run_sigma2_unequal (accumulate [0, 0, 0, 0, 0] [0, 0, 0, 0, 0] [0, 0, 0, 0, 0]
      ([1, -1, 1, -1, 0] : List ℚ)) 5 0 0 (by decide) (by decide)
  unfold run_sigma2 at h
  refine ⟨?_, ?_, ?_⟩
  · rw [hn]
  · rw [h, hn, if_neg (by norm_num)]
  · rw [hn, hs, hq]; norm_num

end Variance

/-! ## Theorems: the nested Gaussian models -/

section Nested

variable {K : Type} [LinearOrderedField K]

lemma code_logl_eq (log : K → K) (pi n rss k : K) :
    -(n / 2) * log (2 * pi) - (n / 2) * log (rss / (n - k)) - 1 / (2 * (rss / (n - k))) * rss
      = gaussian_logl log pi n rss k := by
  unfold gaussian_logl
  ring

lemma sum_fin_nine (f : Fin 9 → K) :
    ∑ c : Fin 9, f c = f 0 + f 1 + f 2 + f 3 + f 4 + f 5 + f 6 + f 7 + f 8 := by
  rw [Fin.sum_univ_succ, Fin.sum_univ_eight]
  show f 0 + (f 1 + f 2 + f 3 + f 4 + f 5 + f 6 + f 7 + f 8) = _
  ring

lemma snp_pheno_sum (m_is_first : Bool) (count : Fin 9 → Fin 3 → K) (col : Fin 3) :
    ∑ i : Fin 3, single.snp_pheno m_is_first count i col = ∑ c : Fin 9, count c col := by
  rw [sum_fin_nine, Fin.sum_univ_three]
  cases m_is_first
  · show (count 0 col + count 3 col + count 6 col) + (count 1 col + count 4 col + count 7 col)
      + (count 2 col + count 5 col + count 8 col) = _
    ring
  · show (count 0 col + count 1 col + count 2 col) + (count 3 col + count 4 col + count 5 col)
      + (count 6 col + count 7 col + count 8 col) = _
    ring

/-- C10: on a 9-row count table with columns (s1, n, s2) and all divisions defined,
`lm_full::prob`, `intercept::prob` and `single::prob` return the log-space value
`-(n/2) log(2 pi) - (n/2) log(v) - RSS / (2 v)` with `v = RSS / (n - k)`, where `n` is the
pooled sample count, `k` is 9, 1, 3, and `RSS` is the sum over the nine cells of
`n_c mu_c^2 - 2 mu_c s1_c + s2_c` with `mu_c = s1_c / n_c`, the pooled residual, and the
same per-category sum over the three collapsed categories. -/
theorem nested_models_shared_formula (log : K → K) (pi : K) (m_is_first : Bool)
    (count : Fin 9 → Fin 3 → K)
    (_hcell : ∀ c, count c 1 ≠ 0)
    (_hcat : ∀ i, single.snp_pheno m_is_first count i 1 ≠ 0)
    (_hn : ∑ c, count c 1 ≠ 0)
    (_hk9 : ∑ c, count c 1 - 9 ≠ 0) (_hk1 : ∑ c, count c 1 - 1 ≠ 0)
    (_hk3 : ∑ c, count c 1 - 3 ≠ 0)
    (_hfull : ∑ c, category_rss (count c 0) (count c 1) (count c 2) ≠ 0)
    (_hint : category_rss (∑ c, count c 0) (∑ c, count c 1) (∑ c, count c 2) ≠ 0)
    (_hsingle : ∑ i, category_rss (single.snp_pheno m_is_first count i 0)
        (single.snp_pheno m_is_first count i 1) (single.snp_pheno m_is_first count i 2) ≠ 0) :
    lm_full.prob log pi count
        = log_double.from_log (gaussian_logl log pi (∑ c, count c 1)
            (∑ c, category_rss (count c 0) (count c 1) (count c 2)) 9)
    ∧ intercept.prob log pi count
        = log_double.from_log (gaussian_logl log pi (∑ c, count c 1)
            (category_rss (∑ c, count c 0) (∑ c, count c 1) (∑ c, count c 2)) 1)
    ∧ single.prob log pi m_is_first count
        = log_double.from_log (gaussian_logl log pi (∑ c, count c 1)
            (∑ i, category_rss (single.snp_pheno m_is_first count i 0)
              (single.snp_pheno m_is_first count i 1)
              (single.snp_pheno m_is_first count i 2)) 3) := by
  refine ⟨?_, ?_, ?_⟩
  · have hr : ∑ c, (count c 1 * (count c 0 / count c 1) * (count c 0 / count c 1)
          - 2 * (count c 0 / count c 1) * count c 0 + count c 2)
        = ∑ c, category_rss (count c 0) (count c 1) (count c 2) :=
      Finset.sum_congr rfl (fun c _ => by unfold category_rss; ring)
    unfold lm_full.prob
    simp only [hr]
    rw [code_logl_eq]
  · have hr : (∑ c, count c 1) * ((∑ c, count c 0) / (∑ c, count c 1))
          * ((∑ c, count c 0) / (∑ c, count c 1))
          - 2 * ((∑ c, count c 0) / (∑ c, count c 1)) * (∑ c, count c 0) + (∑ c, count c 2)
        = category_rss (∑ c, count c 0) (∑ c, count c 1) (∑ c, count c 2) := by
      unfold category_rss; ring
    unfold intercept.prob
    simp only [hr]
    rw [code_logl_eq]
  · have hr : ∑ i, (single.snp_pheno m_is_first count i 1
          * (single.snp_pheno m_is_first count i 0 / single.snp_pheno m_is_first count i 1)
          * (single.snp_pheno m_is_first count i 0 / single.snp_pheno m_is_first count i 1)
          - 2 * (single.snp_pheno m_is_first count i 0 / single.snp_pheno m_is_first count i 1)
            * single.snp_pheno m_is_first count i 0 + single.snp_pheno m_is_first count i 2)
        = ∑ i, category_rss (single.snp_pheno m_is_first count i 0)
            (single.snp_pheno m_is_first count i 1) (single.snp_pheno m_is_first count i 2) :=
      Finset.sum_congr rfl (fun c _ => by unfold category_rss; ring)
    unfold single.prob
    simp only [hr, snp_pheno_sum]
    rw [code_logl_eq]

lemma sample_count_col (c : Fin 9) :
    sample_count c 1 = 10 ∧ sample_count c 0 = (if c = 0 then 30 else 20)
    ∧ sample_count c 2 = (if c = 0 then 100 else 50) := by
  refine ⟨?_, ?_, ?_⟩ <;> simp [sample_count]

lemma sample_count_collapsed (i : Fin 3) :
    single.snp_pheno true sample_count i 1 = 30
    ∧ single.snp_pheno true sample_count i 0 = (if i = 0 then 70 else 60)
    ∧ single.snp_pheno true sample_count i 2 = (if i = 0 then 200 else 150) := by
  fin_cases i <;> simp [single.snp_pheno, sample_count] <;> norm_num

/-- Witness of `nested_models_shared_formula`: the table `sample_count` with the first
locus kept; pooled count 90 and residuals 90, 890/9 and 290/3. -/
theorem nested_models_shared_formula_witness :
    (∀ c, sample_count c 1 ≠ 0)
    ∧ (∑ c, sample_count c 1 - 9 ≠ 0)
    ∧ (∑ c, category_rss (sample_count c 0) (sample_count c 1) (sample_count c 2) ≠ 0)
    ∧ lm_full.prob (fun x => x) 3 sample_count
        = log_double.from_log (gaussian_logl (fun x => x) 3 (∑ c, sample_count c 1)
            (∑ c, category_rss (sample_count c 0) (sample_count c 1) (sample_count c 2)) 9) :=
  have hcell : ∀ c, sample_count c 1 ≠ 0 := fun c => by
    rw [(sample_count_col c).1]; norm_num
  have hcat : ∀ i, single.snp_pheno true sample_count i 1 ≠ 0 := fun i => by
    rw [(sample_count_collapsed i).1]; norm_num
  have hsum : ∑ c, sample_count c 1 = 90 := by
    simp only [(sample_count_col _).1, Finset.sum_const, Finset.card_univ, Fintype.card_fin]
    norm_num
  have hfull : ∑ c, category_rss (sample_count c 0) (sample_count c 1) (sample_count c 2)
      = 90 := by
    rw [sum_fin_nine]
    simp only [category_rss, (sample_count_col _).1, (sample_count_col _).2.1,
      (sample_count_col _).2.2]
    simp
    norm_num
  have hint : category_rss (∑ c, sample_count c 0) (∑ c, sample_count c 1)
      (∑ c, sample_count c 2) = 890 / 9 := by
    rw [sum_fin_nine, sum_fin_nine, sum_fin_nine]
    simp only [category_rss, (sample_count_col _).1, (sample_count_col _).2.1,
      (sample_count_col _).2.2]
    simp
    norm_num
  have hsingle : ∑ i, category_rss (single.snp_pheno true sample_count i 0)
      (single.snp_pheno true sample_count i 1) (single.snp_pheno true sample_count i 2)
      = 290 / 3 := by
    rw [Fin.sum_univ_three]
    simp only [category_rss, (sample_count_collapsed _).1, (sample_count_collapsed _).2.1,
      (sample_count_collapsed _).2.2]
    simp
    norm_num
  ⟨hcell, by rw [hsum]; norm_num, by rw [hfull]; norm_num,
    (nested_models_shared_formula (fun x => x) 3 true sample_count hcell hcat
      (by rw [hsum]; norm_num) (by rw [hsum]; norm_num) (by rw [hsum]; norm_num)
      (by rw [hsum]; norm_num) (by rw [hfull]; norm_num) (by rw [hint]; norm_num)
      (by rw [hsingle]; norm_num)).1⟩

/-- C11: in `single::prob` the collapsed category `i` holds, column by column, the sums
of the count rows `3i`, `3i+1`, `3i+2` when the flag is true and of the rows `i`, `3+i`,
`6+i` when it is false; every row of the table belongs to exactly one collapsed
category, and the pooled totals of each column of the collapsed table equal those of
the 9-row table. -/
theorem single_collapse (m_is_first : Bool) (count : Fin 9 → Fin 3 → K) :
    (∀ (i : Fin 3) (col : Fin 3),
      single.snp_pheno true count i col
        = count ⟨3 * i.val, by omega⟩ col + count ⟨3 * i.val + 1, by omega⟩ col
          + count ⟨3 * i.val + 2, by omega⟩ col)
    ∧ (∀ (i : Fin 3) (col : Fin 3),
      single.snp_pheno false count i col
        = count ⟨i.val, by omega⟩ col + count ⟨3 + i.val, by omega⟩ col
          + count ⟨6 + i.val, by omega⟩ col)
    ∧ (∀ (i : Fin 3) (col : Fin 3),
      single.snp_pheno m_is_first count i col
        = ((collapse_rows m_is_first i).map (fun c => count c col)).sum)
    ∧ (∀ c : Fin 9, ∃! i : Fin 3, c ∈ collapse_rows m_is_first i)
    ∧ (∀ col : Fin 3,
      ∑ i : Fin 3, single.snp_pheno m_is_first count i col = ∑ c : Fin 9, count c col) := by
  refine ⟨fun _ _ => rfl, ?_, ?_, ?_, fun col => snp_pheno_sum m_is_first count col⟩
  · intro i col
    simp only [single.snp_pheno, Bool.false_eq_true, if_false]
    congr 3
    simp
  · intro i col
    cases m_is_first
    · simp only [single.snp_pheno, collapse_rows, Bool.false_eq_true, if_false,
        List.map_cons, List.map_nil, List.sum_cons, List.sum_nil]
      have e1 : (⟨3 * 0 + i.val, by omega⟩ : Fin 9) = ⟨i.val, by omega⟩ := by simp
      have e2 : (⟨3 * 1 + i.val, by omega⟩ : Fin 9) = ⟨3 + i.val, by omega⟩ := by simp
      have e3 : (⟨3 * 2 + i.val, by omega⟩ : Fin 9) = ⟨6 + i.val, by omega⟩ := by simp
      rw [e1, e2, e3]
      ring
    · simp only [single.snp_pheno, collapse_rows, if_true, List.map_cons, List.map_nil,
        List.sum_cons, List.sum_nil]
      ring
  · cases m_is_first <;> simp only [ExistsUnique] <;> decide

lemma lm_full_prob_eq (log : K → K) (pi : K) {m : Nat} (count : Fin m → Fin 3 → K) :
    lm_full.prob log pi count
      = log_double.from_log (gaussian_logl log pi (pooled_n count) (lm_full.rss count) 9) := by
  have hr : ∑ c, (count c 1 * (count c 0 / count c 1) * (count c 0 / count c 1)
        - 2 * (count c 0 / count c 1) * count c 0 + count c 2)
      = ∑ c, category_rss (count c 0) (count c 1) (count c 2) :=
    Finset.sum_congr rfl (fun c _ => by unfold category_rss; ring)
  unfold lm_full.prob lm_full.rss pooled_n
  simp only [hr]
  rw [code_logl_eq]

lemma intercept_prob_eq (log : K → K) (pi : K) {m : Nat} (count : Fin m → Fin 3 → K) :
    intercept.prob log pi count
      = log_double.from_log
          (gaussian_logl log pi (pooled_n count) (intercept.rss count) 1) := by
  have hr : (∑ c, count c 1) * ((∑ c, count c 0) / (∑ c, count c 1))
        * ((∑ c, count c 0) / (∑ c, count c 1))
        - 2 * ((∑ c, count c 0) / (∑ c, count c 1)) * (∑ c, count c 0) + (∑ c, count c 2)
      = category_rss (∑ c, count c 0) (∑ c, count c 1) (∑ c, count c 2) := by
    unfold category_rss; ring
  unfold intercept.prob intercept.rss pooled_n
  simp only [hr]
  rw [code_logl_eq]

lemma single_prob_eq (log : K → K) (pi : K) (m_is_first : Bool) (count : Fin 9 → Fin 3 → K) :
    single.prob log pi m_is_first count
      = log_double.from_log
          (gaussian_logl log pi (pooled_n count) (single.rss m_is_first count) 3) := by
  have hr : ∑ i, (single.snp_pheno m_is_first count i 1
        * (single.snp_pheno m_is_first count i 0 / single.snp_pheno m_is_first count i 1)
        * (single.snp_pheno m_is_first count i 0 / single.snp_pheno m_is_first count i 1)
        - 2 * (single.snp_pheno m_is_first count i 0 / single.snp_pheno m_is_first count i 1)
          * single.snp_pheno m_is_first count i 0 + single.snp_pheno m_is_first count i 2)
      = ∑ i, category_rss (single.snp_pheno m_is_first count i 0)
          (single.snp_pheno m_is_first count i 1) (single.snp_pheno m_is_first count i 2) :=
    Finset.sum_congr rfl (fun c _ => by unfold category_rss; ring)
  unfold single.prob single.rss pooled_n
  simp only [hr, snp_pheno_sum]
  rw [code_logl_eq]

/-- With a non-zero residual and a non-zero `n - k` the last term of the shared formula
is `(n - k) / 2`. -/
lemma gaussian_logl_of_ne (log : K → K) (pi n rss k : K) (hr : rss ≠ 0) (_hk : n - k ≠ 0) :
    gaussian_logl log pi n rss k
      = -(n / 2) * log (2 * pi) - (n / 2) * log (rss / (n - k)) - (n - k) / 2 := by
  unfold gaussian_logl
  congr 1
  field_simp
  ring

/-- The difference of the saturated and the intercept-only log-likelihood. -/
lemma lm_full_sub_intercept (log : K → K) (pi : K) {m : Nat} (count : Fin m → Fin 3 → K)
    (hf : lm_full.rss count ≠ 0) (hi : intercept.rss count ≠ 0)
    (h9 : pooled_n count - 9 ≠ 0) (h1 : pooled_n count - 1 ≠ 0) :
    (lm_full.prob log pi count).log_value - (intercept.prob log pi count).log_value
      = pooled_n count / 2 * (log (intercept.rss count / (pooled_n count - 1))
          - log (lm_full.rss count / (pooled_n count - 9))) + 4 := by
  rw [lm_full_prob_eq, intercept_prob_eq]
  show gaussian_logl log pi (pooled_n count) (lm_full.rss count) 9
    - gaussian_logl log pi (pooled_n count) (intercept.rss count) 1 = _
  rw [gaussian_logl_of_ne _ _ _ _ _ hf h9, gaussian_logl_of_ne _ _ _ _ _ hi h1]
  ring

/-- C12 (as amended): for every count table with non-zero row counts, pooled count
`n > 9` and positive residual sums, `lm_full::prob(count) ≥ intercept::prob(count)` holds
exactly when `log(v_full) ≤ log(v_int) + 8 / n`, where `v_full = RSS_full / (n - 9)` and
`v_int = RSS_int / (n - 1)` are the two variance estimates. -/
theorem lm_full_ge_intercept_iff (log : K → K) (pi : K) (count : Fin 9 → Fin 3 → K)
    (_hcell : ∀ c, count c 1 ≠ 0) (hn : 9 < pooled_n count)
    (hf : 0 < lm_full.rss count) (hi : 0 < intercept.rss count) :
    (lm_full.prob log pi count).log_value ≥ (intercept.prob log pi count).log_value
      ↔ log (lm_full.rss count / (pooled_n count - 9))
          ≤ log (intercept.rss count / (pooled_n count - 1)) + 8 / pooled_n count := by
  have hd := lm_full_sub_intercept log pi count (ne_of_gt hf) (ne_of_gt hi)
    (by linarith [hn] |> ne_of_gt) (by linarith [hn] |> ne_of_gt)
  have hn0 : 0 < pooled_n count := by linarith
  have h4 : pooled_n count / 2 * (8 / pooled_n count) = 4 := by
    field_simp
    ring
  have hhalf : 0 < pooled_n count / 2 := by linarith
  constructor
  · intro h
    have h' : 0 ≤ pooled_n count / 2 * (log (intercept.rss count / (pooled_n count - 1))
        + 8 / pooled_n count - log (lm_full.rss count / (pooled_n count - 9))) := by
      have : (lm_full.prob log pi count).log_value
          - (intercept.prob log pi count).log_value ≥ 0 := by linarith
      rw [hd] at this
      linarith [h4]
    have := nonneg_of_mul_nonneg_right h' hhalf
    linarith
  · intro h
    have h' : 0 ≤ pooled_n count / 2 * (log (intercept.rss count / (pooled_n count - 1))
        + 8 / pooled_n count - log (lm_full.rss count / (pooled_n count - 9))) :=
      mul_nonneg (le_of_lt hhalf) (by linarith)
    have : (lm_full.prob log pi count).log_value
        - (intercept.prob log pi count).log_value ≥ 0 := by
      rw [hd]
      linarith [h4]
    linarith

lemma sample_count_pooled : pooled_n sample_count = 90 := by
  unfold pooled_n
  simp only [(sample_count_col _).1, Finset.sum_const, Finset.card_univ, Fintype.card_fin]
  norm_num

lemma sample_count_rss : lm_full.rss sample_count = 90 ∧ intercept.rss sample_count = 890 / 9 := by
  constructor
  · unfold lm_full.rss
    rw [sum_fin_nine]
    simp only [category_rss, (sample_count_col _).1, (sample_count_col _).2.1,
      (sample_count_col _).2.2]
    simp
    norm_num
  · unfold intercept.rss
    rw [sum_fin_nine, sum_fin_nine, sum_fin_nine]
    simp only [category_rss, (sample_count_col _).1, (sample_count_col _).2.1,
      (sample_count_col _).2.2]
    simp
    norm_num

/-- Witness of `lm_full_ge_intercept_iff`: the table `sample_count`, with pooled count 90
and residual sums 90 and 890/9. -/
theorem lm_full_ge_intercept_iff_witness :
    (∀ c, sample_count c 1 ≠ 0) ∧ 9 < pooled_n sample_count
    ∧ 0 < lm_full.rss sample_count ∧ 0 < intercept.rss sample_count
    ∧ ((lm_full.prob (fun x => x) 3 sample_count).log_value
          ≥ (intercept.prob (fun x => x) 3 sample_count).log_value
        ↔ lm_full.rss sample_count / (pooled_n sample_count - 9)
          ≤ intercept.rss sample_count / (pooled_n sample_count - 1)
            + 8 / pooled_n sample_count) :=
  have hcell : ∀ c, sample_count c 1 ≠ 0 := fun c => by
    rw [(sample_count_col c).1]; norm_num
  have hn : 9 < pooled_n sample_count := by rw [sample_count_pooled]; norm_num
  have hf : 0 < lm_full.rss sample_count := by rw [sample_count_rss.1]; norm_num
  have hi : 0 < intercept.rss sample_count := by rw [sample_count_rss.2]; norm_num
  ⟨hcell, hn, hf, hi, lm_full_ge_intercept_iff (fun x => x) 3 sample_count hcell hn hf hi⟩

lemma even_count_sums :
    pooled_n (even_count ℝ) = 18 ∧ lm_full.rss (even_count ℝ) = 18
    ∧ intercept.rss (even_count ℝ) = 18 := by
  have h0 : ∀ c, even_count ℝ c 0 = 0 := fun _ => by simp [even_count]
  have h1 : ∀ c, even_count ℝ c 1 = 2 := fun _ => by simp [even_count]
  have h2 : ∀ c, even_count ℝ c 2 = 2 := fun _ => by simp [even_count]
  refine ⟨?_, ?_, ?_⟩
  · simp only [pooled_n, h1, Finset.sum_const, Finset.card_univ, Fintype.card_fin]
    norm_num
  · simp only [lm_full.rss, category_rss, h0, h1, h2, Finset.sum_const, Finset.card_univ,
      Fintype.card_fin]
    norm_num
  · simp only [intercept.rss, category_rss, h0, h1, h2, Finset.sum_const, Finset.card_univ,
      Fintype.card_fin]
    norm_num

/-- C12, counterexample to the claim as stated: eighteen samples, two per cell with
phenotypes 1 and -1.  Every division is defined and both variance estimates are
positive (2 and 18/17), yet with the real logarithm the saturated model's log-likelihood
is strictly below the intercept-only model's. -/
theorem lm_full_lt_intercept_counterexample :
    (∀ c, even_count ℝ c 1 ≠ 0) ∧ 9 ≤ pooled_n (even_count ℝ)
    ∧ lm_full.defined (even_count ℝ) = true ∧ intercept.defined (even_count ℝ) = true
    ∧ (lm_full.prob Real.log Real.pi (even_count ℝ)).log_value
        < (intercept.prob Real.log Real.pi (even_count ℝ)).log_value := by
  obtain ⟨hn, hf, hi⟩ := even_count_sums
  have h1 : ∀ c, even_count ℝ c 1 ≠ 0 := fun _ => by simp [even_count]
  refine ⟨h1, by rw [hn]; norm_num, ?_, ?_, ?_⟩
  · simp only [lm_full.defined, Bool.and_eq_true, decide_eq_true_eq, hn, hf]
    exact ⟨⟨h1, by norm_num⟩, by norm_num⟩
  · simp only [intercept.defined, Bool.and_eq_true, decide_eq_true_eq, hn, hi]
    exact ⟨⟨by norm_num, by norm_num⟩, by norm_num⟩
  · have hd := lm_full_sub_intercept Real.log Real.pi (even_count ℝ)
      (by rw [hf]; norm_num) (by rw [hi]; norm_num) (by rw [hn]; norm_num)
      (by rw [hn]; norm_num)
    rw [hn, hf, hi] at hd
    have e1 : (18 : ℝ) / (18 - 9) = 2 := by norm_num
    have e2 : (18 : ℝ) / (18 - 1) = 18 / 17 := by norm_num
    rw [e1, e2] at hd
    have l2 := Real.log_two_gt_d9
    have l1 : Real.log (18 / 17) ≤ 18 / 17 - 1 :=
      Real.log_le_sub_one_of_pos (by norm_num)
    have : (lm_full.prob Real.log Real.pi (even_count ℝ)).log_value
        - (intercept.prob Real.log Real.pi (even_count ℝ)).log_value < 0 := by
      rw [hd]
      norm_num at l1 l2 ⊢
      linarith
    linarith

lemma snp_pheno_eq_sum_rows (m_is_first : Bool) (count : Fin 9 → Fin 3 → K) (i col : Fin 3) :
    single.snp_pheno m_is_first count i col
      = ((collapse_rows m_is_first i).map (fun c => count c col)).sum := by
  cases m_is_first
  · simp only [single.snp_pheno, collapse_rows, Bool.false_eq_true, if_false,
      List.map_cons, List.map_nil, List.sum_cons, List.sum_nil]
    have e1 : (⟨3 * 0 + i.val, by omega⟩ : Fin 9) = ⟨i.val, by omega⟩ := by simp
    have e2 : (⟨3 * 1 + i.val, by omega⟩ : Fin 9) = ⟨3 + i.val, by omega⟩ := by simp
    have e3 : (⟨3 * 2 + i.val, by omega⟩ : Fin 9) = ⟨6 + i.val, by omega⟩ := by simp
    rw [e1, e2, e3]
    ring
  · simp only [single.snp_pheno, collapse_rows, if_true, List.map_cons, List.map_nil,
      List.sum_cons, List.sum_nil]
    ring

lemma collapse_rows_partition (m_is_first : Bool) :
    (∀ c : Fin 9, ∃ i : Fin 3, c ∈ collapse_rows m_is_first i
        ∧ ∀ j, c ∈ collapse_rows m_is_first j → j = i)
    ∧ ∀ i : Fin 3, (collapse_rows m_is_first i).Nodup := by
  cases m_is_first <;> decide

lemma sum_map_single_support {α : Type} [DecidableEq α] (l : List α) (hl : l.Nodup)
    (f : α → K) (c0 : α) (hf : ∀ c, c ≠ c0 → f c = 0) :
    (l.map f).sum = if c0 ∈ l then f c0 else 0 := by
  induction l with
  | nil => simp
  | cons a l ih =>
    have hnd := List.nodup_cons.mp hl
    rw [List.map_cons, List.sum_cons, ih hnd.2]
    by_cases ha : a = c0
    · subst ha
      rw [if_neg hnd.1, if_pos (List.mem_cons_self _ _), add_zero]
    · rw [hf a ha, zero_add]
      by_cases hm : c0 ∈ l
      · rw [if_pos hm, if_pos (List.mem_cons_of_mem _ hm)]
      · rw [if_neg hm, if_neg]
        intro h
        rcases List.mem_cons.mp h with h | h
        · exact ha h.symm
        · exact hm h

/-- With a single non-empty row `c0`, one collapsed category holds that row and the other
two are zero in every column. -/
lemma snp_pheno_one_cell (m_is_first : Bool) (count : Fin 9 → Fin 3 → K) (c0 : Fin 9)
    (hempty : ∀ c, c ≠ c0 → ∀ col, count c col = 0) :
    ∃ i0 : Fin 3, (∀ col, single.snp_pheno m_is_first count i0 col = count c0 col)
      ∧ ∀ i, i ≠ i0 → ∀ col, single.snp_pheno m_is_first count i col = 0 := by
  obtain ⟨hpart, hnd⟩ := collapse_rows_partition m_is_first
  obtain ⟨i0, hmem, huniq⟩ := hpart c0
  refine ⟨i0, ?_, ?_⟩
  · intro col
    rw [snp_pheno_eq_sum_rows, sum_map_single_support _ (hnd i0) _ c0
      (fun c hc => hempty c hc col), if_pos hmem]
  · intro i hi col
    rw [snp_pheno_eq_sum_rows, sum_map_single_support _ (hnd i) _ c0
      (fun c hc => hempty c hc col), if_neg (fun h => hi (huniq i h))]

lemma single_cell_count_empty (K' : Type) [LinearOrderedField K'] :
    ∀ c : Fin 9, c ≠ 0 → ∀ col, single_cell_count K' c col = 0 := by
  intro c hc col
  simp [single_cell_count, hc]

lemma sum_one_cell {m : Nat} (count : Fin m → Fin 3 → K) (c0 : Fin m)
    (hempty : ∀ c, c ≠ c0 → ∀ col, count c col = 0) (col : Fin 3) :
    ∑ c, count c col = count c0 col :=
  Finset.sum_eq_single c0 (fun c _ hc => hempty c hc col)
    (fun h => absurd (Finset.mem_univ c0) h)

/-- With a single non-empty row, and `0/0` read as `0`, the single-locus and the
intercept-only model have the same residual sum. -/
lemma single_rss_one_cell (m_is_first : Bool) (count : Fin 9 → Fin 3 → K) (c0 : Fin 9)
    (hempty : ∀ c, c ≠ c0 → ∀ col, count c col = 0) :
    single.rss m_is_first count = intercept.rss count := by
  obtain ⟨i0, h0, hz⟩ := snp_pheno_one_cell m_is_first count c0 hempty
  unfold single.rss intercept.rss
  rw [sum_one_cell count c0 hempty 0, sum_one_cell count c0 hempty 1,
    sum_one_cell count c0 hempty 2]
  rw [Finset.sum_eq_single i0]
  · rw [h0 0, h0 1, h0 2]
  · intro i _ hi
    rw [hz i hi 0, hz i hi 1, hz i hi 2]
    simp [category_rss]
  · intro h
    exact absurd (Finset.mem_univ i0) h

lemma ones_count_sums :
    pooled_n (ones_count ℚ) = 9 ∧ lm_full.rss (ones_count ℚ) = 0 := by
  have h0 : ∀ c, ones_count ℚ c 0 = 2 := fun _ => by simp [ones_count]
  have h1 : ∀ c, ones_count ℚ c 1 = 1 := fun _ => by simp [ones_count]
  have h2 : ∀ c, ones_count ℚ c 2 = 4 := fun _ => by simp [ones_count]
  constructor
  · simp only [pooled_n, h1, Finset.sum_const, Finset.card_univ, Fintype.card_fin]
    norm_num
  · simp only [lm_full.rss, category_rss, h0, h1, h2, Finset.sum_const, Finset.card_univ,
      Fintype.card_fin]
    norm_num

end Nested

/-! ## Theorems: the nested models with the special values of IEEE arithmetic -/

section IeeeNested

variable {K : Type} [LinearOrderedField K]

lemma ieee.nan_add (a : ieee K) : ieee.nan + a = ieee.nan := by
  cases a <;> rfl

lemma ieee.add_nan (a : ieee K) : a + ieee.nan = ieee.nan := by
  cases a <;> rfl

lemma ieee.nan_sub (a : ieee K) : ieee.nan - a = ieee.nan := by
  cases a <;> rfl

lemma ieee.sub_nan (a : ieee K) : a - ieee.nan = ieee.nan := by
  cases a <;> rfl

lemma ieee.nan_mul (a : ieee K) : ieee.nan * a = ieee.nan := by
  cases a <;> rfl

lemma ieee.mul_nan (a : ieee K) : a * ieee.nan = ieee.nan := by
  cases a <;> rfl

lemma ieee.nan_div (a : ieee K) : ieee.nan / a = ieee.nan := by
  cases a <;> rfl

lemma ieee.div_nan (a : ieee K) : a / ieee.nan = ieee.nan := by
  cases a <;> rfl

lemma ieee.log_nan (log : K → K) : ieee.log log (ieee.nan : ieee K) = ieee.nan := rfl

lemma ieee.fin_add (x y : K) : ieee.fin x + ieee.fin y = ieee.fin (x + y) := rfl

lemma ieee.fin_sub (x y : K) : ieee.fin x - ieee.fin y = ieee.fin (x - y) := by
  show ieee.fin (x + -y) = _
  rw [sub_eq_add_neg]

lemma ieee.fin_mul (x y : K) : ieee.fin x * ieee.fin y = ieee.fin (x * y) := rfl

lemma ieee.fin_neg (x : K) : -ieee.fin x = ieee.fin (-x) := rfl

lemma ieee.fin_div (x y : K) (hy : y ≠ 0) : ieee.fin x / ieee.fin y = ieee.fin (x / y) := by
  show (if y = 0 then _ else ieee.fin (x / y)) = _
  rw [if_neg hy]

lemma ieee.ofNat_eq (n : Nat) [n.AtLeastTwo] :
    (OfNat.ofNat n : ieee K) = ieee.fin (OfNat.ofNat n) := by
  show ieee.fin ((n : Nat) : K) = _
  rw [Nat.cast_eq_ofNat]

lemma ieee.one_eq : (1 : ieee K) = ieee.fin 1 := by
  show ieee.fin ((1 : Nat) : K) = _
  rw [Nat.cast_one]

lemma ieee.log_fin (log : K → K) (x : K) (hx : 0 < x) :
    ieee.log log (ieee.fin x) = ieee.fin (log x) := by
  show (if 0 < x then ieee.fin (log x) else _) = _
  rw [if_pos hx]

/-- `0 * (s / 0)` is a NaN whatever `s` is: `0 / 0` is a NaN and `0 * inf` is one. -/
lemma ieee.zero_mul_div_zero (s : K) :
    (ieee.fin 0 : ieee K) * (ieee.fin s / ieee.fin 0) = ieee.nan := by
  show ieee.mul (ieee.fin 0) (ieee.div (ieee.fin s) (ieee.fin 0)) = _
  simp only [ieee.div, if_true]
  split_ifs <;> simp [ieee.mul]

lemma ieee.not_finite_add_left (a b : ieee K) (h : a.is_finite = false) :
    (a + b).is_finite = false := by
  cases a <;> cases b <;> first | rfl | (exfalso; simp [ieee.is_finite] at h)

lemma ieee.not_finite_add_right (a b : ieee K) (h : b.is_finite = false) :
    (a + b).is_finite = false := by
  cases a <;> cases b <;> first | rfl | (exfalso; simp [ieee.is_finite] at h)

lemma ieee.not_finite_neg (a : ieee K) (h : a.is_finite = false) :
    (-a).is_finite = false := by
  cases a <;> first | rfl | (exfalso; simp [ieee.is_finite] at h)

lemma ieee.not_finite_sub_left (a b : ieee K) (h : a.is_finite = false) :
    (a - b).is_finite = false := by
  cases a <;> cases b <;> first | rfl | (exfalso; simp [ieee.is_finite] at h)

lemma ieee.not_finite_sub_right (a b : ieee K) (h : b.is_finite = false) :
    (a - b).is_finite = false := by
  cases a <;> cases b <;> first | rfl | (exfalso; simp [ieee.is_finite] at h)

lemma ieee.not_finite_mul_right (a b : ieee K) (h : b.is_finite = false) :
    (a * b).is_finite = false := by
  cases a <;> cases b <;>
    first
    | rfl
    | (show (ieee.mul _ _).is_finite = false
       simp only [ieee.mul]
       split_ifs <;> rfl)
    | (exfalso; simp [ieee.is_finite] at h)

lemma ieee.not_finite_div_left (a b : ieee K) (h : a.is_finite = false) :
    (a / b).is_finite = false := by
  cases a <;> cases b <;>
    first
    | rfl
    | (show (ieee.div _ _).is_finite = false
       simp only [ieee.div]
       split_ifs <;> rfl)
    | (exfalso; simp [ieee.is_finite] at h)

/-- A division by zero never gives a finite number. -/
lemma ieee.not_finite_div_zero (a : ieee K) : (a / ieee.fin 0).is_finite = false := by
  cases a <;>
    first
    | rfl
    | (show (ieee.div _ _).is_finite = false
       simp only [ieee.div]
       split_ifs <;> rfl)

lemma ieee.not_finite_log (log : K → K) (a : ieee K) (h : a.is_finite = false) :
    (ieee.log log a).is_finite = false := by
  cases a <;> first | rfl | (exfalso; simp [ieee.is_finite] at h)

lemma ieee.foldl_fin (l : List K) (a : K) :
    (l.map ieee.fin).foldl (fun acc x => acc + x) (ieee.fin a) = ieee.fin (a + l.sum) := by
  induction l generalizing a with
  | nil => simp
  | cons x l ih =>
    simp only [List.map_cons, List.foldl_cons, List.sum_cons]
    rw [ieee.fin_add, ih, add_assoc]

lemma ieee.sum_fin {m : Nat} (f : Fin m → K) :
    ieee.sum (fun c => ieee.fin (f c)) = ieee.fin (∑ c, f c) := by
  unfold ieee.sum
  rw [show (List.ofFn fun c => ieee.fin (f c)) = (List.ofFn f).map ieee.fin from
    (List.map_ofFn f ieee.fin).symm, ieee.foldl_fin, zero_add, List.sum_ofFn]

lemma ieee.foldl_not_finite (l : List (ieee K)) (a : ieee K)
    (h : a.is_finite = false ∨ ∃ x ∈ l, x.is_finite = false) :
    (l.foldl (fun acc x => acc + x) a).is_finite = false := by
  induction l generalizing a with
  | nil =>
    rcases h with h | ⟨x, hx, _⟩
    · exact h
    · simp at hx
  | cons y l ih =>
    rw [List.foldl_cons]
    apply ih
    rcases h with h | ⟨x, hx, hxf⟩
    · exact Or.inl (ieee.not_finite_add_left a y h)
    · rcases List.mem_cons.mp hx with rfl | hx
      · exact Or.inl (ieee.not_finite_add_right a x hxf)
      · exact Or.inr ⟨x, hx, hxf⟩

lemma ieee.foldl_nan (l : List (ieee K)) (a : ieee K)
    (h : a = ieee.nan ∨ ieee.nan ∈ l) :
    l.foldl (fun acc x => acc + x) a = ieee.nan := by
  induction l generalizing a with
  | nil =>
    rcases h with h | h
    · exact h
    · simp at h
  | cons y l ih =>
    rw [List.foldl_cons]
    apply ih
    rcases h with h | h
    · left
      rw [h, ieee.nan_add]
    · rcases List.mem_cons.mp h with h | h
      · left
        rw [← h, ieee.add_nan]
      · exact Or.inr h

lemma ieee.sum_not_finite {m : Nat} (v : Fin m → ieee K) (c : Fin m)
    (h : (v c).is_finite = false) : (ieee.sum v).is_finite = false :=
  ieee.foldl_not_finite _ _ (Or.inr ⟨v c, (List.mem_ofFn v (v c)).mpr ⟨c, rfl⟩, h⟩)

lemma ieee.sum_nan {m : Nat} (v : Fin m → ieee K) (c : Fin m) (h : v c = ieee.nan) :
    ieee.sum v = ieee.nan :=
  ieee.foldl_nan _ _ (Or.inr ((List.mem_ofFn v _).mpr ⟨c, h⟩))

/-- The residual of a category with count 0 is a NaN. -/
lemma ieee.residual_of_zero_count (s1 s2 : K) :
    ieee.fin (0 : K) * (ieee.fin s1 / ieee.fin 0) * (ieee.fin s1 / ieee.fin 0)
        - 2 * (ieee.fin s1 / ieee.fin 0) * ieee.fin s1 + ieee.fin s2 = ieee.nan := by
  rw [ieee.zero_mul_div_zero, ieee.nan_mul, ieee.nan_sub, ieee.nan_add]

/-- The last line of the three `prob` methods when `sigma_square` is a NaN. -/
lemma ieee.logl_of_nan (log : K → K) (a n r : ieee K) :
    a - n * ieee.log log ieee.nan - 1 / (2 * ieee.nan) * r = ieee.nan := by
  rw [ieee.log_nan, ieee.mul_nan, ieee.sub_nan, ieee.nan_sub]

/-- The last line of the three `prob` methods when `sigma_square` is not finite. -/
lemma ieee.logl_not_finite (log : K → K) (a n c sigma : ieee K)
    (h : sigma.is_finite = false) :
    (a - n * ieee.log log sigma - c).is_finite = false :=
  ieee.not_finite_sub_left _ _ (ieee.not_finite_sub_right _ _
    (ieee.not_finite_mul_right _ _ (ieee.not_finite_log log sigma h)))

/-- A collapsed category with count 0 makes `single::prob` return a NaN. -/
lemma single_prob_ieee_of_zero_count (log : K → K) (pi : K) (m_is_first : Bool)
    (count : Fin 9 → Fin 3 → K) (i : Fin 3)
    (h : single.snp_pheno m_is_first count i 1 = 0) :
    single.prob_ieee log pi m_is_first count = log_double.from_log ieee.nan := by
  have hres : ieee.sum (fun c : Fin 3 =>
      ieee.fin (single.snp_pheno m_is_first count c 1)
          * (ieee.fin (single.snp_pheno m_is_first count c 0)
            / ieee.fin (single.snp_pheno m_is_first count c 1))
          * (ieee.fin (single.snp_pheno m_is_first count c 0)
            / ieee.fin (single.snp_pheno m_is_first count c 1))
        - 2 * (ieee.fin (single.snp_pheno m_is_first count c 0)
            / ieee.fin (single.snp_pheno m_is_first count c 1))
          * ieee.fin (single.snp_pheno m_is_first count c 0)
        + ieee.fin (single.snp_pheno m_is_first count c 2)) = ieee.nan := by
    apply ieee.sum_nan _ i
    dsimp only
    rw [h, ieee.residual_of_zero_count]
  unfold single.prob_ieee
  dsimp only
  rw [hres, ieee.nan_div, ieee.logl_of_nan]

/-- A row with count 0 makes `lm_full::prob` return a NaN. -/
lemma lm_full_prob_ieee_of_zero_count (log : K → K) (pi : K) {m : Nat}
    (count : Fin m → Fin 3 → K) (c0 : Fin m) (h : count c0 1 = 0) :
    lm_full.prob_ieee log pi count = log_double.from_log ieee.nan := by
  have hres : ieee.sum (fun c : Fin m =>
      ieee.fin (count c 1) * (ieee.fin (count c 0) / ieee.fin (count c 1))
          * (ieee.fin (count c 0) / ieee.fin (count c 1))
        - 2 * (ieee.fin (count c 0) / ieee.fin (count c 1)) * ieee.fin (count c 0)
        + ieee.fin (count c 2)) = ieee.nan := by
    apply ieee.sum_nan _ c0
    dsimp only
    rw [h, ieee.residual_of_zero_count]
  unfold lm_full.prob_ieee
  dsimp only
  rw [hres, ieee.nan_div, ieee.logl_of_nan]

/-- A pooled count 0 makes `intercept::prob` return a NaN. -/
lemma intercept_prob_ieee_of_zero_count (log : K → K) (pi : K) {m : Nat}
    (count : Fin m → Fin 3 → K) (h : pooled_n count = 0) :
    intercept.prob_ieee log pi count = log_double.from_log ieee.nan := by
  unfold pooled_n at h
  unfold intercept.prob_ieee
  dsimp only
  rw [ieee.sum_fin, ieee.sum_fin, ieee.sum_fin, h, ieee.residual_of_zero_count, ieee.nan_div,
    ieee.logl_of_nan]

/-- When `n - k = 0`, `sigma_square` is a quotient by zero and `lm_full::prob` does not
return a finite number. -/
lemma lm_full_prob_ieee_of_zero_divisor (log : K → K) (pi : K) {m : Nat}
    (count : Fin m → Fin 3 → K) (h : pooled_n count - 9 = 0) :
    (lm_full.prob_ieee log pi count).log_value.is_finite = false := by
  unfold pooled_n at h
  unfold lm_full.prob_ieee
  dsimp only [log_double.from_log]
  apply ieee.logl_not_finite
  rw [ieee.sum_fin, ieee.ofNat_eq 9, ieee.fin_sub, h]
  exact ieee.not_finite_div_zero _

lemma intercept_prob_ieee_of_zero_divisor (log : K → K) (pi : K) {m : Nat}
    (count : Fin m → Fin 3 → K) (h : pooled_n count - 1 = 0) :
    (intercept.prob_ieee log pi count).log_value.is_finite = false := by
  unfold pooled_n at h
  unfold intercept.prob_ieee
  dsimp only [log_double.from_log]
  apply ieee.logl_not_finite
  rw [ieee.sum_fin, ieee.one_eq, ieee.fin_sub, h]
  exact ieee.not_finite_div_zero _

lemma single_prob_ieee_of_zero_divisor (log : K → K) (pi : K) (m_is_first : Bool)
    (count : Fin 9 → Fin 3 → K) (h : pooled_n count - 3 = 0) :
    (single.prob_ieee log pi m_is_first count).log_value.is_finite = false := by
  unfold pooled_n at h
  unfold single.prob_ieee
  dsimp only [log_double.from_log]
  apply ieee.logl_not_finite
  rw [ieee.sum_fin, snp_pheno_sum, ieee.ofNat_eq 3, ieee.fin_sub, h]
  exact ieee.not_finite_div_zero _

/-- When no division of `intercept::prob` has a zero divisor and both logarithms have a
positive argument, the method returns the finite number that field arithmetic gives. -/
lemma intercept_prob_ieee_of_defined (log : K → K) (pi : K) {m : Nat}
    (count : Fin m → Fin 3 → K) (hpi : 0 < pi) (hd : intercept.defined count = true) :
    intercept.prob_ieee log pi count
      = log_double.from_log (ieee.fin (intercept.prob log pi count).log_value) := by
  simp only [intercept.defined, Bool.and_eq_true, decide_eq_true_eq] at hd
  obtain ⟨⟨hn, hn1⟩, hs⟩ := hd
  unfold pooled_n at hn hn1 hs
  have hr : intercept.rss count
      = (∑ c, count c 1) * ((∑ c, count c 0) / (∑ c, count c 1))
        * ((∑ c, count c 0) / (∑ c, count c 1))
        - 2 * ((∑ c, count c 0) / (∑ c, count c 1)) * (∑ c, count c 0)
        + (∑ c, count c 2) := by
    unfold intercept.rss category_rss
    ring
  rw [hr] at hs
  unfold intercept.prob_ieee intercept.prob
  dsimp only [log_double.from_log]
  rw [ieee.sum_fin, ieee.sum_fin, ieee.sum_fin, ieee.fin_div _ _ hn, ieee.ofNat_eq 2,
    ieee.one_eq]
  simp only [ieee.fin_mul, ieee.fin_sub, ieee.fin_add]
  rw [ieee.fin_div _ _ hn1, ieee.fin_div _ _ (two_ne_zero), ieee.fin_neg,
    ieee.log_fin log _ (by positivity), ieee.log_fin log _ hs]
  simp only [ieee.fin_mul, ieee.fin_sub]
  rw [ieee.fin_div _ _ (mul_ne_zero two_ne_zero (ne_of_gt hs))]
  simp only [ieee.fin_mul, ieee.fin_sub]

/-- The vector `residual` of `lm_full::prob` when every row has a non-zero count. -/
lemma lm_full_residual_ieee {m : Nat} (count : Fin m → Fin 3 → K)
    (hcell : ∀ c, count c 1 ≠ 0) :
    ieee.sum (fun c : Fin m =>
      ieee.fin (count c 1) * (ieee.fin (count c 0) / ieee.fin (count c 1))
          * (ieee.fin (count c 0) / ieee.fin (count c 1))
        - 2 * (ieee.fin (count c 0) / ieee.fin (count c 1)) * ieee.fin (count c 0)
        + ieee.fin (count c 2))
      = ieee.fin (∑ c, (count c 1 * (count c 0 / count c 1) * (count c 0 / count c 1)
          - 2 * (count c 0 / count c 1) * count c 0 + count c 2)) := by
  rw [← ieee.sum_fin]
  congr 1
  funext c
  rw [ieee.fin_div _ _ (hcell c), ieee.ofNat_eq 2]
  simp only [ieee.fin_mul, ieee.fin_sub, ieee.fin_add]

/-- When no division of `lm_full::prob` has a zero divisor and both logarithms have a
positive argument, the method returns the finite number that field arithmetic gives. -/
lemma lm_full_prob_ieee_of_defined (log : K → K) (pi : K) {m : Nat}
    (count : Fin m → Fin 3 → K) (hpi : 0 < pi) (hd : lm_full.defined count = true) :
    lm_full.prob_ieee log pi count
      = log_double.from_log (ieee.fin (lm_full.prob log pi count).log_value) := by
  simp only [lm_full.defined, Bool.and_eq_true, decide_eq_true_eq] at hd
  obtain ⟨⟨hcell, hn9⟩, hs⟩ := hd
  unfold pooled_n at hn9 hs
  have hr : lm_full.rss count
      = ∑ c, (count c 1 * (count c 0 / count c 1) * (count c 0 / count c 1)
          - 2 * (count c 0 / count c 1) * count c 0 + count c 2) := by
    unfold lm_full.rss
    exact Finset.sum_congr rfl (fun c _ => by unfold category_rss; ring)
  rw [hr] at hs
  unfold lm_full.prob_ieee lm_full.prob
  dsimp only [log_double.from_log]
  rw [lm_full_residual_ieee count hcell, ieee.sum_fin, ieee.ofNat_eq 2, ieee.ofNat_eq 9]
  simp only [ieee.fin_mul, ieee.fin_sub, ieee.fin_add]
  rw [ieee.fin_div _ _ hn9, ieee.fin_div _ _ (two_ne_zero), ieee.fin_neg,
    ieee.log_fin log _ (by positivity), ieee.log_fin log _ hs, ieee.one_eq]
  simp only [ieee.fin_mul, ieee.fin_sub]
  rw [ieee.fin_div _ _ (mul_ne_zero two_ne_zero (ne_of_gt hs))]
  simp only [ieee.fin_mul, ieee.fin_sub]

lemma one_le_of_natCast_ne_zero (x : K) (h : ∃ k : Nat, x = (k : K)) (hx : x ≠ 0) :
    1 ≤ x := by
  obtain ⟨k, rfl⟩ := h
  have hk : k ≠ 0 := fun h0 => hx (by rw [h0, Nat.cast_zero])
  exact_mod_cast Nat.one_le_iff_ne_zero.mpr hk

lemma lm_full_degenerate (log : K → K) (pi : K) (count : Fin 9 → Fin 3 → K)
    (hnat : ∀ c, ∃ k : Nat, count c 1 = (k : K)) (hd : pooled_n count - 9 ≤ 0) :
    (lm_full.prob_ieee log pi count).log_value.is_finite = false := by
  by_cases hz : ∃ c, count c 1 = 0
  · obtain ⟨c, hc⟩ := hz
    rw [lm_full_prob_ieee_of_zero_count log pi count c hc]
    rfl
  · push_neg at hz
    apply lm_full_prob_ieee_of_zero_divisor
    have hge : (9 : K) ≤ pooled_n count := by
      have h := Finset.sum_le_sum (s := (Finset.univ : Finset (Fin 9)))
        (fun c _ => one_le_of_natCast_ne_zero (count c 1) (hnat c) (hz c))
      simp only [Finset.sum_const, Finset.card_univ, Fintype.card_fin, nsmul_eq_mul,
        mul_one] at h
      unfold pooled_n
      exact_mod_cast h
    linarith

lemma intercept_degenerate (log : K → K) (pi : K) {m : Nat} (count : Fin m → Fin 3 → K)
    (hnat : ∀ c, ∃ k : Nat, count c 1 = (k : K)) (hd : pooled_n count - 1 ≤ 0) :
    (intercept.prob_ieee log pi count).log_value.is_finite = false := by
  by_cases hz : pooled_n count = 0
  · rw [intercept_prob_ieee_of_zero_count log pi count hz]
    rfl
  · apply intercept_prob_ieee_of_zero_divisor
    have hn : ∃ k : Nat, pooled_n count = (k : K) := by
      choose k hk using hnat
      refine ⟨∑ c, k c, ?_⟩
      unfold pooled_n
      rw [Nat.cast_sum]
      exact Finset.sum_congr rfl (fun c _ => hk c)
    have hge := one_le_of_natCast_ne_zero _ hn hz
    linarith

lemma single_degenerate (log : K → K) (pi : K) (m_is_first : Bool)
    (count : Fin 9 → Fin 3 → K) (hnat : ∀ c, ∃ k : Nat, count c 1 = (k : K))
    (hd : pooled_n count - 3 ≤ 0) :
    (single.prob_ieee log pi m_is_first count).log_value.is_finite = false := by
  by_cases hz : ∃ i, single.snp_pheno m_is_first count i 1 = 0
  · obtain ⟨i, hi⟩ := hz
    rw [single_prob_ieee_of_zero_count log pi m_is_first count i hi]
    rfl
  · push_neg at hz
    apply single_prob_ieee_of_zero_divisor
    have hcat : ∀ i, ∃ k : Nat, single.snp_pheno m_is_first count i 1 = (k : K) := by
      intro i
      choose k hk using hnat
      rw [snp_pheno_eq_sum_rows]
      refine ⟨((collapse_rows m_is_first i).map k).sum, ?_⟩
      rw [Nat.cast_list_sum, List.map_map]
      congr 1
      apply List.map_congr_left
      intro c _
      exact hk c
    have hge : (3 : K) ≤ pooled_n count := by
      have h := Finset.sum_le_sum (s := (Finset.univ : Finset (Fin 3)))
        (fun i _ => one_le_of_natCast_ne_zero _ (hcat i) (hz i))
      simp only [Finset.sum_const, Finset.card_univ, Fintype.card_fin, nsmul_eq_mul,
        mul_one] at h
      rw [snp_pheno_sum] at h
      unfold pooled_n
      exact_mod_cast h
    linarith

lemma exists_ne_fin_three (i0 : Fin 3) : ∃ i : Fin 3, i ≠ i0 := by
  by_cases h : i0 = 0
  · exact ⟨1, by rw [h]; decide⟩
  · exact ⟨0, fun h0 => h h0.symm⟩

lemma single_prob_ieee_one_cell (log : K → K) (pi : K) (m_is_first : Bool)
    (count : Fin 9 → Fin 3 → K) (c0 : Fin 9)
    (hempty : ∀ c, c ≠ c0 → ∀ col, count c col = 0) :
    single.prob_ieee log pi m_is_first count = log_double.from_log ieee.nan := by
  obtain ⟨i0, _, hz⟩ := snp_pheno_one_cell m_is_first count c0 hempty
  obtain ⟨i, hi⟩ := exists_ne_fin_three i0
  exact single_prob_ieee_of_zero_count log pi m_is_first count i (hz i hi 1)

/-- C13 (as amended): for every count table with exactly one non-empty cell and either
value of the flag, the collapsed table of `single::prob` has one category holding that
cell's sums and two categories that are zero in every column; `single::prob` forms the
means of those two categories as `0/0` and returns a NaN, while `intercept::prob` works
on pooled sums equal to the cell's sums and returns the finite number of the shared
formula whenever its divisions and logarithms are defined; a NaN is not that number, so
the two results are not identical. -/
theorem single_one_cell (log : K → K) (pi : K) (m_is_first : Bool)
    (count : Fin 9 → Fin 3 → K) (c0 : Fin 9)
    (hempty : ∀ c, c ≠ c0 → ∀ col, count c col = 0) :
    (∃ i0 : Fin 3, (∀ col, single.snp_pheno m_is_first count i0 col = count c0 col)
      ∧ ∀ i, i ≠ i0 → ∀ col, single.snp_pheno m_is_first count i col = 0)
    ∧ single.prob_ieee log pi m_is_first count = log_double.from_log ieee.nan
    ∧ (∀ col, ∑ c, count c col = count c0 col)
    ∧ ((intercept.prob_ieee log pi count).log_value.is_finite = true →
        single.prob_ieee log pi m_is_first count ≠ intercept.prob_ieee log pi count)
    ∧ (0 < pi → intercept.defined count = true →
        intercept.prob_ieee log pi count
            = log_double.from_log (ieee.fin (intercept.prob log pi count).log_value)
        ∧ single.prob_ieee log pi m_is_first count ≠ intercept.prob_ieee log pi count) := by
  have hs := single_prob_ieee_one_cell log pi m_is_first count c0 hempty
  refine ⟨snp_pheno_one_cell m_is_first count c0 hempty, hs,
    fun col => sum_one_cell count c0 hempty col, ?_, ?_⟩
  · intro hfin h
    rw [← h, hs] at hfin
    exact absurd hfin (by simp [log_double.from_log, ieee.is_finite])
  · intro hpi hd
    have hi := intercept_prob_ieee_of_defined log pi count hpi hd
    refine ⟨hi, ?_⟩
    rw [hs, hi]
    intro h
    have hv := congrArg log_double.log_value h
    exact absurd hv (by simp [log_double.from_log])

lemma single_cell_count_intercept (K' : Type) [LinearOrderedField K'] :
    pooled_n (single_cell_count K') = 5 ∧ intercept.rss (single_cell_count K') = 10
    ∧ intercept.defined (single_cell_count K') = true := by
  have he := single_cell_count_empty K'
  have hn : pooled_n (single_cell_count K') = 5 := by
    unfold pooled_n
    rw [sum_one_cell _ 0 he 1]
    simp [single_cell_count]
  have hr : intercept.rss (single_cell_count K') = 10 := by
    unfold intercept.rss
    rw [sum_one_cell _ 0 he 0, sum_one_cell _ 0 he 1, sum_one_cell _ 0 he 2]
    simp [single_cell_count, category_rss]
    norm_num
  refine ⟨hn, hr, ?_⟩
  simp only [intercept.defined, Bool.and_eq_true, decide_eq_true_eq, hn, hr]
  exact ⟨⟨by norm_num, by norm_num⟩, by norm_num⟩

/-- Witness of `single_one_cell`: the table `single_cell_count` over the rationals. -/
theorem single_one_cell_witness :
    (∀ c : Fin 9, c ≠ 0 → ∀ col, single_cell_count ℚ c col = 0)
    ∧ single.prob_ieee (fun x => x) 3 true (single_cell_count ℚ)
        = log_double.from_log ieee.nan :=
  ⟨single_cell_count_empty ℚ,
    (single_one_cell (fun x => x) 3 true (single_cell_count ℚ) 0
      (single_cell_count_empty ℚ)).2.1⟩

/-- C13, counterexample to the claim as stated: five samples of sum 10 and sum of
squares 30 in one cell.  For either flag `single::prob` returns a NaN (its two empty
categories have mean `0/0`), while `intercept::prob` returns the finite number
`-(5/2) log(2 pi) - (5/2) log(5/2) - 1/(2 (5/2)) 10`. -/
theorem single_ne_intercept_counterexample :
    (∀ c : Fin 9, c ≠ 0 → ∀ col, single_cell_count ℚ c col = 0)
    ∧ single_cell_count ℚ 0 1 = 5
    ∧ ∀ (log : ℚ → ℚ) (pi : ℚ), 0 < pi →
        (∀ b : Bool, single.prob_ieee log pi b (single_cell_count ℚ)
          = log_double.from_log ieee.nan)
        ∧ intercept.prob_ieee log pi (single_cell_count ℚ)
          = log_double.from_log (ieee.fin
              (-(5 / 2) * log (2 * pi) - 5 / 2 * log (5 / 2) - 1 / (2 * (5 / 2)) * 10))
        ∧ (∀ b : Bool, single.prob_ieee log pi b (single_cell_count ℚ)
          ≠ intercept.prob_ieee log pi (single_cell_count ℚ)) := by
  have he := single_cell_count_empty ℚ
  obtain ⟨hn, hr, hd⟩ := single_cell_count_intercept ℚ
  refine ⟨he, by simp [single_cell_count], ?_⟩
  intro log pi hpi
  have hi : intercept.prob_ieee log pi (single_cell_count ℚ)
      = log_double.from_log (ieee.fin
          (-(5 / 2) * log (2 * pi) - 5 / 2 * log (5 / 2) - 1 / (2 * (5 / 2)) * 10)) := by
    rw [intercept_prob_ieee_of_defined log pi _ hpi hd, intercept_prob_eq, hn, hr]
    unfold gaussian_logl log_double.from_log
    norm_num
  refine ⟨fun b => single_prob_ieee_one_cell log pi b _ 0 he, hi, ?_⟩
  intro b h
  rw [single_prob_ieee_one_cell log pi b _ 0 he, hi] at h
  have hv := congrArg log_double.log_value h
  exact absurd hv (by simp [log_double.from_log])

/-- C14 (as amended): `prob` contains no guard.  For every count table with whole-number
counts whose pooled count `n` satisfies `n - k ≤ 0` (`k` = 9, 1, 3), the value that
`lm_full::prob`, `intercept::prob` and `single::prob` hand to `from_log` is not a finite
number: a NaN when a category is empty (its mean is `0/0`), and otherwise `n = k` and
the value is computed from `sigma_square = RSS / 0`. -/
theorem nested_models_degenerate (log : K → K) (pi : K) (m_is_first : Bool)
    (count : Fin 9 → Fin 3 → K) (hnat : ∀ c, ∃ k : Nat, count c 1 = (k : K)) :
    (pooled_n count - 9 ≤ 0 →
      (lm_full.prob_ieee log pi count).log_value.is_finite = false)
    ∧ (pooled_n count - 1 ≤ 0 →
      (intercept.prob_ieee log pi count).log_value.is_finite = false)
    ∧ (pooled_n count - 3 ≤ 0 →
      (single.prob_ieee log pi m_is_first count).log_value.is_finite = false) :=
  ⟨lm_full_degenerate log pi count hnat, intercept_degenerate log pi count hnat,
    single_degenerate log pi m_is_first count hnat⟩

/-- Witness of `nested_models_degenerate`: nine samples, one per cell. -/
theorem nested_models_degenerate_witness :
    (∀ c, ∃ k : Nat, ones_count ℚ c 1 = (k : ℚ))
    ∧ pooled_n (ones_count ℚ) - 9 ≤ 0
    ∧ (lm_full.prob_ieee (fun x => x) 3 (ones_count ℚ)).log_value.is_finite = false := by
  have hnat : ∀ c, ∃ k : Nat, ones_count ℚ c 1 = (k : ℚ) :=
    fun c => ⟨1, by simp [ones_count]⟩
  have hd : pooled_n (ones_count ℚ) - 9 ≤ 0 := by
    rw [ones_count_sums.1]
    norm_num
  exact ⟨hnat, hd,
    (nested_models_degenerate (fun x => x) 3 true (ones_count ℚ) hnat).1 hd⟩

/-- C14, counterexample to the claim as stated: nine samples of phenotype 2, one per
cell, so that `n - k = 9 - 9 = 0` for the saturated model.  Every residual is 0, so
`sigma_square = 0 / 0`, and `lm_full::prob` returns `from_log` of a NaN, not a separate
undefined-likelihood result. -/
theorem lm_full_degenerate_counterexample :
    pooled_n (ones_count ℚ) - 9 ≤ 0
    ∧ ∀ (log : ℚ → ℚ) (pi : ℚ),
        lm_full.prob_ieee log pi (ones_count ℚ) = log_double.from_log ieee.nan := by
  obtain ⟨hn, hr⟩ := ones_count_sums
  refine ⟨by rw [hn]; norm_num, ?_⟩
  intro log pi
  have hcell : ∀ c, ones_count ℚ c 1 ≠ 0 := fun c => by simp [ones_count]
  have hsum : ∑ c, (ones_count ℚ c 1 * (ones_count ℚ c 0 / ones_count ℚ c 1)
      * (ones_count ℚ c 0 / ones_count ℚ c 1)
      - 2 * (ones_count ℚ c 0 / ones_count ℚ c 1) * ones_count ℚ c 0 + ones_count ℚ c 2)
      = 0 := by
    rw [← hr]
    unfold lm_full.rss
    exact Finset.sum_congr rfl (fun c _ => by unfold category_rss; ring)
  unfold pooled_n at hn
  unfold lm_full.prob_ieee
  dsimp only
  rw [lm_full_residual_ieee _ hcell, hsum, ieee.sum_fin, hn, ieee.ofNat_eq 9, ieee.fin_sub,
    sub_self]
  have h00 : (ieee.fin (0 : ℚ)) / ieee.fin 0 = ieee.nan := by
    show ieee.div _ _ = _
    simp [ieee.div]
  rw [h00, ieee.logl_of_nan]

end IeeeNested

/-! ## Theorems: the recorded sample count -/

section SampleCount

variable {K : Type} [LinearOrderedField K]

/-- Every path through `run` records the total of the retained cells. -/
lemma run_table_num_ok_samples (t : K) (cdf : K → Nat → Option K) (self : wald_lm_method K)
    (s : SufStats K) (output : List K) :
    (wald_lm_method.run_table t cdf self s output).self.m_num_ok_samples
      = (moments s t).num_samples := by
  unfold wald_lm_method.run_table
  dsimp only
  split
  · rfl
  · split
    · rfl
    · split <;> rfl

lemma accu_congr (f g : Nat → Nat → K) (h : ∀ i j, i < 3 → j < 3 → f i j = g i j) :
    accu f = accu g := by
  unfold accu
  apply congrArg
  apply List.map_congr_left
  intro c hc
  have h3 : c.1 < 3 ∧ c.2 < 3 := by
    simp only [cells, List.mem_cons, List.mem_singleton, List.not_mem_nil, or_false] at hc
    rcases hc with h | h | h | h | h | h | h | h | h <;> subst h <;> simp
  exact h c.1 c.2 h3.1 h3.2

/-- The samples among the first `m` that are not skipped and whose cell satisfies `R`. -/
lemma sum_cells_card_filter (row1 row2 m_missing : List Nat) (R : Nat × Nat → Bool)
    (h1 : ∀ i, row1.getD i 0 ≤ 3) (h2 : ∀ i, row2.getD i 0 ≤ 3) (m : Nat) :
    accu (fun i j => if R (i, j) = true
        then ((cell_samples row1 row2 m_missing i j m).card : K) else 0)
      = (((Finset.range m).filter (fun i => row1.getD i 0 ≠ 3 ∧ row2.getD i 0 ≠ 3
          ∧ m_missing.getD i 0 ≠ 1 ∧ R (row1.getD i 0, row2.getD i 0) = true)).card : K) := by
  induction m with
  | zero => simp [cell_samples, accu, cells]
  | succ m ih =>
    rw [Finset.range_succ, Finset.filter_insert]
    by_cases hok : row1.getD m 0 ≠ 3 ∧ row2.getD m 0 ≠ 3 ∧ m_missing.getD m 0 ≠ 1
    · have ha : row1.getD m 0 < 3 := lt_of_le_of_ne (h1 m) hok.1
      have hb : row2.getD m 0 < 3 := lt_of_le_of_ne (h2 m) hok.2.1
      have hfun : accu (fun i j => if R (i, j) = true
            then ((cell_samples row1 row2 m_missing i j (m + 1)).card : K) else 0)
          = accu (add_at (fun i j => if R (i, j) = true
              then ((cell_samples row1 row2 m_missing i j m).card : K) else 0)
              (row1.getD m 0) (row2.getD m 0)
              (if R (row1.getD m 0, row2.getD m 0) = true then 1 else 0)) := by
        apply accu_congr
        intro i j _ _
        show _ = if i = row1.getD m 0 ∧ j = row2.getD m 0 then _ else _
        rw [cell_samples_succ]
        by_cases hij : i = row1.getD m 0 ∧ j = row2.getD m 0
        · have hc : row1.getD m 0 = i ∧ row2.getD m 0 = j ∧ m_missing.getD m 0 ≠ 1 :=
            ⟨hij.1.symm, hij.2.symm, hok.2.2⟩
          rw [if_pos hij, if_pos hc,
            Finset.card_insert_of_not_mem (not_mem_cell_samples _ _ _ _ _ _), hij.1, hij.2]
          by_cases hR : R (row1.getD m 0, row2.getD m 0) = true
          · simp only [hR, if_true]; push_cast; ring
          · have hRf : R (row1.getD m 0, row2.getD m 0) = false := Bool.eq_false_iff.mpr hR
            simp only [hRf, Bool.false_eq_true, if_false, add_zero]
        · have hc : ¬ (row1.getD m 0 = i ∧ row2.getD m 0 = j ∧ m_missing.getD m 0 ≠ 1) :=
            fun h => hij ⟨h.1.symm, h.2.1.symm⟩
          rw [if_neg hij, if_neg hc]
      rw [hfun, accu_add_at _ _ _ ha hb, ih]
      by_cases hR : R (row1.getD m 0, row2.getD m 0) = true
      · have hall : row1.getD m 0 ≠ 3 ∧ row2.getD m 0 ≠ 3 ∧ m_missing.getD m 0 ≠ 1
            ∧ R (row1.getD m 0, row2.getD m 0) = true := ⟨hok.1, hok.2.1, hok.2.2, hR⟩
        rw [if_pos hR, if_pos hall, Finset.card_insert_of_not_mem (by simp)]
        push_cast
        ring
      · have hall : ¬ (row1.getD m 0 ≠ 3 ∧ row2.getD m 0 ≠ 3 ∧ m_missing.getD m 0 ≠ 1
            ∧ R (row1.getD m 0, row2.getD m 0) = true) := fun h => hR h.2.2.2
        rw [if_neg hR, if_neg hall, add_zero]
    · have hfun : accu (fun i j => if R (i, j) = true
            then ((cell_samples row1 row2 m_missing i j (m + 1)).card : K) else 0)
          = accu (fun i j => if R (i, j) = true
              then ((cell_samples row1 row2 m_missing i j m).card : K) else 0) := by
        apply accu_congr
        intro i j hi hj
        have hc : ¬ (row1.getD m 0 = i ∧ row2.getD m 0 = j ∧ m_missing.getD m 0 ≠ 1) := by
          rintro ⟨e1, e2, e3⟩
          exact hok ⟨by omega, by omega, e3⟩
        rw [cell_samples_succ, if_neg hc]
      have hall : ¬ (row1.getD m 0 ≠ 3 ∧ row2.getD m 0 ≠ 3 ∧ m_missing.getD m 0 ≠ 1
          ∧ R (row1.getD m 0, row2.getD m 0) = true) := fun h => hok ⟨h.1, h.2.1, h.2.2.1⟩
      rw [hfun, ih, if_neg hall]

/-- The total of the retained cells of an accumulated table counts the samples that are
not skipped and fall in a retained cell. -/
lemma retained_total_accumulate (t : K) (row1 row2 m_missing : List Nat) (m_pheno : List K)
    (h1 : ∀ i, row1.getD i 0 ≤ 3) (h2 : ∀ i, row2.getD i 0 ≤ 3) :
    retained_total (accumulate row1 row2 m_missing m_pheno) t
      = (((Finset.range row1.length).filter (fun i =>
          row1.getD i 0 ≠ 3 ∧ row2.getD i 0 ≠ 3 ∧ m_missing.getD i 0 ≠ 1
          ∧ (accumulate row1 row2 m_missing m_pheno).n (row1.getD i 0) (row2.getD i 0) ≥ t)).card
          : K) := by
  have hstep : retained_total (accumulate row1 row2 m_missing m_pheno) t
      = accu (fun i j => if retained (accumulate row1 row2 m_missing m_pheno).n t (i, j) = true
          then ((cell_samples row1 row2 m_missing i j row1.length).card : K) else 0) := by
    unfold retained_total
    rw [← sum_map_filter_ite]
    show accu (fun i j => if retained (accumulate row1 row2 m_missing m_pheno).n t (i, j) = true
      then (accumulate row1 row2 m_missing m_pheno).n i j else 0) = _
    apply accu_congr
    intro i j hi hj
    rw [show (accumulate row1 row2 m_missing m_pheno).n i j
      = ((cell_samples row1 row2 m_missing i j row1.length).card : K) from
        (accumulate_upto_cell row1 row2 m_missing m_pheno i j (by omega) (by omega)
          row1.length).1]
  rw [hstep, sum_cells_card_filter row1 row2 m_missing _ h1 h2]
  congr 2
  apply Finset.filter_congr
  intro i _
  simp only [retained, decide_eq_true_eq]

/-- C20 (as amended): for every pair of equal-length genotype rows with codes in
{0,1,2,3}, the sample count that `wald_lm_method::run` records through
`set_num_ok_samples` is the sum of the counts of the retained cells, that is the number
of samples that have both genotypes valid, are not flagged in the missing mask and fall
in a cell whose count reaches the threshold. -/
theorem run_num_ok_samples (t : K) (cdf : K → Nat → Option K) (self : wald_lm_method K)
    (row1 row2 : List Nat) (output : List K)
    (_hlen : row2.length = row1.length) (_hmlen : self.m_missing.length = row1.length)
    (_hplen : self.m_pheno.length = row1.length)
    (h1 : ∀ x ∈ row1, x ≤ 3) (h2 : ∀ x ∈ row2, x ≤ 3) :
    (wald_lm_method.run t cdf self row1 row2 output).self.m_num_ok_samples
        = ((cells.filter (fun c => decide
              ((accumulate row1 row2 self.m_missing self.m_pheno).n c.1 c.2 ≥ t))).map
            (fun c => (accumulate row1 row2 self.m_missing self.m_pheno).n c.1 c.2)).sum
    ∧ (wald_lm_method.run t cdf self row1 row2 output).self.m_num_ok_samples
        = (((Finset.range row1.length).filter (fun i =>
            row1.getD i 0 ≠ 3 ∧ row2.getD i 0 ≠ 3 ∧ self.m_missing.getD i 0 ≠ 1
            ∧ (accumulate row1 row2 self.m_missing self.m_pheno).n
                (row1.getD i 0) (row2.getD i 0) ≥ t)).card : K) := by
  have hrec : (wald_lm_method.run t cdf self row1 row2 output).self.m_num_ok_samples
      = retained_total (accumulate row1 row2 self.m_missing self.m_pheno) t := by
    unfold wald_lm_method.run
    rw [run_table_num_ok_samples, moments_num_samples]
  refine ⟨hrec, ?_⟩
  rw [hrec]
  exact retained_total_accumulate t row1 row2 self.m_missing self.m_pheno
    (getD_le_of_forall_mem row1 3 h1) (getD_le_of_forall_mem row2 3 h2)

lemma run_num_ok_eq_retained_total (t : K) (cdf : K → Nat → Option K)
    (self : wald_lm_method K) (row1 row2 : List Nat) (output : List K) :
    (wald_lm_method.run t cdf self row1 row2 output).self.m_num_ok_samples
      = retained_total (accumulate row1 row2 self.m_missing self.m_pheno) t := by
  unfold wald_lm_method.run
  rw [run_table_num_ok_samples, moments_num_samples]

/-- Witness of `run_num_ok_samples`: two samples in the cells (0,0) and (1,1). -/
theorem run_num_ok_samples_witness :
    ([0, 1] : List Nat).length = ([0, 1] : List Nat).length
    ∧ two_sample_method.m_missing.length = ([0, 1] : List Nat).length
    ∧ two_sample_method.m_pheno.length = ([0, 1] : List Nat).length
    ∧ (∀ x ∈ ([0, 1] : List Nat), x ≤ 3)
    ∧ (wald_lm_method.run 1 (fun _ _ => some 0) two_sample_method [0, 1] [0, 1]
          [-9, -9, -9, -9]).self.m_num_ok_samples
        = (((Finset.range ([0, 1] : List Nat).length).filter (fun i =>
            ([0, 1] : List Nat).getD i 0 ≠ 3 ∧ ([0, 1] : List Nat).getD i 0 ≠ 3
            ∧ two_sample_method.m_missing.getD i 0 ≠ 1
            ∧ (accumulate [0, 1] [0, 1] two_sample_method.m_missing
                two_sample_method.m_pheno).n (([0, 1] : List Nat).getD i 0)
                  (([0, 1] : List Nat).getD i 0) ≥ 1)).card : ℚ) :=
  ⟨rfl, rfl, rfl, by decide,
    (run_num_ok_samples 1 (fun _ _ => some 0) two_sample_method [0, 1] [0, 1]
      [-9, -9, -9, -9] rfl rfl rfl (by decide) (by decide)).2⟩

/-- C20, counterexample to the claim as stated: two samples with valid genotypes, none
masked, and the threshold 5.  Both cells stay below the threshold, so the recorded
count is 0 although two samples have both genotypes valid and are not masked. -/
theorem run_num_ok_samples_counterexample :
    (wald_lm_method.run 5 (fun _ _ => some 0) two_sample_method [0, 1] [0, 1]
        [-9, -9, -9, -9]).self.m_num_ok_samples = 0
    ∧ ((Finset.range ([0, 1] : List Nat).length).filter (fun i =>
        ([0, 1] : List Nat).getD i 0 ≠ 3 ∧ ([0, 1] : List Nat).getD i 0 ≠ 3
        ∧ two_sample_method.m_missing.getD i 0 ≠ 1)).card = 2 := by
  constructor
  · rw [run_num_ok_eq_retained_total,
      retained_total_accumulate 5 [0, 1] [0, 1] two_sample_method.m_missing
        two_sample_method.m_pheno (getD_le_of_forall_mem _ 3 (by decide))
        (getD_le_of_forall_mem _ 3 (by decide))]
    have h00 : (accumulate [0, 1] [0, 1] two_sample_method.m_missing
        two_sample_method.m_pheno).n 0 0 = 1 := by
      simp [two_sample_method, accumulate, accumulate_upto, List.range_succ, accumulate_step,
        add_at, zeros]
    have h11 : (accumulate [0, 1] [0, 1] two_sample_method.m_missing
        two_sample_method.m_pheno).n 1 1 = 1 := by
      simp [two_sample_method, accumulate, accumulate_upto, List.range_succ, accumulate_step,
        add_at, zeros]
    rw [Nat.cast_eq_zero, Finset.card_eq_zero, Finset.filter_eq_empty_iff]
    intro i hi
    have hi2 : i < 2 := by simpa using hi
    interval_cases i
    · rintro ⟨_, _, _, h⟩
      rw [show ([0, 1] : List Nat).getD 0 0 = 0 from rfl, h00] at h
      norm_num at h
    · rintro ⟨_, _, _, h⟩
      rw [show ([0, 1] : List Nat).getD 1 0 = 1 from rfl, h11] at h
      norm_num at h
  · decide

end SampleCount

/-! ## Theorems: the IRLS loop -/

section IrlsLoop

variable {K : Type} [LinearOrderedField K] {n p : Nat}

end IrlsLoop

/-! ## Theorems: the output of `irls` -/

section IrlsOutput

variable {K : Type} [LinearOrderedField K] {n p : Nat}

lemma irls_eq (ext : irls_library K n p) (X : Matrix (Fin n) (Fin p) K) (y : Fin n → K)
    (missing : Fin n → Nat) (model : glm_model K n) (output : glm_info K) (fast : Bool)
    (b0 : Fin p → K) (hinit : init_beta ext X y missing model false = some b0) :
    irls ext X y missing model output fast
      = some { b := if (irls_final ext X y missing model fast b0).inverse_fail then []
                    else List.ofFn (irls_final ext X y missing model fast b0).b
               output := irls_finish ext X y missing model
                 (irls_final ext X y missing model fast b0) output } := by
  unfold irls
  rw [hinit]

/-- The `else` branch of line 184. -/
lemma irls_finish_of_fail (ext : irls_library K n p) (X : Matrix (Fin n) (Fin p) K)
    (y : Fin n → K) (missing : Fin n → Nat) (model : glm_model K n) (st : irls_state K n p)
    (output : glm_info K)
    (h : st.inverse_fail = true ∨ st.invalid_mu = true ∨ st.num_iter = IRLS_MAX_ITERS) :
    irls_finish ext X y missing model st output
      = { output with num_iters := st.num_iter, converged := false, success := false } := by
  unfold irls_finish
  rw [if_neg]
  rintro ⟨h1, h2, h3⟩
  rcases h with h | h | h
  · rw [h3] at h; exact Bool.false_ne_true h
  · rw [h2] at h; exact Bool.false_ne_true h
  · omega

/-- C15: whenever the loop of `irls` ends because a weighted-least-squares solve in the
loop failed, because the fitted mean was invalid after the damped retry had been used,
or because 25 iterations were completed, `irls` sets `output.success = false` and
`output.converged = false`, sets `output.num_iters` to the number of completed
iterations, and leaves `se_beta`, `p_value`, `mu` and `logl` as they were. -/
theorem irls_failure_status (ext : irls_library K n p) (X : Matrix (Fin n) (Fin p) K)
    (y : Fin n → K) (missing : Fin n → Nat) (model : glm_model K n) (output : glm_info K)
    (fast : Bool) (b0 : Fin p → K)
    (hinit : init_beta ext X y missing model false = some b0)
    (hfail : (irls_final ext X y missing model fast b0).inverse_fail = true
      ∨ (irls_final ext X y missing model fast b0).invalid_mu = true
      ∨ (irls_final ext X y missing model fast b0).num_iter = 25) :
    ∃ res : irls_result K, irls ext X y missing model output fast = some res
      ∧ res.output.success = false ∧ res.output.converged = false
      ∧ res.output.num_iters = (irls_final ext X y missing model fast b0).num_iter
      ∧ res.output.se_beta = output.se_beta ∧ res.output.p_value = output.p_value
      ∧ res.output.mu = output.mu ∧ res.output.logl = output.logl := by
  refine ⟨_, irls_eq ext X y missing model output fast b0 hinit, ?_⟩
  dsimp only
  rw [irls_finish_of_fail ext X y missing model _ output hfail]
  exact ⟨rfl, rfl, rfl, rfl, rfl, rfl, rfl⟩

lemma irls_loop_exit (ext : irls_library K n p) (X : Matrix (Fin n) (Fin p) K)
    (y : Fin n → K) (missing : Fin n → Nat) (model : glm_model K n) (fast : Bool)
    (fuel : Nat) (st : irls_state K n p) (hc : irls_cond st = false) :
    irls_loop ext X y missing model fast fuel st = st := by
  cases fuel with
  | zero => rfl
  | succ fuel =>
    unfold irls_loop
    rw [if_neg (by rw [hc]; simp)]

lemma irls_loop_step (ext : irls_library K n p) (X : Matrix (Fin n) (Fin p) K)
    (y : Fin n → K) (missing : Fin n → Nat) (model : glm_model K n) (fast : Bool)
    (fuel : Nat) (st : irls_state K n p) (hc : irls_cond st = true)
    (hi : (irls_body ext X y missing model fast st).inverse_fail = false)
    (hm : (irls_body ext X y missing model fast st).invalid_mu = false) :
    irls_loop ext X y missing model fast (fuel + 1) st
      = irls_loop ext X y missing model fast fuel (irls_body ext X y missing model fast st) := by
  conv_lhs => unfold irls_loop
  rw [if_pos hc]
  dsimp only
  rw [if_neg (by simp [hi, hm])]

lemma irls_loop_break (ext : irls_library K n p) (X : Matrix (Fin n) (Fin p) K)
    (y : Fin n → K) (missing : Fin n → Nat) (model : glm_model K n) (fast : Bool)
    (fuel : Nat) (st : irls_state K n p) (hc : irls_cond st = true)
    (hb : (irls_body ext X y missing model fast st).inverse_fail = true
      ∨ (irls_body ext X y missing model fast st).invalid_mu = true) :
    irls_loop ext X y missing model fast (fuel + 1) st
      = irls_body ext X y missing model fast st := by
  conv_lhs => unfold irls_loop
  rw [if_pos hc]
  dsimp only
  rw [if_pos (by rcases hb with h | h <;> simp [h])]

/-- A fit that reports success went through lines 156-177. -/
lemma irls_finish_of_success (ext : irls_library K n p) (X : Matrix (Fin n) (Fin p) K)
    (y : Fin n → K) (missing : Fin n → Nat) (model : glm_model K n) (st : irls_state K n p)
    (output : glm_info K)
    (h : (irls_finish ext X y missing model st output).success = true) :
    ∃ C : Matrix (Fin p) (Fin p) K, inv (information X st.w) = some C
      ∧ st.num_iter < IRLS_MAX_ITERS ∧ st.invalid_mu = false ∧ st.inverse_fail = false
      ∧ irls_finish ext X y missing model st output
        = { se_beta := List.ofFn (fun i => ext.sqrt (model.dispersion st.mu y missing
              (model.dispersion st.mu y missing (p : K)) * C i i))
            num_iters := st.num_iter
            converged := true
            success := true
            mu := List.ofFn st.mu
            logl := model.likelihood_dispersion st.mu y missing
              (model.dispersion st.mu y missing (p : K))
            p_value := List.ofFn (fun i : Fin p =>
              match ext.chi_square_cdf
                ((st.b i / ext.sqrt (model.dispersion st.mu y missing
                    (model.dispersion st.mu y missing (p : K)) * C i i))
                  * (st.b i / ext.sqrt (model.dispersion st.mu y missing
                    (model.dispersion st.mu y missing (p : K)) * C i i))) 1 with
              | some v => 1 - v
              | none => -1) } := by
  unfold irls_finish at h ⊢
  by_cases h1 : st.num_iter < IRLS_MAX_ITERS ∧ st.invalid_mu = false ∧ st.inverse_fail = false
  · rw [if_pos h1] at h ⊢
    dsimp only at h ⊢
    by_cases h2 : ext.is_finite (information X st.w) = true
    · rw [if_pos h2] at h ⊢
      cases hC : inv (information X st.w) with
      | none =>
        rw [hC] at h
        exact absurd h (by simp)
      | some C =>
        exact ⟨C, rfl, h1.1, h1.2.1, h1.2.2, rfl⟩
    · rw [if_neg h2] at h
      exact absurd h (by simp)
  · rw [if_neg h1] at h
    exact absurd h (by simp)

/-- C17: on every successful fit and for every coefficient `i`, `output.p_value[i]` is
`1 - chiSquareCDF((b[i] / se_beta[i])^2, 1)` when the CDF returns a value and the marker
`-1` when it signals a bad-domain value; the entry of coefficient `i` is determined by
its own chi-square value alone, and the fit reports success. -/
theorem irls_p_values (ext : irls_library K n p) (X : Matrix (Fin n) (Fin p) K)
    (y : Fin n → K) (missing : Fin n → Nat) (model : glm_model K n) (output : glm_info K)
    (fast : Bool) (res : irls_result K)
    (hres : irls ext X y missing model output fast = some res)
    (hsucc : res.output.success = true) :
    res.b.length = p ∧ res.output.se_beta.length = p ∧ res.output.p_value.length = p
    ∧ ∀ i : Nat, i < p →
        res.output.p_value.getD i 0
          = match ext.chi_square_cdf
              ((res.b.getD i 0 / res.output.se_beta.getD i 0) ^ 2) 1 with
            | some v => 1 - v
            | none => -1 := by
  unfold irls at hres
  dsimp only at hres
  split at hres
  · exact absurd hres (by simp)
  · rename_i b0 _
    have hres' := Option.some.inj hres
    subst hres'
    dsimp only at hsucc ⊢
    obtain ⟨C, _, _, _, hif, hfin⟩ := irls_finish_of_success ext X y missing model _ output hsucc
    rw [hfin, hif]
    dsimp only
    refine ⟨by simp, by simp, by simp, ?_⟩
    intro i hi
    simp only [Bool.false_eq_true, if_false]
    rw [List.getD_eq_getElem _ _ (by simpa using hi),
      List.getD_eq_getElem _ _ (by simpa using hi),
      List.getD_eq_getElem _ _ (by simpa using hi)]
    simp only [List.getElem_ofFn, pow_two]

lemma unit_init (sq : ℚ → ℚ) (valid : Bool) :
    init_beta (unit_library sq) unit_X (fun _ => 1) (fun _ => 0) (unit_model valid) false
      = some (fun _ => 1) := by
  simp [init_beta, weighted_least_squares, unit_library]

lemma unit_cond_init (sq : ℚ → ℚ) (valid : Bool) :
    irls_cond (irls_init_state (unit_library sq) unit_X (fun _ => 1) (fun _ => 0)
      (unit_model valid) (fun _ => 1)) = true := by
  simp only [irls_cond, irls_init_state, unit_library, unit_model, IRLS_MAX_ITERS,
    IRLS_TOLERANCE]
  norm_num

lemma unit_body_valid (sq : ℚ → ℚ) (fast : Bool) :
    (irls_body (unit_library sq) unit_X (fun _ => 1) (fun _ => 0) (unit_model true) fast
      (irls_init_state (unit_library sq) unit_X (fun _ => 1) (fun _ => 0) (unit_model true)
        (fun _ => 1)))
      = { b := fun _ => 1, w := fun _ => 1, z := fun _ => 1, eta := fun _ => 1
          mu := fun _ => 1, mu_eta := fun _ => 1, num_iter := 1, old_logl := 0, logl := 0
          invalid_mu := false, inverse_fail := false, b_old := fun _ => 1
          first_attempt := true, body_runs := 1, damped_steps := 0 } := by
  have hX : unit_X.mulVec (fun _ => (1 : ℚ)) = fun _ => 1 := by
    funext i
    simp [Matrix.mulVec, Matrix.dotProduct, unit_X]
  have hw : set_missing_to_zero (fun _ : Fin 1 => 0)
      (compute_w (fun _ : Fin 1 => (1 : ℚ)) (fun _ => 1)) = fun _ => 1 := by
    funext i
    simp [set_missing_to_zero, compute_w]
  have hz : compute_z (fun _ : Fin 1 => (1 : ℚ)) (fun _ => 1) (fun _ => 1) (fun _ => 1)
      = fun _ => 1 := by
    funext i
    simp [compute_z]
  cases fast <;>
    simp [irls_body, irls_compute_eta, weighted_least_squares, unit_library, unit_model,
      irls_init_state, hX, hw, hz]

lemma unit_final_valid (sq : ℚ → ℚ) (fast : Bool) :
    irls_final (unit_library sq) unit_X (fun _ => 1) (fun _ => 0) (unit_model true) fast
        (fun _ => 1)
      = { b := fun _ => 1, w := fun _ => 1, z := fun _ => 1, eta := fun _ => 1
          mu := fun _ => 1, mu_eta := fun _ => 1, num_iter := 1, old_logl := 0, logl := 0
          invalid_mu := false, inverse_fail := false, b_old := fun _ => 1
          first_attempt := true, body_runs := 1, damped_steps := 0 } := by
  unfold irls_final
  rw [show IRLS_MAX_ITERS = 24 + 1 from rfl,
    irls_loop_step _ _ _ _ _ _ _ _ (unit_cond_init sq true)
      (by rw [unit_body_valid]) (by rw [unit_body_valid]),
    unit_body_valid, irls_loop_exit]
  simp only [irls_cond, IRLS_MAX_ITERS, IRLS_TOLERANCE]
  norm_num

lemma unit_information : information unit_X (fun _ => (1 : ℚ)) = 1 := by
  ext i j
  have hi : i = 0 := Subsingleton.elim _ _
  have hj : j = 0 := Subsingleton.elim _ _
  subst hi hj
  simp [information, Matrix.mul_apply, unit_X]

lemma unit_inv : inv (information unit_X (fun _ => (1 : ℚ))) = some 1 := by
  rw [unit_information, inv_eq_some _ (by simp), inv_one]

/-- The successful fit of the one-sample evaluation. -/
lemma unit_irls_valid (sq : ℚ → ℚ) (fast : Bool) :
    ∃ res : irls_result ℚ,
      irls (unit_library sq) unit_X (fun _ => 1) (fun _ => 0) (unit_model true) blank_output
        fast = some res
      ∧ res.output.success = true ∧ res.output.converged = true
      ∧ res.output.num_iters = 1 ∧ res.output.se_beta = [sq (2 / 5)] := by
  refine ⟨_, irls_eq _ _ _ _ _ _ _ _ (unit_init sq true), ?_⟩
  dsimp only
  rw [unit_final_valid]
  unfold irls_finish
  dsimp only
  rw [if_pos ⟨by decide, rfl, rfl⟩,
    if_pos (show (unit_library sq).is_finite (information unit_X fun _ => 1) = true from rfl),
    unit_inv]
  refine ⟨rfl, rfl, rfl, ?_⟩
  simp [unit_model]
  norm_num
  rfl

/-- C16, evaluation at a failing input: one sample, one coefficient, a model whose
dispersion is `1 / (3 - paramCount)`.  The fit succeeds; the dispersion for one
coefficient is 1/2 and the inverse information is 1, so the claimed standard error is
`sqrt(1/2)`, but `irls` stores `sqrt(2/5)`: line 157 calls `dispersion` a second time
with the dispersion 1/2 in the place of the parameter count. -/
theorem irls_se_beta_nested_dispersion (sq : ℚ → ℚ) (fast : Bool) :
    ∃ res : irls_result ℚ,
      irls (unit_library sq) unit_X (fun _ => 1) (fun _ => 0) (unit_model true) blank_output
        fast = some res
      ∧ res.output.success = true
      ∧ res.output.se_beta = [sq (2 / 5)]
      ∧ (unit_model true).dispersion (fun _ => 1) (fun _ => 1) (fun _ => 0) ((1 : Nat) : ℚ)
          * (information unit_X (fun _ => (1 : ℚ)))⁻¹ 0 0 = 1 / 2
      ∧ (unit_model true).dispersion (fun _ => 1) (fun _ => 1) (fun _ => 0)
          ((unit_model true).dispersion (fun _ => 1) (fun _ => 1) (fun _ => 0) ((1 : Nat) : ℚ))
          * (information unit_X (fun _ => (1 : ℚ)))⁻¹ 0 0 = 2 / 5 := by
  obtain ⟨res, hres, hs, _, _, hse⟩ := unit_irls_valid sq fast
  refine ⟨res, hres, hs, hse, ?_, ?_⟩
  · rw [unit_information, inv_one]
    simp [unit_model]
    norm_num
  · rw [unit_information, inv_one]
    simp [unit_model]
    norm_num

/-- Witness of `irls_p_values`: the one-sample fit succeeds and has one p-value. -/
theorem irls_p_values_witness :
    ∃ res : irls_result ℚ,
      irls (unit_library (fun x => x)) unit_X (fun _ => 1) (fun _ => 0) (unit_model true)
        blank_output false = some res
      ∧ res.output.success = true ∧ res.output.p_value.length = 1 := by
  obtain ⟨res, hres, hs, _⟩ := unit_irls_valid (fun x => x) false
  exact ⟨res, hres, hs,
    (irls_p_values (unit_library (fun x => x)) unit_X (fun _ => 1) (fun _ => 0)
      (unit_model true) blank_output false res hres hs).2.2.1⟩

lemma unit_final_invalid (sq : ℚ → ℚ) (fast : Bool) :
    (irls_final (unit_library sq) unit_X (fun _ => 1) (fun _ => 0) (unit_model false) fast
      (fun _ => 1)).invalid_mu = true := by
  have hb : (irls_body (unit_library sq) unit_X (fun _ => 1) (fun _ => 0) (unit_model false)
      fast (irls_init_state (unit_library sq) unit_X (fun _ => 1) (fun _ => 0)
        (unit_model false) (fun _ => 1))).invalid_mu = true := by
    cases fast <;>
      simp [irls_body, irls_compute_eta, weighted_least_squares, unit_library, unit_model,
        irls_init_state]
  unfold irls_final
  rw [show IRLS_MAX_ITERS = 24 + 1 from rfl,
    irls_loop_break _ _ _ _ _ _ _ _ (unit_cond_init sq false) (Or.inr hb)]
  exact hb

/-- Witness of `irls_failure_status`: the one-sample evaluation with a model that
rejects every mean; the damped step is used and the fit aborts in its first pass. -/
theorem irls_failure_status_witness :
    init_beta (unit_library (fun x => x)) unit_X (fun _ => 1) (fun _ => 0) (unit_model false)
        false = some (fun _ => 1)
    ∧ (irls_final (unit_library (fun x => x)) unit_X (fun _ => 1) (fun _ => 0)
        (unit_model false) false (fun _ => 1)).invalid_mu = true
    ∧ ∃ res : irls_result ℚ,
        irls (unit_library (fun x => x)) unit_X (fun _ => 1) (fun _ => 0) (unit_model false)
          blank_output false = some res
        ∧ res.output.success = false ∧ res.output.converged = false
        ∧ res.output.num_iters
          = (irls_final (unit_library (fun x => x)) unit_X (fun _ => 1) (fun _ => 0)
              (unit_model false) false (fun _ => 1)).num_iter
        ∧ res.output.se_beta = blank_output.se_beta
        ∧ res.output.p_value = blank_output.p_value
        ∧ res.output.mu = blank_output.mu ∧ res.output.logl = blank_output.logl :=
  ⟨unit_init _ false, unit_final_invalid _ false,
    irls_failure_status (unit_library (fun x => x)) unit_X (fun _ => 1) (fun _ => 0)
      (unit_model false) blank_output false (fun _ => 1) (unit_init _ false)
      (Or.inr (Or.inl (unit_final_invalid _ false)))⟩

end IrlsOutput

/-! ## Theorems: exact recovery by `irls` -/

section IrlsRecovery

variable {K : Type} [LinearOrderedField K] {n p : Nat}

/-- The information matrix of a full-column-rank design with positive weights is
invertible. -/
lemma information_det_ne_zero (X : Matrix (Fin n) (Fin p) K) (w : Fin n → K)
    (hX : Function.Injective X.mulVec) (hw : ∀ i, 0 < w i) : (information X w).det ≠ 0 := by
  have hker : ∀ d : Fin p → K, (information X w).mulVec d = 0 → d = 0 := by
    intro d h0
    have hq : Matrix.dotProduct d ((information X w).mulVec d) = 0 := by
      rw [h0, Matrix.dotProduct_zero]
    have hexp : Matrix.dotProduct d ((information X w).mulVec d)
        = ∑ i, X.mulVec d i * (w i * X.mulVec d i) := by
      unfold information
      rw [← Matrix.mulVec_mulVec, ← Matrix.mulVec_mulVec, Matrix.dotProduct_mulVec,
        Matrix.vecMul_transpose]
      unfold Matrix.dotProduct
      apply Finset.sum_congr rfl
      intro i _
      rw [Matrix.mulVec_diagonal]
    rw [hexp] at hq
    have hterm : ∀ i ∈ Finset.univ, 0 ≤ X.mulVec d i * (w i * X.mulVec d i) := by
      intro i _
      have : X.mulVec d i * (w i * X.mulVec d i) = w i * (X.mulVec d i * X.mulVec d i) := by
        ring
      rw [this]
      exact mul_nonneg (le_of_lt (hw i)) (mul_self_nonneg _)
    have hall := (Finset.sum_eq_zero_iff_of_nonneg hterm).mp hq
    have hXd : X.mulVec d = 0 := by
      funext i
      have hi := hall i (Finset.mem_univ i)
      have h2 : w i * (X.mulVec d i * X.mulVec d i) = 0 := by
        rw [← hi]; ring
      rcases mul_eq_zero.mp h2 with h | h
      · exact absurd h (ne_of_gt (hw i))
      · exact mul_self_eq_zero.mp h
    apply hX
    rw [hXd, Matrix.mulVec_zero]
  have hinj : Function.Injective (information X w).mulVec := by
    intro u u' h
    have := hker (u - u') (by rw [Matrix.mulVec_sub, h, sub_self])
    exact sub_eq_zero.mp this
  have hunit := Matrix.mulVec_injective_iff_isUnit.mp hinj
  exact ((Matrix.isUnit_iff_isUnit_det _).mp hunit).ne_zero

/-- Scaling the rows by non-zero factors keeps the columns independent. -/
lemma diagonal_mul_injective (X : Matrix (Fin n) (Fin p) K) (s : Fin n → K)
    (hX : Function.Injective X.mulVec) (hs : ∀ i, s i ≠ 0) :
    Function.Injective (Matrix.diagonal s * X).mulVec := by
  intro u u' h
  apply hX
  funext i
  have hi := congrFun h i
  rw [← Matrix.mulVec_mulVec, ← Matrix.mulVec_mulVec, Matrix.mulVec_diagonal,
    Matrix.mulVec_diagonal] at hi
  exact mul_left_cancel₀ (hs i) hi

/-- With an exact solver, weights whose square roots are non-zero and a response in the
column space, `weighted_least_squares` returns the coefficients. -/
lemma weighted_least_squares_exact (ext : irls_library K n p) (X : Matrix (Fin n) (Fin p) K)
    (b : Fin p → K) (w : Fin n → K) (fast : Bool)
    (hsolve : ∀ (f : Bool) (A : Matrix (Fin n) (Fin p) K) (t : Fin n → K) (c : Fin p → K),
      Function.Injective A.mulVec → A.mulVec c = t → ext.solve f A t = some c)
    (hX : Function.Injective X.mulVec) (hs : ∀ i, ext.sqrt (w i) ≠ 0) :
    weighted_least_squares ext X (X.mulVec b) w fast = some b := by
  have hA := diagonal_mul_injective X (fun i => ext.sqrt (w i)) hX hs
  have ht : (Matrix.diagonal (fun i => ext.sqrt (w i)) * X).mulVec b
      = fun i => X.mulVec b i * ext.sqrt (w i) := by
    funext i
    rw [← Matrix.mulVec_mulVec, Matrix.mulVec_diagonal]
    ring
  unfold weighted_least_squares
  dsimp only
  cases fast
  · rw [if_neg (by simp)]
    exact hsolve false _ _ b hA ht
  · rw [if_pos rfl]
    exact hsolve true _ _ b hA ht

/-- One pass of the loop for a Gaussian-identity model and a noise-free response: the
working response is `y`, the solve returns `beta`, and the iteration is counted. -/
lemma gaussian_body (ext : irls_library K n p) (X : Matrix (Fin n) (Fin p) K)
    (beta : Fin p → K) (model : glm_model K n) (fast : Bool) (v : K) (hp : 0 < p)
    (hg : gaussian_identity model v) (hsolve : exact_solver ext)
    (hX : Function.Injective X.mulVec) (hsqrt : ext.sqrt (1 / (v * (1 * 1))) ≠ 0)
    (st : irls_state K n p) (hmu : st.mu = st.eta) (hme : st.mu_eta = fun _ => 1) :
    irls_body ext X (X.mulVec beta) (fun _ => 0) model fast st
      = { st with w := fun _ => 1 / (v * (1 * 1)), z := X.mulVec beta
                  body_runs := st.body_runs + 1, b := beta, eta := X.mulVec beta
                  mu := X.mulVec beta, mu_eta := fun _ => 1, old_logl := st.logl
                  b_old := beta
                  logl := model.likelihood (X.mulVec beta) (X.mulVec beta) (fun _ => 0)
                  num_iter := st.num_iter + 1 } := by
  obtain ⟨hlmu, hlme, hvar, hvalid⟩ := hg
  have hw : set_missing_to_zero (fun _ : Fin n => 0) (compute_w (model.var st.mu) st.mu_eta)
      = fun _ => 1 / (v * (1 * 1)) := by
    funext i
    simp [set_missing_to_zero, compute_w, hvar, hme]
  have hz : compute_z st.eta st.mu st.mu_eta (X.mulVec beta) = X.mulVec beta := by
    funext i
    simp only [compute_z, hmu, hme]
    ring
  have hwls : weighted_least_squares ext X (X.mulVec beta) (fun _ => 1 / (v * (1 * 1))) fast
      = some beta :=
    weighted_least_squares_exact ext X beta _ fast hsolve hX (fun _ => hsqrt)
  unfold irls_body
  dsimp only
  rw [hw, hz, hwls]
  dsimp only
  rw [if_neg (by omega)]
  unfold irls_compute_eta
  dsimp only
  rw [hlmu, hlme, hvalid]
  simp [hlme]

lemma irls_finish_converged (ext : irls_library K n p) (X : Matrix (Fin n) (Fin p) K)
    (y : Fin n → K) (missing : Fin n → Nat) (model : glm_model K n) (st : irls_state K n p)
    (output : glm_info K) (hn : st.num_iter < IRLS_MAX_ITERS) (hm : st.invalid_mu = false)
    (hi : st.inverse_fail = false) (hfin : ext.is_finite (information X st.w) = true)
    (hdet : (information X st.w).det ≠ 0) :
    (irls_finish ext X y missing model st output).converged = true
    ∧ (irls_finish ext X y missing model st output).success = true
    ∧ (irls_finish ext X y missing model st output).num_iters = st.num_iter := by
  unfold irls_finish
  rw [if_pos ⟨hn, hm, hi⟩]
  dsimp only
  rw [if_pos hfin, inv_eq_some _ hdet]
  exact ⟨rfl, rfl, rfl⟩

lemma irls_cond_eq (st : irls_state K n p) (hn : st.num_iter < IRLS_MAX_ITERS) :
    irls_cond st
      = !decide (|st.logl - st.old_logl| / (0.1 + |st.logl|) < IRLS_TOLERANCE K) := by
  unfold irls_cond
  simp [hn]

lemma irls_tolerance_pos : (0 : K) < IRLS_TOLERANCE K := by
  unfold IRLS_TOLERANCE
  positivity

/-- The loop for a Gaussian-identity model and a noise-free response: the first pass
finds `beta`; the loop is left after that pass when the log-likelihood moved by less
than the tolerance, and after a second pass otherwise. -/
lemma irls_recovery_core (ext : irls_library K n p) (X : Matrix (Fin n) (Fin p) K)
    (beta : Fin p → K) (model : glm_model K n) (output : glm_info K) (fast : Bool) (v : K)
    (b0 : Fin p → K) (hp : 0 < p) (hg : gaussian_identity model v) (hv : 0 < v)
    (hsolve : exact_solver ext) (hX : Function.Injective X.mulVec)
    (hsqrt : ext.sqrt (1 / (v * (1 * 1))) ≠ 0) (hfin : ∀ M, ext.is_finite M = true)
    (hinit : init_beta ext X (X.mulVec beta) (fun _ => 0) model false = some b0)
    (henter : irls_cond (irls_init_state ext X (X.mulVec beta) (fun _ => 0) model b0) = true) :
    ∃ res : irls_result K,
      irls ext X (X.mulVec beta) (fun _ => 0) model output fast = some res
      ∧ res.b = List.ofFn beta ∧ res.output.converged = true ∧ res.output.success = true
      ∧ res.output.num_iters
        = if |model.likelihood (X.mulVec beta) (X.mulVec beta) (fun _ => 0)
              - model.likelihood (X.mulVec b0) (X.mulVec beta) (fun _ => 0)|
            / (0.1 + |model.likelihood (X.mulVec beta) (X.mulVec beta) (fun _ => 0)|)
              < IRLS_TOLERANCE K then 1 else 2 := by
  have hlmu := hg.1
  have hlme := hg.2.1
  have hw : ∀ i : Fin n, 0 < (fun _ : Fin n => 1 / (v * (1 * 1))) i := by
    intro i
    show 0 < 1 / (v * (1 * 1))
    positivity
  have hdet := information_det_ne_zero X (fun _ => 1 / (v * (1 * 1))) hX hw
  -- the first pass
  have hs1 := gaussian_body ext X beta model fast v hp hg hsolve hX hsqrt
    (irls_init_state ext X (X.mulVec beta) (fun _ => 0) model b0)
    (by show model.link.mu _ = _; rw [hlmu]; rfl) (by show model.link.mu_eta _ = _; rw [hlme])
  have hstep1 : irls_final ext X (X.mulVec beta) (fun _ => 0) model fast b0
      = irls_loop ext X (X.mulVec beta) (fun _ => 0) model fast 24
          (irls_body ext X (X.mulVec beta) (fun _ => 0) model fast
            (irls_init_state ext X (X.mulVec beta) (fun _ => 0) model b0)) := by
    unfold irls_final
    rw [show IRLS_MAX_ITERS = 24 + 1 from rfl]
    exact irls_loop_step _ _ _ _ _ _ _ _ henter (by rw [hs1]; rfl) (by rw [hs1]; rfl)
  have hL0 : (irls_init_state ext X (X.mulVec beta) (fun _ => 0) model b0).logl
      = model.likelihood (X.mulVec b0) (X.mulVec beta) (fun _ => 0) := by
    show model.likelihood (model.link.mu _) _ _ = _
    rw [hlmu]
  refine ⟨_, irls_eq ext X _ _ model output fast b0 hinit, ?_⟩
  dsimp only
  by_cases hconv : |model.likelihood (X.mulVec beta) (X.mulVec beta) (fun _ => 0)
      - model.likelihood (X.mulVec b0) (X.mulVec beta) (fun _ => 0)|
      / (0.1 + |model.likelihood (X.mulVec beta) (X.mulVec beta) (fun _ => 0)|)
        < IRLS_TOLERANCE K
  · -- the loop is left after the first pass
    have hc1 : irls_cond (irls_body ext X (X.mulVec beta) (fun _ => 0) model fast
        (irls_init_state ext X (X.mulVec beta) (fun _ => 0) model b0)) = false := by
      rw [hs1, irls_cond_eq _ (by show 0 + 1 < IRLS_MAX_ITERS; decide)]
      dsimp only
      rw [hL0]
      simp [hconv]
    rw [hstep1, irls_loop_exit _ _ _ _ _ _ _ _ hc1, hs1, if_pos hconv]
    obtain ⟨h1, h2, h3⟩ := irls_finish_converged ext X (X.mulVec beta) (fun _ => 0) model
      { (irls_init_state ext X (X.mulVec beta) (fun _ => 0) model b0) with
          w := fun _ => 1 / (v * (1 * 1)), z := X.mulVec beta
          body_runs := (irls_init_state ext X (X.mulVec beta) (fun _ => 0) model b0).body_runs
            + 1
          b := beta, eta := X.mulVec beta, mu := X.mulVec beta, mu_eta := fun _ => 1
          old_logl := (irls_init_state ext X (X.mulVec beta) (fun _ => 0) model b0).logl
          b_old := beta
          logl := model.likelihood (X.mulVec beta) (X.mulVec beta) (fun _ => 0)
          num_iter := (irls_init_state ext X (X.mulVec beta) (fun _ => 0) model b0).num_iter
            + 1 }
      output (by show 0 + 1 < IRLS_MAX_ITERS; decide) rfl rfl (hfin _) hdet
    exact ⟨by simp [irls_init_state], h1, h2, h3⟩
  · -- a second pass is needed
    have hc1 : irls_cond (irls_body ext X (X.mulVec beta) (fun _ => 0) model fast
        (irls_init_state ext X (X.mulVec beta) (fun _ => 0) model b0)) = true := by
      rw [hs1, irls_cond_eq _ (by show 0 + 1 < IRLS_MAX_ITERS; decide)]
      dsimp only
      rw [hL0]
      simp [hconv]
    have hs2 := gaussian_body ext X beta model fast v hp hg hsolve hX hsqrt
      (irls_body ext X (X.mulVec beta) (fun _ => 0) model fast
        (irls_init_state ext X (X.mulVec beta) (fun _ => 0) model b0))
      (by rw [hs1]) (by rw [hs1])
    have hc2 : irls_cond (irls_body ext X (X.mulVec beta) (fun _ => 0) model fast
        (irls_body ext X (X.mulVec beta) (fun _ => 0) model fast
          (irls_init_state ext X (X.mulVec beta) (fun _ => 0) model b0))) = false := by
      rw [hs2, irls_cond_eq _ (by rw [hs1]; show 0 + 1 + 1 < IRLS_MAX_ITERS; decide)]
      dsimp only
      rw [hs1]
      dsimp only
      rw [sub_self, abs_zero, zero_div]
      simp [irls_tolerance_pos]
    rw [hstep1, show (24 : Nat) = 23 + 1 from rfl,
      irls_loop_step _ _ _ _ _ _ _ _ hc1 (by rw [hs2, hs1]; rfl) (by rw [hs2, hs1]; rfl),
      irls_loop_exit _ _ _ _ _ _ _ _ hc2, if_neg hconv]
    obtain ⟨h1, h2, h3⟩ := irls_finish_converged ext X (X.mulVec beta) (fun _ => 0) model
      (irls_body ext X (X.mulVec beta) (fun _ => 0) model fast
        (irls_body ext X (X.mulVec beta) (fun _ => 0) model fast
          (irls_init_state ext X (X.mulVec beta) (fun _ => 0) model b0)))
      output (by rw [hs2, hs1]; show 0 + 1 + 1 < IRLS_MAX_ITERS; decide)
      (by rw [hs2, hs1]; rfl) (by rw [hs2, hs1]; rfl) (hfin _)
      (by rw [hs2]; exact hdet)
    refine ⟨?_, h1, h2, ?_⟩
    · rw [hs2, hs1]
      simp [irls_init_state]
    · rw [h3, hs2, hs1]
      rfl

lemma normal_solve_exact (A : Matrix (Fin n) (Fin p) K) (c : Fin p → K)
    (hA : Function.Injective A.mulVec) : normal_solve A (A.mulVec c) = some c := by
  have hdet : (A.transpose * A).det ≠ 0 := by
    have h := information_det_ne_zero A (fun _ => 1) hA (fun _ => one_pos)
    unfold information at h
    rwa [Matrix.diagonal_one, Matrix.mul_one] at h
  unfold normal_solve
  rw [inv_eq_some _ hdet]
  show some ((A.transpose * A)⁻¹.mulVec (A.transpose.mulVec (A.mulVec c))) = some c
  rw [Matrix.mulVec_mulVec, Matrix.mulVec_mulVec, Matrix.mul_assoc,
    Matrix.nonsing_inv_mul _ (isUnit_iff_ne_zero.mpr hdet), Matrix.one_mulVec]

lemma pair_exact : exact_solver pair_library := by
  intro f A t c hA ht
  subst ht
  exact normal_solve_exact A c hA

lemma pair_gaussian : gaussian_identity pair_model 1 :=
  ⟨fun _ => rfl, fun _ => rfl, fun _ => rfl, fun _ => rfl⟩

lemma pair_injective : Function.Injective pair_X.mulVec := by
  intro u u' h
  funext j
  have h0 := congrFun h 0
  simp only [Matrix.mulVec, Matrix.dotProduct, pair_X, Fin.sum_univ_one, one_mul] at h0
  rw [Subsingleton.elim j 0]
  exact h0

lemma pair_mulVec (c : ℚ) : pair_X.mulVec (fun _ => c) = fun _ => c := by
  funext i
  simp [Matrix.mulVec, Matrix.dotProduct, pair_X]

lemma pair_init :
    init_beta pair_library pair_X (pair_X.mulVec fun _ => 1) (fun _ => 0) pair_model false
      = some (fun _ => 1 / 2) := by
  unfold init_beta
  have heta : pair_model.link.eta (fun i => ((pair_X.mulVec fun _ => (1 : ℚ)) i + 0.5) / 3)
      = pair_X.mulVec (fun _ => 1 / 2) := by
    rw [pair_mulVec, pair_mulVec]
    funext i
    show ((1 : ℚ) + 0.5) / 3 = 1 / 2
    norm_num
  dsimp only
  rw [heta]
  refine weighted_least_squares_exact pair_library pair_X (fun _ => 1 / 2) _ false pair_exact
    pair_injective ?_
  intro i
  show (1 : ℚ) - ((0 : Nat) : ℚ) ≠ 0
  norm_num

lemma pair_logl_start :
    pair_model.likelihood (pair_X.mulVec fun _ => 1 / 2) (pair_X.mulVec fun _ => 1)
      (fun _ => 0) = -(1 / 4) := by
  rw [pair_mulVec, pair_mulVec]
  show -(∑ i : Fin 2, ((1 : ℚ) - 1 / 2) ^ 2) / 2 = -(1 / 4)
  rw [Fin.sum_univ_two]
  norm_num

lemma pair_logl_fit :
    pair_model.likelihood (pair_X.mulVec fun _ => 1) (pair_X.mulVec fun _ => 1)
      (fun _ => 0) = 0 := by
  rw [pair_mulVec]
  show -(∑ i : Fin 2, ((1 : ℚ) - 1) ^ 2) / 2 = 0
  rw [Fin.sum_univ_two]
  norm_num

lemma pair_enter :
    irls_cond (irls_init_state pair_library pair_X (pair_X.mulVec fun _ => 1) (fun _ => 0)
      pair_model (fun _ => 1 / 2)) = true := by
  rw [irls_cond_eq _ (by show 0 < IRLS_MAX_ITERS; decide)]
  have hl : (irls_init_state pair_library pair_X (pair_X.mulVec fun _ => 1) (fun _ => 0)
      pair_model (fun _ => 1 / 2)).logl = -(1 / 4) := pair_logl_start
  have ho : (irls_init_state pair_library pair_X (pair_X.mulVec fun _ => 1) (fun _ => 0)
      pair_model (fun _ => 1 / 2)).old_logl = -(10 ^ 308) := rfl
  rw [hl, ho]
  have h1 : |(-(1 / 4) : ℚ) - -(10 ^ 308)| = 10 ^ 308 - 1 / 4 := by
    rw [abs_of_pos (by norm_num)]
    ring
  have h2 : |(-(1 / 4) : ℚ)| = 1 / 4 := by
    rw [abs_neg, abs_of_pos (by norm_num)]
  rw [h1, h2]
  unfold IRLS_TOLERANCE
  simp only [Bool.not_eq_true', decide_eq_false_iff_not, not_lt]
  norm_num

/-- C19 (as amended): for a Gaussian-identity model with a constant variance `v > 0`, a
design matrix of full column rank, no missing samples and the noise-free response
`y = X * beta`, with a least-squares solver that is exact on consistent systems, a starting
vector `b0` delivered by `init_beta` and a loop that is entered, `irls` returns exactly
`beta` with `converged = true` and `success = true`; `num_iters` is 1 when the first
iteration changed the log-likelihood by less than the tolerance relative to
`0.1 + |logl|`, and 2 otherwise. -/
theorem irls_exact_recovery (ext : irls_library K n p) (X : Matrix (Fin n) (Fin p) K)
    (beta : Fin p → K) (model : glm_model K n) (output : glm_info K) (fast : Bool) (v : K)
    (b0 : Fin p → K) (hp : 0 < p) (hg : gaussian_identity model v) (hv : 0 < v)
    (hsolve : exact_solver ext) (hX : Function.Injective X.mulVec)
    (hsqrt : ext.sqrt (1 / (v * (1 * 1))) ≠ 0) (hfin : ∀ M, ext.is_finite M = true)
    (hinit : init_beta ext X (X.mulVec beta) (fun _ => 0) model false = some b0)
    (henter : irls_cond (irls_init_state ext X (X.mulVec beta) (fun _ => 0) model b0) = true) :
    ∃ res : irls_result K,
      irls ext X (X.mulVec beta) (fun _ => 0) model output fast = some res
      ∧ res.b = List.ofFn beta ∧ res.output.converged = true ∧ res.output.success = true
      ∧ res.output.num_iters
        = if |model.likelihood (X.mulVec beta) (X.mulVec beta) (fun _ => 0)
              - model.likelihood (X.mulVec b0) (X.mulVec beta) (fun _ => 0)|
            / (0.1 + |model.likelihood (X.mulVec beta) (X.mulVec beta) (fun _ => 0)|)
              < IRLS_TOLERANCE K then 1 else 2 :=
  irls_recovery_core ext X beta model output fast v b0 hp hg hv hsolve hX hsqrt hfin hinit
    henter

/-- The amended C19 at the intercept-only design with two samples, `beta = 1` and the
response `(1, 1)`: every hypothesis holds there. -/
theorem irls_exact_recovery_witness :
    gaussian_identity pair_model 1 ∧ exact_solver pair_library
    ∧ Function.Injective pair_X.mulVec
    ∧ init_beta pair_library pair_X (pair_X.mulVec fun _ => 1) (fun _ => 0) pair_model false
        = some (fun _ => 1 / 2)
    ∧ irls_cond (irls_init_state pair_library pair_X (pair_X.mulVec fun _ => 1) (fun _ => 0)
        pair_model (fun _ => 1 / 2)) = true
    ∧ ∃ res : irls_result ℚ,
        irls pair_library pair_X (pair_X.mulVec fun _ => 1) (fun _ => 0) pair_model
          blank_output true = some res
        ∧ res.b = List.ofFn (fun _ : Fin 1 => (1 : ℚ)) ∧ res.output.converged = true
        ∧ res.output.success = true
        ∧ res.output.num_iters
          = if |pair_model.likelihood (pair_X.mulVec fun _ => 1) (pair_X.mulVec fun _ => 1)
                  (fun _ => 0)
                - pair_model.likelihood (pair_X.mulVec fun _ => 1 / 2)
                  (pair_X.mulVec fun _ => 1) (fun _ => 0)|
              / (0.1 + |pair_model.likelihood (pair_X.mulVec fun _ => 1)
                  (pair_X.mulVec fun _ => 1) (fun _ => 0)|)
                < IRLS_TOLERANCE ℚ then 1 else 2 :=
  ⟨pair_gaussian, pair_exact, pair_injective, pair_init, pair_enter,
    irls_exact_recovery pair_library pair_X (fun _ => 1) pair_model blank_output true 1
      (fun _ => 1 / 2) (by decide) pair_gaussian one_pos pair_exact pair_injective
      (by show (1 / (1 * (1 * 1)) : ℚ) ≠ 0; norm_num) (fun _ => rfl) pair_init pair_enter⟩

/-- C19 as stated fails: for the Gaussian-identity model `pair_model`, the full-rank
intercept design with two samples and the noise-free response `(1, 1) = X * 1`, `irls`
returns `beta = 1` and reports convergence, but after two iterations, not one. -/
theorem irls_single_iteration_counterexample :
    gaussian_identity pair_model 1 ∧ Function.Injective pair_X.mulVec
    ∧ ∃ res : irls_result ℚ,
        irls pair_library pair_X (pair_X.mulVec fun _ => 1) (fun _ => 0) pair_model
          blank_output false = some res
        ∧ res.b = [1] ∧ res.output.converged = true ∧ res.output.num_iters = 2
        ∧ res.output.num_iters ≠ 1 := by
  refine ⟨pair_gaussian, pair_injective, ?_⟩
  obtain ⟨res, hres, hb, hc, _, hn⟩ := irls_recovery_core pair_library pair_X (fun _ => 1)
    pair_model blank_output false 1 (fun _ => 1 / 2) (by decide) pair_gaussian one_pos
    pair_exact pair_injective (by show (1 / (1 * (1 * 1)) : ℚ) ≠ 0; norm_num)
    (fun _ => rfl) pair_init pair_enter
  rw [pair_logl_fit, pair_logl_start] at hn
  have hnot : ¬ (|(0 : ℚ) - -(1 / 4)| / (0.1 + |(0 : ℚ)|) < IRLS_TOLERANCE ℚ) := by
    unfold IRLS_TOLERANCE
    rw [abs_zero, abs_of_pos (by norm_num)]
    norm_num
  rw [if_neg hnot] at hn
  refine ⟨res, hres, ?_, hc, hn, ?_⟩
  · rw [hb]
    rfl
  · rw [hn]
    decide

end IrlsRecovery

/-! ## Theorems: the output row of an undefined Wald result -/

section Sentinel

variable {K : Type} [LinearOrderedField K]

lemma getD_one_set_three (output : List K) (x y z : K) :
    (((output.set 0 x).set 1 y).set 2 z).getD 1 0 = y
    ∨ (((output.set 0 x).set 1 y).set 2 z).getD 1 0 = 0 := by
  match output with
  | [] => right; rfl
  | [_] => right; rfl
  | _ :: _ :: [] => left; rfl
  | _ :: _ :: _ :: _ => left; rfl

/-- On the path of lines 158-163 the returned value is not the sentinel, when the CDF
delivers values of at most 1. -/
lemma run_table_regular_ret (t : K) (cdf : K → Nat → Option K) (self : wald_lm_method K)
    (s : SufStats K) (output : List K) (hcdf : ∀ x k p, cdf x k = some p → p ≤ 1)
    (hk : 0 < (run_contrasts t s).num_valid)
    (hdet : (run_C t self.m_unequal_var s).det ≠ 0) :
    (wald_lm_method.run_table t cdf self s output).ret ≠ some (-9) := by
  cases hp : cdf (Matrix.dotProduct (as_vec (run_contrasts t s).num_valid (run_beta t s))
      (Matrix.mulVec (run_C t self.m_unequal_var s)⁻¹
        (as_vec (run_contrasts t s).num_valid (run_beta t s))))
      (run_contrasts t s).num_valid with
  | none =>
    unfold wald_lm_method.run_table
    rw [if_neg (by omega)]
    dsimp only
    rw [inv_eq_some _ hdet]
    dsimp only
    rw [hp]
    simp
  | some p =>
    obtain ⟨ho, hr⟩ := run_table_of_regular t cdf self s output p hk hdet hp
    rw [hr, ho]
    have hp1 := hcdf _ _ _ hp
    intro h
    have h9 := Option.some.inj h
    rcases getD_one_set_three output
      (Matrix.dotProduct (as_vec (run_contrasts t s).num_valid (run_beta t s))
        (Matrix.mulVec (run_C t self.m_unequal_var s)⁻¹
          (as_vec (run_contrasts t s).num_valid (run_beta t s))))
      (1 - p) ((run_valid t s).length : K) with h1 | h1
    · rw [h1] at h9
      linarith
    · rw [h1] at h9
      linarith

/-- C22: `wald_lm_method::run` returns the sentinel -9 exactly when no contrast is valid
or the covariance matrix is singular (for a CDF with values of at most 1), and whenever
it returns -9 it has written no element of `output`; an array that was filled with the
missing-value sentinel before the call still holds that value at every index. -/
theorem run_sentinel_output_untouched (t : K) (cdf : K → Nat → Option K)
    (self : wald_lm_method K) (row1 row2 : List Nat) (output : List K)
    (hcdf : ∀ x k p, cdf x k = some p → p ≤ 1) :
    ((wald_lm_method.run t cdf self row1 row2 output).ret = some (-9)
      ↔ (valid_contrasts (accumulate row1 row2 self.m_missing self.m_pheno).n t = []
        ∨ (run_C t self.m_unequal_var
            (accumulate row1 row2 self.m_missing self.m_pheno)).det = 0))
    ∧ ((wald_lm_method.run t cdf self row1 row2 output).ret = some (-9) →
        (wald_lm_method.run t cdf self row1 row2 output).output = output)
    ∧ (∀ (missing : K) (k : Nat), output = List.replicate k missing →
        (wald_lm_method.run t cdf self row1 row2 output).ret = some (-9) →
        ∀ i : Nat, i < k →
          (wald_lm_method.run t cdf self row1 row2 output).output.getD i 0 = missing) := by
  have hpath : (valid_contrasts (accumulate row1 row2 self.m_missing self.m_pheno).n t = []
        ∨ (run_C t self.m_unequal_var
            (accumulate row1 row2 self.m_missing self.m_pheno)).det = 0) →
      (wald_lm_method.run t cdf self row1 row2 output).ret = some (-9)
      ∧ (wald_lm_method.run t cdf self row1 row2 output).output = output := by
    rintro (h | h)
    · obtain ⟨h1, h2, _⟩ := run_table_of_no_valid t cdf self _ output h
      exact ⟨h1, h2⟩
    · exact run_table_of_singular t cdf self _ output h
  have hiff : (wald_lm_method.run t cdf self row1 row2 output).ret = some (-9) →
      (valid_contrasts (accumulate row1 row2 self.m_missing self.m_pheno).n t = []
        ∨ (run_C t self.m_unequal_var
            (accumulate row1 row2 self.m_missing self.m_pheno)).det = 0) := by
    intro hret
    by_contra hno
    push_neg at hno
    have hk : 0 < (run_contrasts t
        (accumulate row1 row2 self.m_missing self.m_pheno)).num_valid := by
      rw [run_contrasts_num_valid]
      exact List.length_pos.mpr hno.1
    exact run_table_regular_ret t cdf self _ output hcdf hk hno.2 hret
  refine ⟨⟨hiff, fun h => (hpath h).1⟩, fun h => (hpath (hiff h)).2, ?_⟩
  intro missing k hout hret i hi
  rw [(hpath (hiff hret)).2, hout, List.getD_eq_getElem?_getD, List.getElem?_replicate]
  simp [hi]

/-- Witness of `run_sentinel_output_untouched`: two samples at threshold 5 leave no valid
contrast; the call returns -9 and the row still holds the missing value -9 everywhere. -/
theorem run_sentinel_output_untouched_witness :
    (∀ (x : ℚ) (k : Nat) (p : ℚ),
      (fun _ _ => some 0 : ℚ → Nat → Option ℚ) x k = some p → p ≤ 1)
    ∧ (wald_lm_method.run 5 (fun _ _ => some 0) two_sample_method [0, 1] [0, 1]
        [-9, -9, -9]).ret = some (-9)
    ∧ (wald_lm_method.run 5 (fun _ _ => some 0) two_sample_method [0, 1] [0, 1]
        [-9, -9, -9]).output = [-9, -9, -9] := by
  have hcdf : ∀ (x : ℚ) (k : Nat) (p : ℚ),
      (fun _ _ => some 0 : ℚ → Nat → Option ℚ) x k = some p → p ≤ 1 := by
    intro x k p h
    have hp : (0 : ℚ) = p := Option.some.inj h
    rw [← hp]
    exact zero_le_one
  have h := run_sentinel_output_untouched (5 : ℚ) (fun _ _ => some 0) two_sample_method
    [0, 1] [0, 1] [-9, -9, -9] hcdf
  have hv : valid_contrasts
      (accumulate [0, 1] [0, 1] two_sample_method.m_missing two_sample_method.m_pheno).n
      (5 : ℚ) = [] := by
    simp [valid_contrasts, contrast_list, contrast_valid, retained, accumulate,
      accumulate_upto, accumulate_step, two_sample_method, add_at, zeros, List.range,
      List.range.loop, -Prod.mk_one_one, -Prod.mk_zero_zero]
  have hret := h.1.mpr (Or.inl hv)
  exact ⟨hcdf, hret, h.2.1 hret⟩

end Sentinel

/-! ## Theorems: the divisors of the pooled variance and of the covariance matrix -/

section Divisors

variable {K : Type} [LinearOrderedField K]

lemma mul_length_le_sum_map (l : List (Nat × Nat)) (f : Nat × Nat → K) (t : K)
    (h : ∀ c ∈ l, t ≤ f c) : t * (l.length : K) ≤ (l.map f).sum := by
  induction l with
  | nil => simp
  | cons a l ih =>
    have ha := h a (List.mem_cons_self a l)
    have hl := ih (fun c hc => h c (List.mem_cons_of_mem a hc))
    simp only [List.length_cons, List.map_cons, List.sum_cons, Nat.cast_add, Nat.cast_one]
    linarith

lemma retained_total_ge (s : SufStats K) (t : K) (ht : 0 ≤ t)
    (hvalid : valid_contrasts s.n t ≠ []) : 4 * t ≤ retained_total s t := by
  obtain ⟨c, hc⟩ := List.exists_mem_of_ne_nil _ hvalid
  have hcm := List.mem_filter.mp hc
  have h4 := four_retained_of_valid s.n t c hcm.1 hcm.2
  have hsum := mul_length_le_sum_map (cells.filter (retained s.n t))
    (fun c => s.n c.1 c.2) t (by
      intro c hc
      have hr := (List.mem_filter.mp hc).2
      simp only [retained, decide_eq_true_eq] at hr
      exact hr)
  have h4K : (4 : K) ≤ ((cells.filter (retained s.n t)).length : K) := by
    exact_mod_cast h4
  unfold retained_total
  nlinarith

/-- C26: if the threshold is at least 3 and a contrast is valid, the retained-sample
total `N = num_samples` of `wald_lm_method::run` satisfies `N ≥ 4 threshold > 9`, so the
divisor `N - 9` of the pooled variance is positive, and the four counts `n(0,0)`,
`n(0,c2)`, `n(c1,0)`, `n(c1,c2)` that line 147 divides by are positive for every valid
contrast `(c1, c2)`. -/
theorem pooled_divisor_pos (t : K) (s : SufStats K) (ht : 3 ≤ t)
    (hvalid : valid_contrasts s.n t ≠ []) :
    4 * t ≤ (moments s t).num_samples ∧ 9 < 4 * t ∧ 0 < (moments s t).num_samples - 9
    ∧ ∀ c ∈ valid_contrasts s.n t,
        0 < s.n 0 0 ∧ 0 < s.n 0 c.2 ∧ 0 < s.n c.1 0 ∧ 0 < s.n c.1 c.2 := by
  have hN := retained_total_ge s t (by linarith) hvalid
  rw [moments_num_samples]
  refine ⟨hN, by linarith, by linarith, ?_⟩
  intro c hc
  have hv := (List.mem_filter.mp hc).2
  simp only [contrast_valid, retained, Bool.and_eq_true, decide_eq_true_eq] at hv
  obtain ⟨⟨⟨r00, r0c⟩, rc0⟩, rcc⟩ := hv
  exact ⟨by linarith, by linarith, by linarith, by linarith⟩

/-- Witness of `pooled_divisor_pos`: the table with ten samples in each cell at
threshold 5. -/
theorem pooled_divisor_pos_witness :
    (3 : ℚ) ≤ 5 ∧ valid_contrasts flat_table.n 5 ≠ []
    ∧ 0 < (moments flat_table (5 : ℚ)).num_samples - 9 := by
  have hv : valid_contrasts flat_table.n 5 ≠ [] := by
    rw [valid_contrasts_flat_table]
    decide
  exact ⟨by norm_num, hv, (pooled_divisor_pos (5 : ℚ) flat_table (by norm_num) hv).2.2.1⟩

end Divisors

/-! ## Theorems: the `converged` flag of `irls` -/

section IrlsConverged

variable {K : Type} [LinearOrderedField K] {n p : Nat}

lemma irls_finish_converged_cases (ext : irls_library K n p) (X : Matrix (Fin n) (Fin p) K)
    (y : Fin n → K) (missing : Fin n → Nat) (model : glm_model K n) (st : irls_state K n p)
    (output : glm_info K) :
    ((irls_finish ext X y missing model st output).converged = true
      ∧ (irls_finish ext X y missing model st output).success = true
      ∧ (irls_finish ext X y missing model st output).num_iters = st.num_iter
      ∧ st.num_iter < IRLS_MAX_ITERS)
    ∨ ((irls_finish ext X y missing model st output).converged = output.converged
      ∧ (irls_finish ext X y missing model st output).success = false
      ∧ (irls_finish ext X y missing model st output).num_iters = output.num_iters
      ∧ st.num_iter < IRLS_MAX_ITERS)
    ∨ ((irls_finish ext X y missing model st output).converged = false
      ∧ (irls_finish ext X y missing model st output).success = false
      ∧ (irls_finish ext X y missing model st output).num_iters = st.num_iter
      ∧ ¬ (st.num_iter < IRLS_MAX_ITERS ∧ st.invalid_mu = false
            ∧ st.inverse_fail = false)) := by
  unfold irls_finish
  by_cases h1 : st.num_iter < IRLS_MAX_ITERS ∧ st.invalid_mu = false ∧ st.inverse_fail = false
  · rw [if_pos h1]
    dsimp only
    by_cases h2 : ext.is_finite (information X st.w) = true
    · rw [if_pos h2]
      cases hC : inv (information X st.w) with
      | none => exact Or.inr (Or.inl ⟨rfl, rfl, rfl, h1.1⟩)
      | some C => exact Or.inl ⟨rfl, rfl, rfl, h1.1⟩
    · rw [if_neg h2]
      exact Or.inr (Or.inl ⟨rfl, rfl, rfl, h1.1⟩)
  · rw [if_neg h1]
    exact Or.inr (Or.inr ⟨rfl, rfl, rfl, h1⟩)

/-- C27 (as amended): when `output.converged` is false at the call, `irls` reports
`converged = true` only together with `success = true` and `num_iters < 25`; and a fit
whose loop is left with 25 completed iterations is reported with `converged = false`,
whatever the log-likelihood did in the 25th. -/
theorem irls_converged_bound (ext : irls_library K n p) (X : Matrix (Fin n) (Fin p) K)
    (y : Fin n → K) (missing : Fin n → Nat) (model : glm_model K n) (output : glm_info K)
    (fast : Bool) (res : irls_result K)
    (hres : irls ext X y missing model output fast = some res)
    (hout : output.converged = false) :
    (res.output.converged = true →
      res.output.success = true ∧ res.output.num_iters < IRLS_MAX_ITERS)
    ∧ (∀ b0 : Fin p → K, init_beta ext X y missing model false = some b0 →
        (irls_final ext X y missing model fast b0).num_iter = IRLS_MAX_ITERS →
        res.output.converged = false) := by
  unfold irls at hres
  dsimp only at hres
  split at hres
  · exact absurd hres (by simp)
  · rename_i b0 hstart
    have hres' := Option.some.inj hres
    subst hres'
    dsimp only
    constructor
    · intro hc
      rcases irls_finish_converged_cases ext X y missing model
        (irls_final ext X y missing model fast b0) output with h | h | h
      · exact ⟨h.2.1, by rw [h.2.2.1]; exact h.2.2.2⟩
      · rw [h.1, hout] at hc
        exact absurd hc (by simp)
      · rw [h.1] at hc
        exact absurd hc (by simp)
    · intro b1 hb1 h25
      rw [hb1] at hstart
      have hb : b1 = b0 := Option.some.inj hstart
      subst hb
      rcases irls_finish_converged_cases ext X y missing model
        (irls_final ext X y missing model fast b1) output with h | h | h
      · exact absurd h.2.2.2 (by rw [h25]; exact lt_irrefl _)
      · exact absurd h.2.2.2 (by rw [h25]; exact lt_irrefl _)
      · exact h.1

/-- Witness of `irls_converged_bound`: the one-sample fit, started with a blank `output`,
converges after one iteration. -/
theorem irls_converged_bound_witness :
    ∃ res : irls_result ℚ,
      irls (unit_library (fun x => x)) unit_X (fun _ => 1) (fun _ => 0) (unit_model true)
        blank_output false = some res
      ∧ blank_output.converged = false ∧ res.output.converged = true
      ∧ res.output.success = true ∧ res.output.num_iters < IRLS_MAX_ITERS := by
  obtain ⟨res, hres, _, hc, _⟩ := unit_irls_valid (fun x => x) false
  have h := (irls_converged_bound (unit_library (fun x => x)) unit_X (fun _ => 1)
    (fun _ => 0) (unit_model true) blank_output false res hres rfl).1 hc
  exact ⟨res, hres, rfl, hc, h.1, h.2⟩

lemma zero_init (sq : ℚ → ℚ) :
    init_beta (unit_library sq) zero_X (fun _ => 1) (fun _ => 0) (unit_model true) false
      = some (fun _ => 1) := by
  simp [init_beta, weighted_least_squares, unit_library]

lemma zero_cond_init (sq : ℚ → ℚ) :
    irls_cond (irls_init_state (unit_library sq) zero_X (fun _ => 1) (fun _ => 0)
      (unit_model true) (fun _ => 1)) = true := by
  simp only [irls_cond, irls_init_state, unit_library, unit_model, IRLS_MAX_ITERS,
    IRLS_TOLERANCE]
  norm_num

lemma zero_body (sq : ℚ → ℚ) (fast : Bool) :
    (irls_body (unit_library sq) zero_X (fun _ => 1) (fun _ => 0) (unit_model true) fast
      (irls_init_state (unit_library sq) zero_X (fun _ => 1) (fun _ => 0) (unit_model true)
        (fun _ => 1)))
      = { b := fun _ => 1, w := fun _ => 1, z := fun _ => 1, eta := fun _ => 0
          mu := fun _ => 0, mu_eta := fun _ => 1, num_iter := 1, old_logl := 0, logl := 0
          invalid_mu := false, inverse_fail := false, b_old := fun _ => 1
          first_attempt := true, body_runs := 1, damped_steps := 0 } := by
  have hX : zero_X.mulVec (fun _ => (1 : ℚ)) = fun _ => 0 := by
    funext i
    simp [Matrix.mulVec, Matrix.dotProduct, zero_X]
  have hw : set_missing_to_zero (fun _ : Fin 1 => 0)
      (compute_w (fun _ : Fin 1 => (1 : ℚ)) (fun _ => 1)) = fun _ => 1 := by
    funext i
    simp [set_missing_to_zero, compute_w]
  have hz : compute_z (fun _ : Fin 1 => (0 : ℚ)) (fun _ => 0) (fun _ => 1) (fun _ => 1)
      = fun _ => 1 := by
    funext i
    simp [compute_z]
  cases fast <;>
    simp [irls_body, irls_compute_eta, weighted_least_squares, unit_library, unit_model,
      irls_init_state, hX, hw, hz]

lemma zero_final (sq : ℚ → ℚ) (fast : Bool) :
    irls_final (unit_library sq) zero_X (fun _ => 1) (fun _ => 0) (unit_model true) fast
        (fun _ => 1)
      = { b := fun _ => 1, w := fun _ => 1, z := fun _ => 1, eta := fun _ => 0
          mu := fun _ => 0, mu_eta := fun _ => 1, num_iter := 1, old_logl := 0, logl := 0
          invalid_mu := false, inverse_fail := false, b_old := fun _ => 1
          first_attempt := true, body_runs := 1, damped_steps := 0 } := by
  unfold irls_final
  rw [show IRLS_MAX_ITERS = 24 + 1 from rfl,
    irls_loop_step _ _ _ _ _ _ _ _ (zero_cond_init sq)
      (by rw [zero_body]) (by rw [zero_body]),
    zero_body, irls_loop_exit]
  simp only [irls_cond, IRLS_MAX_ITERS, IRLS_TOLERANCE]
  norm_num

lemma zero_information : (information zero_X (fun _ => (1 : ℚ))).det = 0 := by
  have h : information zero_X (fun _ => (1 : ℚ)) = 0 := by
    ext i j
    simp [information, Matrix.mul_apply, zero_X]
  rw [h]
  simp

/-- C27 as stated fails: with the design matrix `[[0]]` the loop is left after one
iteration with no failure flag, the information matrix `[[0]]` is singular, and line 181
clears `success` only; an `output` object that held `converged = true` before the call
(left by an earlier fit) still holds it, next to `success = false`. -/
theorem irls_converged_without_success_counterexample :
    ∃ res : irls_result ℚ,
      irls (unit_library (fun x => x)) zero_X (fun _ => 1) (fun _ => 0) (unit_model true)
        stale_output false = some res
      ∧ res.output.converged = true ∧ res.output.success = false := by
  refine ⟨_, irls_eq _ _ _ _ _ _ _ _ (zero_init _), ?_⟩
  dsimp only
  rw [zero_final]
  unfold irls_finish
  dsimp only
  rw [if_pos ⟨by decide, rfl, rfl⟩,
    if_pos (show (unit_library fun x => x).is_finite (information zero_X fun _ => 1) = true
      from rfl),
    inv_eq_none _ zero_information]
  exact ⟨rfl, rfl⟩

end IrlsConverged

/-! ## Theorems: the overload of `irls` without a mask -/

section IrlsUnmasked

lemma zero_design (w : Fin 1 → ℚ) :
    (Matrix.diagonal (fun i => scalar_library.sqrt (w i)) * zero_X) 0 0 = 0 := by
  simp [Matrix.mul_apply, zero_X]

lemma zero_mulVec (b : Fin 1 → ℚ) : zero_X.mulVec b = fun _ => 0 := by
  funext i
  simp [Matrix.mulVec, Matrix.dotProduct, zero_X]

lemma scalar_wls (y w : Fin 1 → ℚ) (fast : Bool) :
    weighted_least_squares scalar_library zero_X y w fast
      = if fast then none else some (fun _ => 0) := by
  unfold weighted_least_squares
  dsimp only
  cases fast
  · show scalar_library.solve false _ _ = _
    show (if (Matrix.diagonal (fun i => scalar_library.sqrt (w i)) * zero_X) 0 0 = 0
      then (if false = true then none else some (fun _ => (0 : ℚ))) else _) = _
    rw [if_pos (zero_design w)]
  · show (if (Matrix.diagonal (fun i => scalar_library.sqrt (w i)) * zero_X) 0 0 = 0
      then (if true = true then none else some (fun _ => (0 : ℚ))) else _) = _
    rw [if_pos (zero_design w)]

lemma scalar_init :
    init_beta scalar_library zero_X (fun _ => 1) (fun _ => 0) (unit_model true) false
      = some (fun _ => 0) := by
  unfold init_beta
  dsimp only
  rw [scalar_wls]
  rfl

lemma scalar_cond_init :
    irls_cond (irls_init_state scalar_library zero_X (fun _ => 1) (fun _ => 0)
      (unit_model true) (fun _ => 0)) = true := by
  simp only [irls_cond, irls_init_state, scalar_library, unit_model, IRLS_MAX_ITERS,
    IRLS_TOLERANCE]
  norm_num

lemma scalar_body_plain :
    (irls_body scalar_library zero_X (fun _ => 1) (fun _ => 0) (unit_model true) false
      (irls_init_state scalar_library zero_X (fun _ => 1) (fun _ => 0) (unit_model true)
        (fun _ => 0)))
      = { b := fun _ => 0, w := fun _ => 1, z := fun _ => 1, eta := fun _ => 0
          mu := fun _ => 0, mu_eta := fun _ => 1, num_iter := 1, old_logl := 0, logl := 0
          invalid_mu := false, inverse_fail := false, b_old := fun _ => 0
          first_attempt := true, body_runs := 1, damped_steps := 0 } := by
  have hw : set_missing_to_zero (fun _ : Fin 1 => 0)
      (compute_w (fun _ : Fin 1 => (1 : ℚ)) (fun _ => 1)) = fun _ => 1 := by
    funext i
    simp [set_missing_to_zero, compute_w]
  have hz : compute_z (fun _ : Fin 1 => (0 : ℚ)) (fun _ => 0) (fun _ => 1) (fun _ => 1)
      = fun _ => 1 := by
    funext i
    simp [compute_z]
  unfold irls_body
  dsimp only
  rw [scalar_wls]
  simp [irls_compute_eta, unit_model, irls_init_state, zero_mulVec, hw, hz]

lemma scalar_body_fast :
    (irls_body scalar_library zero_X (fun _ => 1) (fun _ => 0) (unit_model true) true
      (irls_init_state scalar_library zero_X (fun _ => 1) (fun _ => 0) (unit_model true)
        (fun _ => 0))).inverse_fail = true := by
  unfold irls_body
  dsimp only
  rw [scalar_wls]
  rfl

/-- With the default solve mode the fit on the design `[[0]]` returns `b = [0]`. -/
lemma scalar_irls_plain (output : glm_info ℚ) :
    ∃ res : irls_result ℚ,
      irls scalar_library zero_X (fun _ => 1) (fun _ => 0) (unit_model true) output false
        = some res
      ∧ res.b = [0] := by
  have hfinal : irls_final scalar_library zero_X (fun _ => 1) (fun _ => 0) (unit_model true)
      false (fun _ => 0)
      = { b := fun _ => 0, w := fun _ => 1, z := fun _ => 1, eta := fun _ => 0
          mu := fun _ => 0, mu_eta := fun _ => 1, num_iter := 1, old_logl := 0, logl := 0
          invalid_mu := false, inverse_fail := false, b_old := fun _ => 0
          first_attempt := true, body_runs := 1, damped_steps := 0 } := by
    unfold irls_final
    rw [show IRLS_MAX_ITERS = 24 + 1 from rfl,
      irls_loop_step _ _ _ _ _ _ _ _ scalar_cond_init
        (by rw [scalar_body_plain]) (by rw [scalar_body_plain]),
      scalar_body_plain, irls_loop_exit]
    simp only [irls_cond, IRLS_MAX_ITERS, IRLS_TOLERANCE]
    norm_num
  refine ⟨_, irls_eq _ _ _ _ _ _ _ _ scalar_init, ?_⟩
  dsimp only
  rw [hfinal]
  simp

/-- With the fast solve mode the first solve in the loop fails on the design `[[0]]`, and
`irls` returns the empty vector. -/
lemma scalar_irls_fast (output : glm_info ℚ) :
    ∃ res : irls_result ℚ,
      irls scalar_library zero_X (fun _ => 1) (fun _ => 0) (unit_model true) output true
        = some res
      ∧ res.b = [] := by
  have hfinal : (irls_final scalar_library zero_X (fun _ => 1) (fun _ => 0)
      (unit_model true) true (fun _ => 0)).inverse_fail = true := by
    unfold irls_final
    rw [show IRLS_MAX_ITERS = 24 + 1 from rfl,
      irls_loop_break _ _ _ _ _ _ _ _ scalar_cond_init (Or.inl scalar_body_fast)]
    exact scalar_body_fast
  refine ⟨_, irls_eq _ _ _ _ _ _ _ _ scalar_init, ?_⟩
  dsimp only
  rw [hfinal]
  rfl

/-- C28, evaluation at a failing input: the overload without a mask does not pass its
`fast_inversion` on, so its result is that of the masked `irls` under the default solve
mode `d` of the declaration, whatever the caller chose.  On the rank-deficient design
`[[0]]` the two solve modes differ (the default mode returns the approximate solution 0,
the fast mode without approximation fails), and the overload called with the mode `!d`
returns other coefficients than the masked `irls` with an all-zero mask and the mode
`!d`: one returns `[0]`, the other the empty vector.  The initial solve of `init_beta`
runs in the default mode even when the caller chose the fast one.  On a non-singular
system the solver gives the solution in both modes. -/
theorem irls_unmasked_ignores_fast_inversion (d : Bool) :
    (∀ fast : Bool,
      irls_unmasked d scalar_library zero_X (fun _ => 1) (unit_model true) blank_output fast
        = irls scalar_library zero_X (fun _ => 1) (fun _ => 0) (unit_model true)
            blank_output d)
    ∧ irls_unmasked d scalar_library zero_X (fun _ => 1) (unit_model true) blank_output (!d)
        ≠ irls scalar_library zero_X (fun _ => 1) (fun _ => 0) (unit_model true)
            blank_output (!d)
    ∧ (∃ res : irls_result ℚ,
        irls scalar_library zero_X (fun _ => 1) (fun _ => 0) (unit_model true)
          blank_output true = some res ∧ res.b = [])
    ∧ (∃ res : irls_result ℚ,
        irls scalar_library zero_X (fun _ => 1) (fun _ => 0) (unit_model true)
          blank_output false = some res ∧ res.b = [0])
    ∧ init_beta scalar_library zero_X (fun _ => 1) (fun _ => 0) (unit_model true) false
        = some (fun _ => 0)
    ∧ (∀ f : Bool, ∃ b : Fin 1 → ℚ,
        scalar_library.solve f unit_X (fun _ => 1) = some b ∧ b 0 = 1) := by
  obtain ⟨r1, h1, hb1⟩ := scalar_irls_plain blank_output
  obtain ⟨r2, h2, hb2⟩ := scalar_irls_fast blank_output
  refine ⟨fun _ => rfl, ?_, ⟨r2, h2, hb2⟩, ⟨r1, h1, hb1⟩, scalar_init, ?_⟩
  · have hne : r1 ≠ r2 := by
      intro h
      rw [h, hb2] at hb1
      exact absurd hb1 (by simp)
    cases d
    · show irls scalar_library zero_X (fun _ => 1) (fun _ => 0) (unit_model true)
        blank_output false ≠ irls scalar_library zero_X (fun _ => 1) (fun _ => 0)
          (unit_model true) blank_output true
      rw [h1, h2]
      exact fun h => hne (Option.some.inj h)
    · show irls scalar_library zero_X (fun _ => 1) (fun _ => 0) (unit_model true)
        blank_output true ≠ irls scalar_library zero_X (fun _ => 1) (fun _ => 0)
          (unit_model true) blank_output false
      rw [h1, h2]
      exact fun h => hne (Option.some.inj h.symm)
  · intro f
    refine ⟨fun _ => 1, ?_, rfl⟩
    simp [scalar_library, unit_X]

end IrlsUnmasked

/-! ## Theorems: the order of the residual sums of the nested models in exact arithmetic -/

section RssOrder

variable {K : Type} [LinearOrderedField K]

/-- The sum of the squared deviations of the entries of a list from `a`. -/
lemma list_sq_dev_nonneg (l : List K) (a : K) :
    0 ≤ (l.length : K) * a ^ 2 - 2 * a * l.sum + (l.map (fun y => y * y)).sum := by
  induction l with
  | nil => simp
  | cons y l ih =>
    simp only [List.length_cons, List.sum_cons, List.map_cons, Nat.cast_add, Nat.cast_one]
    nlinarith [sq_nonneg (a - y)]

lemma category_rss_samples_nonneg (l : List K) :
    0 ≤ category_rss l.sum (l.length : K) (l.map (fun y => y * y)).sum := by
  have h := list_sq_dev_nonneg l (l.sum / (l.length : K))
  unfold category_rss
  linarith

lemma category_rss_eq (s1 n s2 : K) (hn : n ≠ 0) : category_rss s1 n s2 = s2 - s1 ^ 2 / n := by
  unfold category_rss
  field_simp
  ring

/-- Merging three categories with positive counts does not lower the residual. -/
lemma category_rss_merge (a b c x y z u v w : K) (hx : 0 < x) (hy : 0 < y) (hz : 0 < z) :
    category_rss a x u + category_rss b y v + category_rss c z w
      ≤ category_rss (a + b + c) (x + y + z) (u + v + w) := by
  rw [category_rss_eq a x u hx.ne', category_rss_eq b y v hy.ne', category_rss_eq c z w hz.ne',
    category_rss_eq _ _ _ (by positivity : x + y + z ≠ 0)]
  have h := Finset.sq_sum_div_le_sum_sq_div (Finset.univ : Finset (Fin 3)) ![a, b, c]
    (g := ![x, y, z]) (by
      intro i _
      fin_cases i
      · exact hx
      · exact hy
      · exact hz)
  simp only [Fin.sum_univ_three, Matrix.cons_val_zero, Matrix.cons_val_one, Matrix.head_cons,
    Matrix.cons_val_two, Matrix.tail_cons] at h
  linarith

lemma lm_full_rss_le_single (m_is_first : Bool) (count : Fin 9 → Fin 3 → K)
    (hpos : ∀ c, 0 < count c 1) :
    lm_full.rss count ≤ single.rss m_is_first count := by
  unfold lm_full.rss single.rss
  rw [sum_fin_nine, Fin.sum_univ_three]
  cases m_is_first
  · have h0 := category_rss_merge (count 0 0) (count 3 0) (count 6 0) (count 0 1) (count 3 1)
      (count 6 1) (count 0 2) (count 3 2) (count 6 2) (hpos 0) (hpos 3) (hpos 6)
    have h1 := category_rss_merge (count 1 0) (count 4 0) (count 7 0) (count 1 1) (count 4 1)
      (count 7 1) (count 1 2) (count 4 2) (count 7 2) (hpos 1) (hpos 4) (hpos 7)
    have h2 := category_rss_merge (count 2 0) (count 5 0) (count 8 0) (count 2 1) (count 5 1)
      (count 8 1) (count 2 2) (count 5 2) (count 8 2) (hpos 2) (hpos 5) (hpos 8)
    show _ ≤ category_rss (count 0 0 + count 3 0 + count 6 0)
          (count 0 1 + count 3 1 + count 6 1) (count 0 2 + count 3 2 + count 6 2)
        + category_rss (count 1 0 + count 4 0 + count 7 0)
          (count 1 1 + count 4 1 + count 7 1) (count 1 2 + count 4 2 + count 7 2)
        + category_rss (count 2 0 + count 5 0 + count 8 0)
          (count 2 1 + count 5 1 + count 8 1) (count 2 2 + count 5 2 + count 8 2)
    linarith
  · have h0 := category_rss_merge (count 0 0) (count 1 0) (count 2 0) (count 0 1) (count 1 1)
      (count 2 1) (count 0 2) (count 1 2) (count 2 2) (hpos 0) (hpos 1) (hpos 2)
    have h1 := category_rss_merge (count 3 0) (count 4 0) (count 5 0) (count 3 1) (count 4 1)
      (count 5 1) (count 3 2) (count 4 2) (count 5 2) (hpos 3) (hpos 4) (hpos 5)
    have h2 := category_rss_merge (count 6 0) (count 7 0) (count 8 0) (count 6 1) (count 7 1)
      (count 8 1) (count 6 2) (count 7 2) (count 8 2) (hpos 6) (hpos 7) (hpos 8)
    show _ ≤ category_rss (count 0 0 + count 1 0 + count 2 0)
          (count 0 1 + count 1 1 + count 2 1) (count 0 2 + count 1 2 + count 2 2)
        + category_rss (count 3 0 + count 4 0 + count 5 0)
          (count 3 1 + count 4 1 + count 5 1) (count 3 2 + count 4 2 + count 5 2)
        + category_rss (count 6 0 + count 7 0 + count 8 0)
          (count 6 1 + count 7 1 + count 8 1) (count 6 2 + count 7 2 + count 8 2)
    linarith

lemma snp_pheno_count_pos (m_is_first : Bool) (count : Fin 9 → Fin 3 → K)
    (hpos : ∀ c, 0 < count c 1) (i : Fin 3) : 0 < single.snp_pheno m_is_first count i 1 := by
  unfold single.snp_pheno
  cases m_is_first
  · simp only [Bool.false_eq_true, if_false]
    have h1 := hpos ⟨3 * 0 + i.val, by omega⟩
    have h2 := hpos ⟨3 * 1 + i.val, by omega⟩
    have h3 := hpos ⟨3 * 2 + i.val, by omega⟩
    linarith
  · simp only [if_true]
    have h1 := hpos ⟨3 * i.val, by omega⟩
    have h2 := hpos ⟨3 * i.val + 1, by omega⟩
    have h3 := hpos ⟨3 * i.val + 2, by omega⟩
    linarith

lemma single_rss_le_intercept (m_is_first : Bool) (count : Fin 9 → Fin 3 → K)
    (hpos : ∀ c, 0 < count c 1) :
    single.rss m_is_first count ≤ intercept.rss count := by
  unfold single.rss intercept.rss
  rw [← snp_pheno_sum m_is_first count 0, ← snp_pheno_sum m_is_first count 1,
    ← snp_pheno_sum m_is_first count 2]
  simp only [Fin.sum_univ_three]
  exact category_rss_merge _ _ _ _ _ _ _ _ _ (snp_pheno_count_pos m_is_first count hpos 0)
    (snp_pheno_count_pos m_is_first count hpos 1) (snp_pheno_count_pos m_is_first count hpos 2)

/-- In exact arithmetic, for a count table built from samples with all nine cells
non-empty, the residual sums of the three models satisfy
`RSS_intercept ≥ RSS_single ≥ RSS_full ≥ 0`, for either value of the flag of the single
model. -/
lemma nested_rss_order_exact (samples : Fin 9 → List K) (m_is_first : Bool)
    (hne : ∀ c, samples c ≠ []) :
    single.rss m_is_first (count_of_samples samples)
        ≤ intercept.rss (count_of_samples samples)
    ∧ lm_full.rss (count_of_samples samples)
        ≤ single.rss m_is_first (count_of_samples samples)
    ∧ 0 ≤ lm_full.rss (count_of_samples samples) := by
  have hpos : ∀ c, 0 < count_of_samples samples c 1 := by
    intro c
    show (0 : K) < ((samples c).length : K)
    exact_mod_cast List.length_pos.mpr (hne c)
  refine ⟨single_rss_le_intercept m_is_first _ hpos, lm_full_rss_le_single m_is_first _ hpos,
    ?_⟩
  unfold lm_full.rss
  exact Finset.sum_nonneg (fun c _ => category_rss_samples_nonneg (samples c))

/-- An instance of `nested_rss_order_exact`: nine cells with two samples each. -/
lemma nested_rss_order_exact_example :
    (∀ c, stair_samples c ≠ [])
    ∧ single.rss true (count_of_samples stair_samples)
        ≤ intercept.rss (count_of_samples stair_samples)
    ∧ lm_full.rss (count_of_samples stair_samples)
        ≤ single.rss true (count_of_samples stair_samples)
    ∧ 0 ≤ lm_full.rss (count_of_samples stair_samples) :=
  ⟨fun c => by simp [stair_samples],
    nested_rss_order_exact stair_samples true (fun c => by simp [stair_samples])⟩

end RssOrder

/-! ## Theorems: the sign of the Wald statistic in exact arithmetic -/

section WaldSign

variable {K : Type} [LinearOrderedField K]

/-- The residual of a cell of an accumulated table is not negative. -/
lemma accumulate_resid_nonneg (row1 row2 m_missing : List Nat) (m_pheno : List K)
    (a b : Nat) (ha : a < 3) (hb : b < 3) :
    0 ≤ (accumulate row1 row2 m_missing m_pheno).suf2 a b
      - (accumulate row1 row2 m_missing m_pheno).suf a b
        * (accumulate row1 row2 m_missing m_pheno).suf a b
        / (accumulate row1 row2 m_missing m_pheno).n a b := by
  obtain ⟨hn, hs, hq⟩ := accumulate_upto_cell row1 row2 m_missing m_pheno a b (by omega)
    (by omega) row1.length
  unfold accumulate
  rw [hn, hs, hq]
  have hcs := sq_sum_le_card_mul_sum_sq
    (s := cell_samples row1 row2 m_missing a b row1.length)
    (f := fun i => m_pheno.getD i 0)
  have hq0 : 0 ≤ ∑ i in cell_samples row1 row2 m_missing a b row1.length,
      m_pheno.getD i 0 * m_pheno.getD i 0 :=
    Finset.sum_nonneg (fun i _ => mul_self_nonneg _)
  have hsq : ∑ i in cell_samples row1 row2 m_missing a b row1.length, m_pheno.getD i 0 ^ 2
      = ∑ i in cell_samples row1 row2 m_missing a b row1.length,
          m_pheno.getD i 0 * m_pheno.getD i 0 :=
    Finset.sum_congr rfl (fun i _ => pow_two _)
  rw [hsq] at hcs
  by_cases hc : ((cell_samples row1 row2 m_missing a b row1.length).card : K) = 0
  · rw [hc, div_zero, sub_zero]
    exact hq0
  · have hpos : (0 : K) < ((cell_samples row1 row2 m_missing a b row1.length).card : K) :=
      lt_of_le_of_ne (Nat.cast_nonneg _) (Ne.symm hc)
    rw [sub_nonneg, div_le_iff₀ hpos]
    nlinarith

lemma accumulate_n_nonneg (row1 row2 m_missing : List Nat) (m_pheno : List K)
    (a b : Nat) (ha : a < 3) (hb : b < 3) :
    0 ≤ (accumulate row1 row2 m_missing m_pheno).n a b := by
  obtain ⟨hn, _, _⟩ := accumulate_upto_cell row1 row2 m_missing m_pheno a b (by omega)
    (by omega) row1.length
  unfold accumulate
  rw [hn]
  exact Nat.cast_nonneg _

lemma run_sigma2_nonneg (t : K) (uv : Bool) (s : SufStats K)
    (hres : ∀ i j : Nat, i < 3 → j < 3 →
      0 ≤ s.suf2 i j - s.suf i j * s.suf i j / s.n i j)
    (hN : uv = false → 9 < (moments s t).num_samples)
    (i j : Nat) (hi : i < 3) (hj : j < 3) : 0 ≤ run_sigma2 t uv s i j := by
  cases uv
  · rw [run_sigma2_equal]
    have hN9 := hN rfl
    rw [moments_num_samples] at hN9
    apply div_nonneg
    · unfold retained_resid
      apply List.sum_nonneg
      intro x hx
      obtain ⟨c, hc, rfl⟩ := List.mem_map.mp hx
      have hcc := (List.mem_filter.mp hc).1
      have hlt : c.1 < 3 ∧ c.2 < 3 := by
        revert hcc
        simp only [cells, List.mem_cons, List.mem_singleton, List.not_mem_nil, or_false]
        rintro (h | h | h | h | h | h | h | h | h) <;> subst h <;> decide
      have h := hres c.1 c.2 hlt.1 hlt.2
      unfold cell_resid
      rw [pow_two]
      exact h
    · linarith
  · rw [run_sigma2_unequal s t i j hi hj]
    split_ifs with h9
    · apply div_nonneg
      · rw [moments_resid s t i j hi hj]
        split_ifs
        · exact le_refl _
        · exact hres i j hi hj
      · have h9' : 9 < s.n i j := h9
        linarith
    · exact le_refl _

/-- The quadratic form of a matrix whose entries are list sums of products
`u a cell * u b cell * wt cell` is the weighted sum of the squares of `Σ x a * u a cell`. -/
lemma quadratic_form_of_products {k : Nat} (l : List (Nat × Nat))
    (u : Fin k → Nat × Nat → K) (wt : Nat × Nat → K) (x : Fin k → K) :
    Matrix.dotProduct x (Matrix.mulVec
        (fun a b : Fin k => (l.map (fun cell => u a cell * u b cell * wt cell)).sum) x)
      = (l.map (fun cell => wt cell * (∑ a, x a * u a cell) ^ 2)).sum := by
  induction l with
  | nil => simp [Matrix.dotProduct, Matrix.mulVec]
  | cons c l ih =>
    simp only [List.map_cons, List.sum_cons]
    rw [← ih]
    simp only [Matrix.dotProduct, Matrix.mulVec, add_mul, Finset.sum_add_distrib, mul_add]
    congr 1
    rw [pow_two, Finset.sum_mul_sum, Finset.mul_sum]
    apply Finset.sum_congr rfl
    intro a _
    rw [Finset.mul_sum, Finset.mul_sum]
    apply Finset.sum_congr rfl
    intro b _
    ring

lemma run_C_eq_products (t : K) (uv : Bool) (s : SufStats K) :
    run_C t uv s
      = fun a b : Fin (run_contrasts t s).num_valid =>
          (cells.map (fun cell =>
            coef ((valid_contrasts s.n t).getD a.val (0, 0)) cell
              * coef ((valid_contrasts s.n t).getD b.val (0, 0)) cell
              * (run_sigma2 t uv s cell.1 cell.2 / s.n cell.1 cell.2))).sum := by
  funext a b
  rw [run_C_entry]
  unfold contrast_cov
  congr 1
  apply List.map_congr_left
  intro cell _
  rw [mul_div_assoc]

/-- The covariance matrix is positive semidefinite when the entries of `sigma2` and the
counts are not negative. -/
lemma run_C_quadratic_nonneg (t : K) (uv : Bool) (s : SufStats K)
    (hsg : ∀ i j : Nat, i < 3 → j < 3 → 0 ≤ run_sigma2 t uv s i j)
    (hn : ∀ i j : Nat, i < 3 → j < 3 → 0 ≤ s.n i j)
    (x : Fin (run_contrasts t s).num_valid → K) :
    0 ≤ Matrix.dotProduct x (Matrix.mulVec (run_C t uv s) x) := by
  rw [run_C_eq_products, quadratic_form_of_products]
  apply List.sum_nonneg
  intro y hy
  obtain ⟨c, hc, rfl⟩ := List.mem_map.mp hy
  have hlt : c.1 < 3 ∧ c.2 < 3 := by
    revert hc
    simp only [cells, List.mem_cons, List.mem_singleton, List.not_mem_nil, or_false]
    rintro (h | h | h | h | h | h | h | h | h) <;> subst h <;> decide
  exact mul_nonneg (div_nonneg (hsg c.1 c.2 hlt.1 hlt.2) (hn c.1 c.2 hlt.1 hlt.2))
    (sq_nonneg _)

lemma run_C_symm (t : K) (uv : Bool) (s : SufStats K) :
    (run_C t uv s).transpose = run_C t uv s := by
  ext a b
  rw [Matrix.transpose_apply, run_C_entry, run_C_entry]
  unfold contrast_cov
  congr 1
  apply List.map_congr_left
  intro cell _
  ring

/-- The statistic `betaᵗ C⁻¹ beta` of an invertible positive semidefinite `C`. -/
lemma wald_chi_nonneg {k : Nat} (C : Matrix (Fin k) (Fin k) K) (beta : Fin k → K)
    (hdet : C.det ≠ 0) (hpsd : ∀ x, 0 ≤ Matrix.dotProduct x (Matrix.mulVec C x)) :
    0 ≤ Matrix.dotProduct beta (Matrix.mulVec C⁻¹ beta) := by
  have h := hpsd (Matrix.mulVec C⁻¹ beta)
  rw [Matrix.mulVec_mulVec, Matrix.mul_nonsing_inv _ (isUnit_iff_ne_zero.mpr hdet),
    Matrix.one_mulVec, Matrix.dotProduct_comm] at h
  exact h

/-- The first element of `output` on the path of lines 158-163, whether or not the CDF
returns. -/
lemma run_table_output_zero (t : K) (cdf : K → Nat → Option K) (self : wald_lm_method K)
    (s : SufStats K) (output : List K) (hlen : 0 < output.length)
    (hk : 0 < (run_contrasts t s).num_valid)
    (hdet : (run_C t self.m_unequal_var s).det ≠ 0) :
    (wald_lm_method.run_table t cdf self s output).output.getD 0 0
      = Matrix.dotProduct (as_vec (run_contrasts t s).num_valid (run_beta t s))
          (Matrix.mulVec (run_C t self.m_unequal_var s)⁻¹
            (as_vec (run_contrasts t s).num_valid (run_beta t s))) := by
  unfold wald_lm_method.run_table
  rw [if_neg (by omega)]
  dsimp only
  rw [inv_eq_some _ hdet]
  dsimp only
  match output, hlen with
  | a :: rest, _ =>
    cases cdf (Matrix.dotProduct (as_vec (run_contrasts t s).num_valid (run_beta t s))
        (Matrix.mulVec (run_C t self.m_unequal_var s)⁻¹
          (as_vec (run_contrasts t s).num_valid (run_beta t s))))
        (run_contrasts t s).num_valid with
    | none => simp
    | some p =>
      cases rest with
      | nil => simp
      | cons b rest2 =>
        cases rest2 with
        | nil => simp
        | cons c rest3 => simp

/-- In exact arithmetic, for a table produced by the accumulation loop and a positive
threshold, every retained cell has a positive count and a residual
`suf2 - suf^2 / n ≥ 0`; the covariance matrix `m_C` is symmetric and positive
semidefinite in both variance modes (given `N > 9` in the equal-variance mode); hence
whenever a contrast is valid and `m_C` is invertible, the chi-square statistic written to
`output[0]` is not negative. -/
lemma wald_statistic_nonneg_exact (t : K) (cdf : K → Nat → Option K)
    (self : wald_lm_method K) (row1 row2 : List Nat) (output : List K) (ht : 0 < t)
    (hN : self.m_unequal_var = false →
      9 < (moments (accumulate row1 row2 self.m_missing self.m_pheno) t).num_samples) :
    (∀ c ∈ cells, retained (accumulate row1 row2 self.m_missing self.m_pheno).n t c = true →
      0 < (accumulate row1 row2 self.m_missing self.m_pheno).n c.1 c.2
      ∧ 0 ≤ (accumulate row1 row2 self.m_missing self.m_pheno).suf2 c.1 c.2
          - (accumulate row1 row2 self.m_missing self.m_pheno).suf c.1 c.2
            * (accumulate row1 row2 self.m_missing self.m_pheno).suf c.1 c.2
            / (accumulate row1 row2 self.m_missing self.m_pheno).n c.1 c.2)
    ∧ (run_C t self.m_unequal_var
        (accumulate row1 row2 self.m_missing self.m_pheno)).transpose
        = run_C t self.m_unequal_var (accumulate row1 row2 self.m_missing self.m_pheno)
    ∧ (∀ x, 0 ≤ Matrix.dotProduct x (Matrix.mulVec
        (run_C t self.m_unequal_var (accumulate row1 row2 self.m_missing self.m_pheno)) x))
    ∧ (valid_contrasts (accumulate row1 row2 self.m_missing self.m_pheno).n t ≠ [] →
        (run_C t self.m_unequal_var
          (accumulate row1 row2 self.m_missing self.m_pheno)).det ≠ 0 →
        0 < output.length →
        0 ≤ (wald_lm_method.run t cdf self row1 row2 output).output.getD 0 0) := by
  have hres := accumulate_resid_nonneg row1 row2 self.m_missing self.m_pheno
  have hn := accumulate_n_nonneg row1 row2 self.m_missing self.m_pheno
  have hsg := run_sigma2_nonneg t self.m_unequal_var
    (accumulate row1 row2 self.m_missing self.m_pheno) hres hN
  have hpsd := run_C_quadratic_nonneg t self.m_unequal_var
    (accumulate row1 row2 self.m_missing self.m_pheno) hsg hn
  refine ⟨?_, run_C_symm _ _ _, hpsd, ?_⟩
  · intro c hc hr
    have hlt : c.1 < 3 ∧ c.2 < 3 := by
      revert hc
      simp only [cells, List.mem_cons, List.mem_singleton, List.not_mem_nil, or_false]
      rintro (h | h | h | h | h | h | h | h | h) <;> subst h <;> decide
    simp only [retained, decide_eq_true_eq] at hr
    exact ⟨lt_of_lt_of_le ht hr, hres c.1 c.2 hlt.1 hlt.2⟩
  · intro hv hdet hlen
    have hk : 0 < (run_contrasts t
        (accumulate row1 row2 self.m_missing self.m_pheno)).num_valid := by
      rw [run_contrasts_num_valid]
      exact List.length_pos.mpr hv
    unfold wald_lm_method.run
    rw [run_table_output_zero t cdf self _ output hlen hk hdet]
    exact wald_chi_nonneg _ _ hdet hpsd

lemma quad_table :
    (accumulate quad_row1 quad_row2 quad_method.m_missing quad_method.m_pheno).n
      = (fun i j => if i < 2 ∧ j < 2 then 3 else 0)
    ∧ (accumulate quad_row1 quad_row2 quad_method.m_missing quad_method.m_pheno).suf
      = (fun i j => if i < 2 ∧ j < 2 then (if i = 1 ∧ j = 1 then 9 else 6) else 0)
    ∧ (accumulate quad_row1 quad_row2 quad_method.m_missing quad_method.m_pheno).suf2
      = (fun i j => if i < 2 ∧ j < 2 then (if i = 1 ∧ j = 1 then 29 else 14) else 0) := by
  refine ⟨?_, ?_, ?_⟩ <;>
  · funext i j
    simp only [accumulate, accumulate_upto, accumulate_step, quad_row1, quad_row2,
      quad_method, List.range, List.range.loop, List.foldl, List.getD_cons_zero,
      List.getD_cons_succ, List.length_cons, List.length_nil, add_at, zeros]
    rcases i with _ | _ | i <;> rcases j with _ | _ | j <;> norm_num [add_at, zeros] <;>
      rw [if_neg (by omega)]

lemma quad_valid_contrasts :
    valid_contrasts
      (accumulate quad_row1 quad_row2 quad_method.m_missing quad_method.m_pheno).n (3 : ℚ)
      = [(1, 1)] := by
  rw [quad_table.1]
  simp [valid_contrasts, contrast_list, contrast_valid, retained, List.filter_cons,
    -Prod.mk_one_one, -Prod.mk_zero_zero]

lemma quad_totals :
    retained_resid
        (accumulate quad_row1 quad_row2 quad_method.m_missing quad_method.m_pheno) (3 : ℚ) = 8
    ∧ retained_total
        (accumulate quad_row1 quad_row2 quad_method.m_missing quad_method.m_pheno) (3 : ℚ)
      = 12 := by
  obtain ⟨hn, hs, hq⟩ := quad_table
  constructor
  · norm_num [retained_resid, cells, List.filter_cons, retained, hn]
    norm_num [cell_resid, hn, hs, hq]
  · simp only [retained_total, cells, List.filter_cons, List.filter_nil, retained, hn]
    norm_num

lemma quad_det :
    (run_C 3 false
      (accumulate quad_row1 quad_row2 quad_method.m_missing quad_method.m_pheno)).det
      = 32 / 9 := by
  have hk : (run_contrasts (3 : ℚ)
      (accumulate quad_row1 quad_row2 quad_method.m_missing quad_method.m_pheno)).num_valid
      = 1 := by
    rw [run_contrasts_num_valid, quad_valid_contrasts]; rfl
  rw [det_of_dim_one hk, run_C_entry, quad_valid_contrasts]
  simp only [contrast_cov, cells, coef, run_sigma2_equal, quad_totals.1, quad_totals.2,
    quad_table.1, List.map_cons, List.map_nil, List.sum_cons, List.sum_nil,
    List.getD_cons_zero]
  norm_num

/-- An instance of `wald_statistic_nonneg_exact`: twelve samples, three in each of four
cells, at threshold 3 in the equal-variance mode: `N = 12`, one valid contrast, `m_C = (32/9)`. -/
lemma wald_statistic_nonneg_exact_example :
    (0 : ℚ) < 3
    ∧ (quad_method.m_unequal_var = false →
        9 < (moments (accumulate quad_row1 quad_row2 quad_method.m_missing
          quad_method.m_pheno) (3 : ℚ)).num_samples)
    ∧ 0 ≤ (wald_lm_method.run 3 (fun _ _ => some 0) quad_method quad_row1 quad_row2
        [-9, -9, -9]).output.getD 0 0 := by
  have hN : quad_method.m_unequal_var = false →
      9 < (moments (accumulate quad_row1 quad_row2 quad_method.m_missing
        quad_method.m_pheno) (3 : ℚ)).num_samples := by
    intro _
    rw [moments_num_samples, quad_totals.2]
    norm_num
  refine ⟨by norm_num, hN, ?_⟩
  refine (wald_statistic_nonneg_exact (3 : ℚ) (fun _ _ => some 0) quad_method quad_row1
    quad_row2 [-9, -9, -9] (by norm_num) hN).2.2.2 ?_ ?_ (by decide)
  · rw [quad_valid_contrasts]
    decide
  · show (run_C 3 false
      (accumulate quad_row1 quad_row2 quad_method.m_missing quad_method.m_pheno)).det ≠ 0
    rw [quad_det]
    norm_num

end WaldSign

/-! ## Theorems: binary64 rounding and the rounded embedding -/

section Rounded

variable {K : Type} [LinearOrderedField K]

/-- Values of `binary64`: numbers with a short binary expansion are kept, `1/10` goes to
the double `0x3FB999999999999A`, and a tie goes to the even neighbour. -/
lemma binary64_values :
    binary64 0 = 0 ∧ binary64 1 = 1 ∧ binary64 (-3 / 8) = -3 / 8
    ∧ binary64 (1 / 10) = 3602879701896397 / 2 ^ 55
    ∧ binary64 (2 ^ 53 + 1) = 2 ^ 53 ∧ binary64 (2 ^ 53 + 3) = 2 ^ 53 + 4
    ∧ binary64 (7 / 10) = 3152519739159347 / 2 ^ 52
    ∧ binary64 (13 / 10) = 5854679515581645 / 2 ^ 52 := by
  decide!

/-- Without rounding the rounded accumulation loop is `accumulate`. -/
lemma accumulate_fl_id (row1 row2 m_missing : List Nat) (m_pheno : List K) :
    accumulate_fl (fun x => x) row1 row2 m_missing m_pheno
      = accumulate row1 row2 m_missing m_pheno := rfl

/-- Without rounding the rounded residual loop is `moments`. -/
lemma moments_fl_id (s : SufStats K) (t : K) : moments_fl (fun x => x) s t = moments s t :=
  rfl

/-- A left fold of additions from zero is the sum of the list. -/
lemma foldl_add_eq_sum (l : List K) : l.foldl (fun acc x => acc + x) 0 = l.sum := by
  have h : ∀ (l : List K) (a : K), l.foldl (fun acc x => acc + x) a = a + l.sum := by
    intro l
    induction l with
    | nil => intro a; simp
    | cons x xs ih => intro a; simp [List.foldl, ih, add_assoc]
  simpa using h l 0

/-- Without rounding `accu_fl` is `accu`. -/
lemma accu_fl_id (m : Nat → Nat → K) : accu_fl (fun x => x) m = accu m := by
  unfold accu_fl accu
  exact foldl_add_eq_sum _

/-- Without rounding the rounded variance matrix is `sigma2`. -/
lemma sigma2_fl_id (s : SufStats K) (mo : Moments K) (uv : Bool) :
    sigma2_fl (fun x => x) s mo uv = sigma2 s mo uv := by
  unfold sigma2_fl sigma2
  rw [accu_fl_id]
  rfl

/-- Without rounding the rounded contrast loop is `find_contrasts`. -/
lemma find_contrasts_fl_id (n : Nat → Nat → K) (t : K) (mu : Nat → Nat → K) :
    find_contrasts_fl (fun x => x) n t mu = find_contrasts n t mu := rfl

/-- Without rounding the rounded covariance entry is `cov_entry`. -/
lemma cov_entry_fl_id (n sg : Nat → Nat → K) (i j : Nat) :
    cov_entry_fl (fun x => x) n sg i j = cov_entry n sg i j := rfl

/-- Without rounding `sum_fl` is the sum over the index set. -/
lemma sum_fl_id {m : Nat} (v : Fin m → K) : sum_fl (fun x => x) v = ∑ c, v c := by
  unfold sum_fl
  rw [foldl_add_eq_sum, List.sum_ofFn]

/-- Without rounding the rounded count table is `count_of_samples`. -/
lemma count_of_samples_fl_id (samples : Fin 9 → List K) :
    count_of_samples_fl (fun x => x) samples = count_of_samples samples := by
  funext c col
  have h1 : ∀ (l : List K) (a : K),
      l.foldl (fun acc _ => acc + 1) a = a + (l.length : K) := by
    intro l
    induction l with
    | nil => intro a; simp
    | cons x xs ih => intro a; simp [List.foldl, ih]; ring
  have h2 : ∀ (l : List K) (a : K),
      l.foldl (fun acc y => acc + y * y) a = a + (l.map (fun y => y * y)).sum := by
    intro l
    induction l with
    | nil => intro a; simp
    | cons x xs ih => intro a; simp [List.foldl, ih, add_assoc]
  unfold count_of_samples_fl count_of_samples
  split_ifs
  · exact foldl_add_eq_sum _
  · simpa using h1 (samples c) 0
  · simpa using h2 (samples c) 0

/-- The value `sum( residual )` that `lm_full::prob` uses is `lm_full.sum_residual_fl`
without rounding: `lm_full.prob` is the shared formula at that sum. -/
lemma lm_full_prob_of_sum_residual (log : K → K) (pi : K) {m : Nat}
    (count : Fin m → Fin 3 → K) :
    lm_full.prob log pi count = log_double.from_log
      (-((∑ c, count c 1) / 2) * log (2 * pi)
        - ((∑ c, count c 1) / 2)
          * log (lm_full.sum_residual_fl (fun x => x) count / ((∑ c, count c 1) - 9))
        - 1 / (2 * (lm_full.sum_residual_fl (fun x => x) count / ((∑ c, count c 1) - 9)))
          * lm_full.sum_residual_fl (fun x => x) count) := by
  unfold lm_full.sum_residual_fl
  rw [sum_fl_id]
  rfl

/-- The same for `single::prob` and `single.sum_residual_fl`. -/
lemma single_prob_of_sum_residual (log : K → K) (pi : K) (m_is_first : Bool)
    (count : Fin 9 → Fin 3 → K) :
    single.prob log pi m_is_first count = log_double.from_log
      (-((∑ c, single.snp_pheno m_is_first count c 1) / 2) * log (2 * pi)
        - ((∑ c, single.snp_pheno m_is_first count c 1) / 2)
          * log (single.sum_residual_fl (fun x => x) m_is_first count
            / ((∑ c, single.snp_pheno m_is_first count c 1) - 3))
        - 1 / (2 * (single.sum_residual_fl (fun x => x) m_is_first count
            / ((∑ c, single.snp_pheno m_is_first count c 1) - 3)))
          * single.sum_residual_fl (fun x => x) m_is_first count) := by
  unfold single.sum_residual_fl
  rw [sum_fl_id]
  rfl

/-- The residual loop reads the threshold only in the comparisons with the cell
counts. -/
lemma moments_fl_congr (rnd : K → K) (s : SufStats K) (t u : K)
    (h : ∀ c ∈ cells, (s.n c.1 c.2 < t ↔ s.n c.1 c.2 < u)) :
    moments_fl rnd s t = moments_fl rnd s u := by
  unfold moments_fl
  apply List.foldl_ext
  intro st c hc
  unfold moments_step_fl
  simp only [h c hc]

/-- The contrast loop reads the threshold only in the comparisons with the cell
counts. -/
lemma find_contrasts_fl_congr (rnd : K → K) (n : Nat → Nat → K) (t u : K)
    (mu : Nat → Nat → K) (h : ∀ c ∈ cells, (n c.1 c.2 ≥ t ↔ n c.1 c.2 ≥ u)) :
    find_contrasts_fl rnd n t mu = find_contrasts_fl rnd n u mu := by
  unfold find_contrasts_fl
  apply List.foldl_ext
  intro st i hi
  have h00 := h (0, 0) (by simp [cells])
  have h01 := h (0, 1) (by simp [cells])
  have h02 := h (0, 2) (by simp [cells])
  have h10 := h (1, 0) (by simp [cells])
  have h11 := h (1, 1) (by simp [cells])
  have h12 := h (1, 2) (by simp [cells])
  have h20 := h (2, 0) (by simp [cells])
  have h21 := h (2, 1) (by simp [cells])
  have h22 := h (2, 2) (by simp [cells])
  simp only at h00 h01 h02 h10 h11 h12 h20 h21 h22
  have hi4 : i < 4 := List.mem_range.mp hi
  unfold contrast_step_fl
  interval_cases i <;>
    simp only [i_map, j_map, List.getD_cons_zero, List.getD_cons_succ, h00, h01, h02, h10,
      h11, h12, h20, h21, h22]

/-- From the table on, the rounded run reads the threshold only in the comparisons with
the cell counts. -/
lemma run_table_fl_congr (rnd : K → K) (t u : K) (uv : Bool) (s : SufStats K)
    (h : ∀ c ∈ cells, (s.n c.1 c.2 < t ↔ s.n c.1 c.2 < u)) :
    wald_lm_method.run_table_fl rnd t uv s = wald_lm_method.run_table_fl rnd u uv s := by
  have h2 : ∀ c ∈ cells, (s.n c.1 c.2 ≥ t ↔ s.n c.1 c.2 ≥ u) := by
    intro c hc
    have := h c hc
    constructor
    · intro h1; exact not_lt.mp (fun h3 => absurd (this.mpr h3) (not_lt.mpr h1))
    · intro h1; exact not_lt.mp (fun h3 => absurd (this.mp h3) (not_lt.mpr h1))
  simp only [wald_lm_method.run_table_fl, moments_fl_congr rnd s t u h,
    find_contrasts_fl_congr rnd s.n t u _ h2]

end Rounded

/-! ## Theorems: the residual sums of the nested models in binary64 arithmetic -/

section RoundedNested

/-- C24: the ordering `RSS_single ≥ RSS_full ≥ 0` fails in binary64 arithmetic.  For
nine cells of ten samples each, every phenotype the double nearest to 1.3, the count
table holds the sum `13 + 2^-49`, the count 10 and the sum of squares
`2378463553205043 / 2^47` in every row; every entry of the vector `residual` of
`lm_full::prob` is `-2^-48`, so `sum( residual )` is `-9 * 2^-48` and `sigma_square` is
negative, and `sum( residual )` of `single::prob` is `-18 * 2^-48`, below that of
`lm_full::prob`, for both values of the flag.  Every multiple `k * 2^-48` with `k ≤ 18`
is a double, so the sums are exact in whatever order they are taken, and already the
exact value of `s2 - s1^2 / n` on the rows of the table is negative. -/
theorem nested_residual_sums_negative :
    (∀ c, ∀ y ∈ cancel_samples c, binary64 y = y)
    ∧ (∀ c, cancel_count c 0 = 13 + 1 / 2 ^ 49 ∧ cancel_count c 1 = 10
        ∧ cancel_count c 2 = 2378463553205043 / 2 ^ 47)
    ∧ (∀ c, lm_full.residual_fl binary64 cancel_count c = -1 / 2 ^ 48)
    ∧ lm_full.sum_residual_fl binary64 cancel_count = -9 / 2 ^ 48
    ∧ lm_full.sigma_square_fl binary64 cancel_count < 0
    ∧ (∀ f, single.sum_residual_fl binary64 f cancel_count = -18 / 2 ^ 48)
    ∧ (∀ f, single.sum_residual_fl binary64 f cancel_count
        < lm_full.sum_residual_fl binary64 cancel_count)
    ∧ (∀ k : Fin 19, binary64 (-(k.val : ℚ) / 2 ^ 48) = -(k.val : ℚ) / 2 ^ 48)
    ∧ (∀ c, category_rss (cancel_count c 0) (cancel_count c 1) (cancel_count c 2) < 0) := by
  decide!

end RoundedNested

/-! ## Theorems: the Wald statistic in binary64 arithmetic -/

section RoundedWald

/-- Every cell of `cancel_table` holds no sample or ten samples. -/
lemma cancel_table_counts :
    ∀ c ∈ cells, cancel_table.n c.1 c.2 = 0 ∨ cancel_table.n c.1 c.2 = 10 := by
  decide!

/-- For a threshold between 0 and 10 the cells of `cancel_table` are retained or skipped
as for the threshold 10. -/
lemma cancel_table_threshold (t : ℚ) (h0 : 0 < t) (h10 : t ≤ 10) :
    ∀ c ∈ cells, (cancel_table.n c.1 c.2 < t ↔ cancel_table.n c.1 c.2 < 10) := by
  intro c hc
  rcases cancel_table_counts c hc with h | h <;> rw [h] <;> constructor <;> intro h1 <;>
    linarith

/-- The rounded run on `cancel_table` at the threshold 10, evaluated. -/
lemma cancel_table_run :
    (∀ y ∈ cancel_pheno, binary64 y = y)
    ∧ (cancel_table.n 0 0 = 10 ∧ cancel_table.suf 0 0 = 7 + 1 / 2 ^ 50
        ∧ cancel_table.suf2 0 0 = 5516909543528857 / 2 ^ 50)
    ∧ (moments_fl binary64 cancel_table 10).resid 0 0 = -1 / 2 ^ 49
    ∧ cancel_table.suf2 0 0 - cancel_table.suf 0 0 ^ 2 / cancel_table.n 0 0 < 0
    ∧ (∀ uv, (wald_lm_method.run_table_fl binary64 10 uv cancel_table).valid = [0]
        ∧ (wald_lm_method.run_table_fl binary64 10 uv cancel_table).m_beta
          = [5404319552844597 / 2 ^ 53])
    ∧ (wald_lm_method.run_table_fl binary64 10 true cancel_table).m_C 0 0
        = -6305039478318695 / 2 ^ 102
    ∧ (wald_lm_method.run_table_fl binary64 10 true cancel_table).chi
        = some (-4632273902438227 / 16)
    ∧ (wald_lm_method.run_table_fl binary64 10 false cancel_table).m_C 0 0
        = -6508427848587039 / 2 ^ 105
    ∧ (wald_lm_method.run_table_fl binary64 10 false cancel_table).chi
        = some (-8975030685974067 / 4) := by
  decide!

/-- C25: the residual of a retained cell, the covariance matrix and the Wald statistic
are negative in binary64 arithmetic.  Forty samples, ten in each of the cells (0,0),
(0,1), (1,0), (1,1), with the double nearest to 0.7 as phenotype in the first three cells
and the double nearest to 1.3 in the last, and a threshold in (0, 10]: the accumulated
cell (0,0) holds `n = 10`, `suf = 7 + 2^-50` and `suf2 = 5516909543528857 / 2^50`, its
residual is `-2^-49` (already the exact value of `suf2 - suf^2 / n` is negative), one
contrast is valid with `m_beta[0]` close to 0.6, and `m_C` is the negative 1 x 1 matrix
`-6305039478318695 / 2^102` (unequal variances) or `-6508427848587039 / 2^105` (equal
variances), so that the statistic `m_beta[0] * (1 / m_C(0,0) * m_beta[0])` is
`-4632273902438227 / 16` or `-8975030685974067 / 4`. -/
theorem wald_statistic_negative (t : ℚ) (h0 : 0 < t) (h10 : t ≤ 10) :
    (∀ y ∈ cancel_pheno, binary64 y = y)
    ∧ (cancel_table.n 0 0 ≥ t ∧ cancel_table.n 0 0 = 10 ∧ cancel_table.suf 0 0 = 7 + 1 / 2 ^ 50
        ∧ cancel_table.suf2 0 0 = 5516909543528857 / 2 ^ 50)
    ∧ (moments_fl binary64 cancel_table t).resid 0 0 = -1 / 2 ^ 49
    ∧ cancel_table.suf2 0 0 - cancel_table.suf 0 0 ^ 2 / cancel_table.n 0 0 < 0
    ∧ (∀ uv, (wald_lm_method.run_table_fl binary64 t uv cancel_table).valid = [0]
        ∧ (wald_lm_method.run_table_fl binary64 t uv cancel_table).m_beta
          = [5404319552844597 / 2 ^ 53])
    ∧ (wald_lm_method.run_table_fl binary64 t true cancel_table).m_C 0 0
        = -6305039478318695 / 2 ^ 102
    ∧ (wald_lm_method.run_table_fl binary64 t true cancel_table).chi
        = some (-4632273902438227 / 16)
    ∧ (wald_lm_method.run_table_fl binary64 t false cancel_table).m_C 0 0
        = -6508427848587039 / 2 ^ 105
    ∧ (wald_lm_method.run_table_fl binary64 t false cancel_table).chi
        = some (-8975030685974067 / 4) := by
  have hc := cancel_table_threshold t h0 h10
  obtain ⟨k1, ⟨k2, k3, k4⟩, k5, k6, k7, k8, k9, k10, k11⟩ := cancel_table_run
  rw [moments_fl_congr binary64 cancel_table t 10 hc]
  simp only [run_table_fl_congr binary64 t 10 _ cancel_table hc]
  exact ⟨k1, ⟨by rw [k2]; exact h10, k2, k3, k4⟩, k5, k6, k7, k8, k9, k10, k11⟩

/-- Witness of `wald_statistic_negative`: the threshold 10. -/
theorem wald_statistic_negative_witness :
    (0 : ℚ) < 10 ∧ (10 : ℚ) ≤ 10
    ∧ (moments_fl binary64 cancel_table 10).resid 0 0 = -1 / 2 ^ 49
    ∧ (wald_lm_method.run_table_fl binary64 10 true cancel_table).chi
        = some (-4632273902438227 / 16)
    ∧ (wald_lm_method.run_table_fl binary64 10 false cancel_table).chi
        = some (-8975030685974067 / 4) :=
  ⟨by norm_num, le_refl _,
    (wald_statistic_negative 10 (by norm_num) (le_refl _)).2.2.1,
    (wald_statistic_negative 10 (by norm_num) (le_refl _)).2.2.2.2.2.2.1,
    (wald_statistic_negative 10 (by norm_num) (le_refl _)).2.2.2.2.2.2.2.2⟩

end RoundedWald


/-! ## Theorems: the driver `run_method` -/

section Driver

variable {K : Type} [LinearOrderedField K] {M : Type}

lemma set_last_eq_take_append {α : Type} (l : List α) (k : Nat) (v : α)
    (h : l.length = k + 1) :
    l.set k v = l.take k ++ [v] := by
  induction l generalizing k with
  | nil => simp at h
  | cons a l ih =>
    cases k with
    | zero =>
      have hl : l = [] := List.length_eq_zero.mp (by simpa using h)
      subst hl
      rfl
    | succ k =>
      simp only [List.set_cons_succ, List.take_succ_cons, List.cons_append]
      rw [ih k (by simpa using h)]

/-- The condition under which line 29 does not `continue`. -/
lemma row_written_iff (threshold statistic : K) :
    ¬ (threshold ≠ -9 ∧ (statistic = -9 ∨ statistic > threshold))
      ↔ (threshold = -9 ∨ (statistic ≠ -9 ∧ statistic ≤ threshold)) := by
  constructor
  · intro h
    by_cases ht : threshold = -9
    · exact Or.inl ht
    · right
      constructor
      · intro hs
        exact h ⟨ht, Or.inl hs⟩
      · by_contra hgt
        exact h ⟨ht, Or.inr (lt_of_not_ge hgt)⟩
  · rintro (h | ⟨h1, h2⟩) ⟨ht, hs⟩
    · exact ht h
    · rcases hs with hs | hs
      · exact h1 hs
      · exact absurd hs (not_lt.mpr h2)

lemma run_method_loop_result (method : method_type K M)
    (get_row : String → Option (List Nat)) (missing : K)
    (hlen : ∀ self row1 row2 output,
      (method.run self row1 row2 output).output.length = output.length)
    (pairs : List (String × String)) :
    ∀ (self : M) (result : List (result_event K)),
      (run_method_loop method get_row (method.init.length + 1) method.threshold missing
        self pairs result).result
        = result ++ driver_writes method get_row missing self pairs := by
  induction pairs with
  | nil =>
    intro self result
    simp [run_method_loop, driver_writes]
  | cons pair pairs ih =>
    intro self result
    unfold run_method_loop driver_writes
    cases h1 : get_row pair.1 with
    | none => exact ih self result
    | some row1 =>
      cases h2 : get_row pair.2 with
      | none => exact ih self result
      | some row2 =>
        dsimp only
        cases hret : (method.run self row1 row2
            (List.replicate (method.init.length + 1) missing)).ret with
        | none => simp
        | some statistic =>
          dsimp only
          by_cases hc : method.threshold ≠ -9
              ∧ (statistic = -9 ∨ statistic > method.threshold)
          · rw [if_pos hc, if_neg (fun h => (row_written_iff _ _).mpr h hc), ih]
            simp
          · rw [if_neg hc, if_pos ((row_written_iff _ _).mp hc), ih]
            have hl := hlen self row1 row2 (List.replicate (method.init.length + 1) missing)
            rw [List.length_replicate] at hl
            rw [Nat.add_sub_cancel, set_last_eq_take_append _ _ _ hl]
            simp

/-- C23: `run_method` first sets the header of the result file to the header of the
method followed by the column `N`, and then makes only `write` calls: for each pair whose
two genotype rows exist, a row is written if and only if the threshold is -9, or the
statistic returned by the method is not -9 and at most the threshold; a written row holds
the columns that `run` left in the array, followed by `num_ok_samples` of the pair as its
last element; pairs with a missing genotype row are skipped.  The hypothesis says that
`run` keeps the size of the array it is given. -/
theorem run_method_rows (method : method_type K M) (self : M)
    (get_row : String → Option (List Nat)) (pairs : List (String × String))
    (result : List (result_event K)) (missing : K)
    (hlen : ∀ self row1 row2 output,
      (method.run self row1 row2 output).output.length = output.length) :
    (run_method method self get_row pairs result missing).result
      = result ++ result_event.set_header (method.init ++ ["N"])
          :: driver_writes method get_row missing self pairs
    ∧ ∀ e ∈ driver_writes method get_row missing self pairs,
        ∃ pair row v, e = result_event.write pair (row ++ [v])
          ∧ row.length = method.init.length := by
  constructor
  · unfold run_method
    dsimp only
    rw [show (method.init ++ ["N"]).length = method.init.length + 1 by simp,
      run_method_loop_result method get_row missing hlen]
    simp
  · induction pairs generalizing self with
    | nil =>
      intro e he
      simp [driver_writes] at he
    | cons pair pairs ih =>
      intro e he
      unfold driver_writes at he
      cases h1 : get_row pair.1 with
      | none =>
        rw [h1] at he
        exact ih self e he
      | some row1 =>
        cases h2 : get_row pair.2 with
        | none =>
          rw [h1, h2] at he
          exact ih self e he
        | some row2 =>
          rw [h1, h2] at he
          dsimp only at he
          cases hret : (method.run self row1 row2
              (List.replicate (method.init.length + 1) missing)).ret with
          | none =>
            rw [hret] at he
            simp at he
          | some statistic =>
            rw [hret] at he
            dsimp only at he
            rcases List.mem_append.mp he with h | h
            · split_ifs at h
              · rw [List.mem_singleton] at h
                refine ⟨pair, _, _, h, ?_⟩
                rw [List.length_take, hlen, List.length_replicate]
                omega
              · simp at h
            · exact ih _ e h

lemma wald_run_length (t : K) (cdf : K → Nat → Option K) (self : wald_lm_method K)
    (row1 row2 : List Nat) (output : List K) :
    (wald_lm_method.run t cdf self row1 row2 output).output.length = output.length := by
  unfold wald_lm_method.run wald_lm_method.run_table
  dsimp only
  split
  · rfl
  · split
    · rfl
    · split <;> simp

lemma two_sample_table_n :
    (accumulate [0, 1] [0, 1] two_sample_method.m_missing two_sample_method.m_pheno).n
      = (fun i j => if i = j ∧ i < 2 then (1 : ℚ) else 0) := by
  funext i j
  simp only [accumulate, accumulate_upto, accumulate_step, two_sample_method, List.range,
    List.range.loop, List.foldl, List.getD_cons_zero, List.getD_cons_succ, List.length_cons,
    List.length_nil]
  rcases i with _ | _ | i <;> rcases j with _ | _ | j <;> norm_num [add_at, zeros]
  all_goals rw [if_neg (by omega)]

/-- The call of `run` on the two samples at cell threshold 1: no contrast is valid, the
array is untouched and the recorded sample count is 2. -/
lemma two_sample_run (output : List ℚ) :
    (wald_lm_method.run 1 (fun _ _ => some 0) two_sample_method [0, 1] [0, 1] output).ret
      = some (-9)
    ∧ (wald_lm_method.run 1 (fun _ _ => some 0) two_sample_method [0, 1] [0, 1]
        output).output = output
    ∧ (wald_lm_method.run 1 (fun _ _ => some 0) two_sample_method [0, 1] [0, 1]
        output).self.m_num_ok_samples = 2 := by
  have hv : valid_contrasts
      (accumulate [0, 1] [0, 1] two_sample_method.m_missing two_sample_method.m_pheno).n
      (1 : ℚ) = [] := by
    rw [two_sample_table_n]
    simp [valid_contrasts, contrast_list, contrast_valid, retained, List.filter_cons,
      -Prod.mk_one_one, -Prod.mk_zero_zero]
  obtain ⟨h1, h2, _⟩ := run_table_of_no_valid (1 : ℚ) (fun _ _ => some 0) two_sample_method
    (accumulate [0, 1] [0, 1] two_sample_method.m_missing two_sample_method.m_pheno)
    output hv
  refine ⟨h1, h2, ?_⟩
  unfold wald_lm_method.run
  rw [run_table_num_ok_samples, moments_num_samples]
  simp only [retained_total, cells, List.filter_cons, List.filter_nil, retained,
    two_sample_table_n]
  norm_num

/-- Witness of `run_method_rows`: the Wald method with driver threshold -9 on the pairs
`(a, b)` and `(a, c)` of a store that has no row `c`: the header is `LR P df N`, the first
pair gives the row `-9 -9 -9 2`, the second pair is skipped. -/
theorem run_method_rows_witness :
    (∀ (self : wald_lm_method ℚ) (row1 row2 : List Nat) (output : List ℚ),
      ((wald_method (1 : ℚ) (fun _ _ => some 0) (-9)).run self row1 row2
        output).output.length = output.length)
    ∧ (run_method (wald_method (1 : ℚ) (fun _ _ => some 0) (-9)) two_sample_method two_rows
        [("a", "b"), ("a", "c")] [] (-9)).result
      = [result_event.set_header ["LR", "P", "df", "N"],
          result_event.write ("a", "b") [-9, -9, -9, 2]] := by
  have hlen : ∀ (self : wald_lm_method ℚ) (row1 row2 : List Nat) (output : List ℚ),
      ((wald_method (1 : ℚ) (fun _ _ => some 0) (-9)).run self row1 row2
        output).output.length = output.length :=
    fun self row1 row2 output => wald_run_length 1 _ self row1 row2 output
  refine ⟨hlen, ?_⟩
  rw [(run_method_rows (wald_method (1 : ℚ) (fun _ _ => some 0) (-9)) two_sample_method
    two_rows [("a", "b"), ("a", "c")] [] (-9) hlen).1]
  obtain ⟨h1, h2, h3⟩ := two_sample_run [-9, -9, -9, -9]
  have ha : two_rows "a" = some [0, 1] := by decide
  have hb : two_rows "b" = some [0, 1] := by decide
  have hc : two_rows "c" = none := by decide
  simp [driver_writes, wald_method, wald_lm_method.init, ha, hb, hc, h1, h2, h3]

end Driver

/-! ## Theorems: the header of a covariate file -/

section Header

lemma get_fields_eq (header : String) :
    get_fields header
      = match header_tokens header with
        | [] => get_fields_result.runtime_error
        | [f0] =>
          if f0 = "FID" then get_fields_result.out_of_range
          else get_fields_result.runtime_error
        | f0 :: f1 :: rest =>
          if f0 = "FID" ∧ f1 = "IID" then get_fields_result.returned (f0 :: f1 :: rest)
          else get_fields_result.runtime_error := by
  unfold get_fields
  rcases h : header_tokens header with _ | ⟨f0, _ | ⟨f1, rest⟩⟩
  · simp
  · by_cases h0 : f0 = "FID" <;> simp [h0]
  · by_cases h0 : f0 = "FID" <;> by_cases h1 : f1 = "IID" <;> simp [h0, h1]

lemma header_tokens_single : header_tokens "FID" = ["FID"] := by
  decide

/-- C21, evaluation at a failing input: the header `FID` has the single token `FID`, so
`fields.size( ) <= 0` is false and `fields[ 0 ] != "FID"` is false, and line 36 goes on
to evaluate `fields[ 1 ]` on a vector of size 1: the call reads past the end of the
token list instead of throwing.  For every other header the call throws
`std::runtime_error` unless the first two tokens are `FID` and `IID`, and returns all
tokens in their order otherwise. -/
theorem get_fields_single_token :
    get_fields "FID" = get_fields_result.out_of_range
    ∧ get_fields "" = get_fields_result.runtime_error
    ∧ get_fields "FID IID age" = get_fields_result.returned ["FID", "IID", "age"]
    ∧ ∀ header : String,
        get_fields header
          = match header_tokens header with
            | [] => get_fields_result.runtime_error
            | [f0] =>
              if f0 = "FID" then get_fields_result.out_of_range
              else get_fields_result.runtime_error
            | f0 :: f1 :: rest =>
              if f0 = "FID" ∧ f1 = "IID" then get_fields_result.returned (f0 :: f1 :: rest)
              else get_fields_result.runtime_error := by
  refine ⟨?_, ?_, ?_, get_fields_eq⟩
  · rw [get_fields_eq, header_tokens_single]
    rfl
  · rw [get_fields_eq]
    rfl
  · rw [get_fields_eq]
    rfl

end Header

end Besiq
